import Mathlib

/-!
Shallow embedding of the `mparith` multi-precision signed-integer library
(`src/mparith.hpp`) and verification of its specification claims.

An `Integer<Width>` stores `std::vector<std::bitset<8>> _bits`: a little-endian
sequence of 8-bit words.  We embed the whole bit store as a flat `List Bool`
(least-significant bit first); word `i`, bit `j` of the source is index
`8*i + j` of the list.  The compile-time width parameter becomes the runtime
tag `t_Width`.  Out-parameter flags become returned `Bool`s (the C++ kernels
only ever set them to `true`, so the returned value is "this call sets the
flag" and callers latch with `||`).  Thrown exceptions become `Except`.
The out-of-bounds `std::ranges::copy` that `Get_Normalized` performs when
asked to shrink (`actual_width < Get_Actual_Width()`) is undefined behavior
in the source; it is modelled as the error value `MpError.outOfBounds`.
-/

namespace mparith

/-- Number width: a fixed byte count, or unlimited (`kUnlimited` sentinel). -/
inductive t_Width where
  | fixed (n : Nat) : t_Width
  | unlimited : t_Width
deriving DecidableEq, Repr

/-- Minimal number width (`kWidth_Min`). -/
def kWidth_Min : Nat := 4

/-- Bits count of the word type (`kWord_Bits_Cnt`). -/
def kWord_Bits_Cnt : Nat := 8

/-- `Get_Max` on widths: `kUnlimited` is `SIZE_MAX`, so it dominates. -/
def Get_Max_Width : t_Width → t_Width → t_Width
  | .fixed a, .fixed b => .fixed (max a b)
  | _, _ => .unlimited

/-- The multi-precision integer: width tag plus flat little-endian bit list. -/
structure Integer where
  width : t_Width
  bits : List Bool
deriving DecidableEq, Repr

/-- Errors crossing the boundary: `ArithmeticException` messages,
`OverflowException` carrying the truncated result, the undefined behavior of
the shrinking `std::ranges::copy` in `Get_Normalized`, and exhaustion of the
fuel that bounds the source's unbounded loops. -/
inductive MpError where
  | arithmetic (msg : String) : MpError
  | overflow (result : Integer) : MpError
  | outOfBounds : MpError
  | fuelExhausted : MpError
deriving DecidableEq, Repr

/-- Unsigned value of a little-endian bit list. -/
def bitsToNat : List Bool → Nat
  | [] => 0
  | b :: bs => b.toNat + 2 * bitsToNat bs

/-- Two's-complement value of a little-endian bit list
(the top bit is the sign bit). -/
def bitsToInt (bs : List Bool) : Int :=
  (bitsToNat bs : Int) - (if bs.getD (bs.length - 1) false then (2 : Int) ^ bs.length else 0)

namespace Integer

/-- Unsigned reading of the bit store. -/
def toNatU (x : Integer) : Nat := bitsToNat x.bits

/-- Two's-complement value of the stored bits. -/
def toInt (x : Integer) : Int := bitsToInt x.bits

/-- Words allocated by the default constructor `Integer()`:
`Width` for a limited width, `kWidth_Min` for unlimited. -/
def initWords : t_Width → Nat
  | .fixed n => n
  | .unlimited => kWidth_Min

/-- `Integer<Width>::kZero` (the default-constructed value: all words zero). -/
def kZero (w : t_Width) : Integer :=
  ⟨w, List.replicate (kWord_Bits_Cnt * initWords w) false⟩

/-- `operator[]` (const): bit `idx` of the word vector. -/
def getBit (x : Integer) (idx : Nat) : Bool := x.bits.getD idx false

/-- `operator[]` (reference assignment): set bit `idx`. -/
def setBit (x : Integer) (idx : Nat) (b : Bool) : Integer :=
  ⟨x.width, x.bits.set idx b⟩

/-- `Integer<Width>::kOne` (default value with bit 0 set). -/
def kOne (w : t_Width) : Integer := (kZero w).setBit 0 true

/-- `Integer<Width>::kTwo` (default value with bit 1 set). -/
def kTwo (w : t_Width) : Integer := (kZero w).setBit 1 true

/-- `Integer<Width>::kTen` (default value with bits 1 and 3 set). -/
def kTen (w : t_Width) : Integer := ((kZero w).setBit 1 true).setBit 3 true

/-- `Get_Actual_Width`: the width for limited integers, `_bits.size()` for
unlimited ones. -/
def Get_Actual_Width (x : Integer) : Nat :=
  match x.width with
  | .fixed n => n
  | .unlimited => x.bits.length / kWord_Bits_Cnt

/-- `Get_Actual_Bits_Cnt`. -/
def Get_Actual_Bits_Cnt (x : Integer) : Nat :=
  x.Get_Actual_Width * kWord_Bits_Cnt

/-- `Is_Positive`: the sign bit (bit 7 of the last word) is clear. -/
def Is_Positive (x : Integer) : Bool :=
  !(x.bits.getD (x.Get_Actual_Bits_Cnt - 1) false)

/-- The sign-extension padding `Get_Normalized` appends beyond the current
actual width: words `0x00` for non-negative values, `0xFF` (flipped zero
words) for negative ones. -/
def normTo (x : Integer) (actual_width : Nat) : List Bool :=
  x.bits ++ List.replicate (kWord_Bits_Cnt * actual_width - kWord_Bits_Cnt * x.Get_Actual_Width)
    (!x.Is_Positive)

/-- `Get_Normalized<New_Width>(actual_width)`.  When the requested actual
width is below the current one the source performs an out-of-bounds
`std::ranges::copy` (undefined behavior), modelled as `outOfBounds`. -/
def Get_Normalized (x : Integer) (new_width : t_Width) (actual_width : Nat) :
    Except MpError Integer :=
  if x.Get_Actual_Width ≤ actual_width then
    .ok ⟨new_width, x.normTo actual_width⟩
  else
    .error .outOfBounds

/-- `Get_Normalized_New<Width_>(actual_width)`: a default-constructed value
normalized up to `actual_width`. -/
def Get_Normalized_New (w : t_Width) (actual_width : Nat) : Except MpError Integer :=
  (kZero w).Get_Normalized w actual_width

/-- `Get_Inverse`: flip every stored bit (both source branches flip the whole
store). -/
def Get_Inverse (x : Integer) : Integer := ⟨x.width, x.bits.map (!·)⟩

/-- The ripple-carry loop of `Add`: `result[i] = l[i] ^ r[i] ^ c`,
`c = (l[i] & r[i]) | ((l[i] ^ r[i]) & c)`, iterating over the left operand's
bits and reading the right one positionally. -/
def addBits : List Bool → List Bool → Bool → List Bool × Bool
  | [], _, c => ([], c)
  | a :: as, r, c =>
    let b := r.headD false
    let s := (a.xor b).xor c
    let c' := (a && b) || ((a.xor b) && c)
    let (rest, cout) := addBits as r.tail c'
    (s :: rest, cout)

/-- `Add(lhs, rhs, overflow_flag, carry_flag)`.  Returns the result together
with "sets the overflow flag" and "sets the carry flag" (the C++ out-flags are
only ever written with `true`).  The two `Get_Normalized_Existing` calls of
the source target `max` of the two actual widths, which is never below either
operand's actual width, so they always take the non-shrinking branch
(`Get_Normalized_max_eq_ok` below); `Add` is therefore a total function built
directly on that branch, `normTo`. -/
def Add (lhs rhs : Integer) : Integer × Bool × Bool :=
  let result_width := Get_Max_Width lhs.width rhs.width
  let result_actual_width := max lhs.Get_Actual_Width rhs.Get_Actual_Width
  let left : Integer := ⟨result_width, lhs.normTo result_actual_width⟩
  let right : Integer := ⟨result_width, rhs.normTo result_actual_width⟩
  let (sum, carry) := addBits left.bits right.bits false
  let result : Integer := ⟨result_width, sum⟩
  let result :=
    match result_width with
    | .unlimited =>
      if left.Is_Positive && right.Is_Positive && !result.Is_Positive then
        ⟨result_width, result.bits ++ List.replicate kWord_Bits_Cnt false⟩
      else if !left.Is_Positive && !right.Is_Positive && result.Is_Positive then
        ⟨result_width, result.bits ++ List.replicate kWord_Bits_Cnt true⟩
      else result
    | .fixed _ => result
  let overflow_set :=
    match result_width with
    | .fixed _ =>
      (left.Is_Positive && right.Is_Positive && !result.Is_Positive) ||
      (!left.Is_Positive && !right.Is_Positive && result.Is_Positive)
    | .unlimited => false
  (result, overflow_set, carry)

/-- `Get_Complement`: `Add(Get_Inverse(), kOne)` with both flags discarded. -/
def Get_Complement (x : Integer) : Integer :=
  (Add x.Get_Inverse (kOne x.width)).1

/-- `Get_Positive`: the value itself if non-negative, else its complement. -/
def Get_Positive (x : Integer) : Integer :=
  if x.Is_Positive then x else x.Get_Complement

/-- `operator==`: unequal signs are unequal; otherwise compare the bit
strings at the common actual width. -/
def beq (x y : Integer) : Bool :=
  if x.Is_Positive.xor y.Is_Positive then false
  else
    let a := max x.Get_Actual_Width y.Get_Actual_Width
    x.normTo a == y.normTo a

/-- `operator!=`. -/
def bne (x y : Integer) : Bool := !(beq x y)

/-- `operator<<` (used only with shift 1): logical left shift of the current
bit string, truncating high bits, never growing. -/
def shl (x : Integer) (shift : Nat) : Integer :=
  ⟨x.width, (List.replicate shift false ++ x.bits).take x.bits.length⟩

/-- `operator>>` (used only with shift 1): logical (zero-fill) right shift. -/
def shr (x : Integer) (shift : Nat) : Integer :=
  ⟨x.width, x.bits.drop shift ++ List.replicate (min shift x.bits.length) false⟩

/-- The loop of `Get_Msb_Idx`: scan from bit `i` down to bit 1, returning the
first set index, else 0. -/
def msbFrom (bs : List Bool) : Nat → Nat
  | 0 => 0
  | i + 1 => if bs.getD (i + 1) false then i + 1 else msbFrom bs i

/-- `Get_Msb_Idx`: highest set bit index, or 0 when no bit (above 0) is set. -/
def Get_Msb_Idx (x : Integer) : Nat :=
  msbFrom x.bits (x.Get_Actual_Bits_Cnt - 1)

/-- `operator+`: throws `OverflowException` with the constructed result when
the kernel set the overflow flag. -/
def opAdd (x y : Integer) : Except MpError Integer :=
  let (result, overflow_flag, _) := Add x y
  if overflow_flag then throw (.overflow result)
  else pure result

/-- `operator-` (binary): `lhs + rhs.Get_Complement()`. -/
def opSub (x y : Integer) : Except MpError Integer :=
  opAdd x y.Get_Complement

/-- The shift-and-add loop of `Mul`: at each step, if bit 0 of the right
operand is set, add the left operand into the result (latching the carry
flag); then shift left up, right down.  The C++ `carry_flag` local is
declared uninitialized and only ever written with `true`; it is modelled as
starting `false`. -/
def mulLoop : Nat → Integer → Integer → Integer → Bool → Integer × Bool
  | 0, result, _, _, carry_flag => (result, carry_flag)
  | steps + 1, result, left, right, carry_flag =>
    let (result, carry_flag) :=
      if right.getBit 0 then
        let (r, _, c) := Add result left
        (r, carry_flag || c)
      else
        (result, carry_flag)
    mulLoop steps result (left.shl 1) (right.shr 1) carry_flag

/-- `Shrink` (local lambda in `Mul`, unlimited widths only): resize the word
vector to `max((msb_idx+1)/8 + 1, kWidth_Min)` words (`std::vector::resize`
truncates or zero-fills). -/
def Shrink (x : Integer) : Integer :=
  let msb_idx := x.Get_Msb_Idx
  let size := max ((msb_idx + 1) / kWord_Bits_Cnt + 1) kWidth_Min
  ⟨x.width, (x.bits.take (kWord_Bits_Cnt * size)) ++
    List.replicate (kWord_Bits_Cnt * size - x.bits.length) false⟩

/-- `Mul(lhs, rhs, overflow_flag)`: sign-aware shift-and-add multiplication.
Returns the result and "sets the overflow flag". -/
def Mul (lhs rhs : Integer) : Except MpError (Integer × Bool) := do
  let result_width := Get_Max_Width lhs.width rhs.width
  let result_actual_width := max lhs.Get_Actual_Width rhs.Get_Actual_Width
  let result_is_positive := !(lhs.Is_Positive.xor rhs.Is_Positive)
  let left ← lhs.Get_Positive.Get_Normalized result_width result_actual_width
  let right ← rhs.Get_Positive.Get_Normalized result_width result_actual_width
  let (left, right) ←
    match result_width with
    | .unlimited => do
      let extended := 2 * result_actual_width
      let l ← left.Get_Normalized result_width extended
      let r ← right.Get_Normalized result_width extended
      pure (l, r)
    | .fixed _ => pure (left, right)
  let right_msb := right.Get_Msb_Idx
  let (result, carry_flag) := mulLoop (right_msb + 1) (kZero result_width) left right false
  let overflow_set :=
    match result_width with
    | .fixed _ => carry_flag || !result.Is_Positive
    | .unlimited => false
  let result :=
    match result_width with
    | .unlimited => Shrink result
    | .fixed _ => result
  if result_is_positive then
    pure (result, overflow_set)
  else
    pure (result.Get_Complement, overflow_set)

/-- `operator*`: throws `OverflowException` carrying the truncated result
when the kernel set the overflow flag. -/
def opMul (x y : Integer) : Except MpError Integer := do
  let (result, overflow_flag) ← Mul x y
  if overflow_flag then throw (.overflow result)
  pure result

/-- The long-division loop of `Div_Mod`, iterating over numerator bit
positions from the MSB down to 0: shift the remainder, bring down the next
numerator bit, subtract the denominator (via `operator-`, which can throw),
and keep the difference when it is non-negative. -/
def divLoop (numerator denominator : Integer) :
    List Nat → Integer → Integer → Except MpError (Integer × Integer)
  | [], quotient, remainder => pure (quotient, remainder)
  | idx :: idxs, quotient, remainder => do
    let remainder := (remainder.shl 1).setBit 0 (numerator.getBit idx)
    let difference ← opSub remainder denominator
    let (quotient, remainder) :=
      if difference.Is_Positive then (quotient.setBit idx true, difference)
      else (quotient, remainder)
    divLoop numerator denominator idxs quotient remainder

/-- `Div_Mod(lhs, rhs)`: returns `(quotient, remainder)`; throws
`ArithmeticException("Division By Zero")` on a zero divisor, returns
`(kZero, kZero)` (the enclosing class's zero, re-tagged to the result width)
on a zero dividend. -/
def Div_Mod (lhs rhs : Integer) : Except MpError (Integer × Integer) := do
  if beq rhs (kZero lhs.width) then throw (.arithmetic "Division By Zero")
  if beq lhs (kZero lhs.width) then
    let result_width := Get_Max_Width lhs.width rhs.width
    pure (⟨result_width, (kZero lhs.width).bits⟩, ⟨result_width, (kZero lhs.width).bits⟩)
  else do
    let result_width := Get_Max_Width lhs.width rhs.width
    let result_actual_width := max lhs.Get_Actual_Width rhs.Get_Actual_Width
    let result_is_positive := !(lhs.Is_Positive.xor rhs.Is_Positive)
    let numerator ← lhs.Get_Positive.Get_Normalized result_width result_actual_width
    let denominator ← rhs.Get_Positive.Get_Normalized result_width result_actual_width
    let quotient ← Get_Normalized_New result_width result_actual_width
    let remainder ← Get_Normalized_New result_width result_actual_width
    let numerator_msb := numerator.Get_Msb_Idx
    let idxs := ((List.range (numerator_msb + 1)).reverse)
    let (quotient, remainder) ← divLoop numerator denominator idxs quotient remainder
    if result_is_positive then
      pure (quotient, remainder)
    else
      pure (quotient.Get_Complement, remainder)

/-- `operator/`. -/
def opDiv (x y : Integer) : Except MpError Integer := do
  let (q, _) ← Div_Mod x y
  pure q

/-- `operator%`. -/
def opMod (x y : Integer) : Except MpError Integer := do
  let (_, r) ← Div_Mod x y
  pure r

/-- Unary `operator-`: two's-complement negation (`noexcept`). -/
def opNeg (x : Integer) : Integer := x.Get_Complement

/-- The loop of `Factorial`: `for (multiplier = 2; multiplier != *this;
++multiplier) result = Mul(result, multiplier, overflow_flag)`.  The source
loop is bounded only by the `!=` test; the embedding carries fuel that the
verified preconditions show is sufficient. -/
def factLoop (limit : Integer) :
    Nat → Integer → Integer → Bool → Except MpError (Integer × Bool)
  | 0, _, _, _ => throw .fuelExhausted
  | fuel + 1, result, multiplier, overflow_flag =>
    if bne multiplier limit then do
      let (result, o) ← Mul result multiplier
      let m ← opAdd multiplier (kOne multiplier.width)
      factLoop limit fuel result m (overflow_flag || o)
    else
      pure (result, overflow_flag)

/-- `Factorial()`: fails on negative values, returns `kOne` for 0 and 1,
otherwise multiplies up from 2, throwing the latched overflow at the end. -/
def Factorial (x : Integer) : Except MpError Integer := do
  if !x.Is_Positive then throw (.arithmetic "Factorial Of Negative Number")
  if beq x (kZero x.width) || beq x (kOne x.width) then
    pure (kOne x.width)
  else do
    let (result, overflow_flag) ← factLoop x (x.toNatU + 1) x (kTwo x.width) false
    if overflow_flag then throw (.overflow result)
    pure result

/-- `operator++` (prefix): `*this = ((*this) + kOne)`, modelled as the new
receiver value, or the error with the receiver left unchanged. -/
def incState (x : Integer) : Integer × Option MpError :=
  match opAdd x (kOne x.width) with
  | .ok r => (r, none)
  | .error e => (x, some e)

/-- `operator--` (prefix): `*this = ((*this) - kOne)`. -/
def decState (x : Integer) : Integer × Option MpError :=
  match opSub x (kOne x.width) with
  | .ok r => (r, none)
  | .error e => (x, some e)

/-- `operator+=`: `*this = ((*this) + rhs)`; on a thrown error the rebinding
never happens. -/
def addAssign (x y : Integer) : Integer × Option MpError :=
  match opAdd x y with
  | .ok r => (r, none)
  | .error e => (x, some e)

/-- `operator-=`. -/
def subAssign (x y : Integer) : Integer × Option MpError :=
  match opSub x y with
  | .ok r => (r, none)
  | .error e => (x, some e)

/-- `operator*=`. -/
def mulAssign (x y : Integer) : Integer × Option MpError :=
  match opMul x y with
  | .ok r => (r, none)
  | .error e => (x, some e)

/-- `operator/=`. -/
def divAssign (x y : Integer) : Integer × Option MpError :=
  match opDiv x y with
  | .ok r => (r, none)
  | .error e => (x, some e)

/-- `operator%=`. -/
def modAssign (x y : Integer) : Integer × Option MpError :=
  match opMod x y with
  | .ok r => (r, none)
  | .error e => (x, some e)

/-- The 8-bit word built from a digit character in `Deserialize`
(`std::bitset<8> bits = c - '0'`). -/
def byteBits (v : Nat) : List Bool :=
  (List.range kWord_Bits_Cnt).map (fun i => v.testBit i)

/-- The private bitset constructor `Integer(const std::bitset<Bits_Cnt>&)`
applied to a single word: a default-constructed value with its low word set. -/
def ofByte (w : t_Width) (v : Nat) : Integer :=
  ⟨w, byteBits v ++ (kZero w).bits.drop kWord_Bits_Cnt⟩

/-- The character-processing loop of `Deserialize`: an optional leading `+`
or `-`, then multiply-and-add digit accumulation with a latched overflow
flag. -/
def desLoop (w : t_Width) :
    List Char → Bool → Integer → Bool → Bool → Except MpError (Integer × Bool × Bool)
  | [], _, result, is_positive, overflow_flag => pure (result, is_positive, overflow_flag)
  | c :: cs, isFirst, result, is_positive, overflow_flag =>
    if isFirst && c = '+' then
      desLoop w cs false result is_positive overflow_flag
    else if isFirst && c = '-' then
      desLoop w cs false result false overflow_flag
    else do
      let (result, overflow_flag) ←
        if isFirst then
          pure (result, overflow_flag)
        else do
          let (r, o) ← Mul result (kTen w)
          pure (r, overflow_flag || o)
      let (result, o2, _) := Add result (ofByte w ((c.toNat - '0'.toNat) % 256))
      desLoop w cs false result is_positive (overflow_flag || o2)

/-- `Deserialize(str)`: decimal decoding; throws `OverflowException` with the
truncated accumulator when any step latched the overflow flag; negates at the
end for a leading `-`. -/
def Deserialize (w : t_Width) (str : String) : Except MpError Integer := do
  let (result, is_positive, overflow_flag) ←
    desLoop w str.data true (kZero w) true false
  if overflow_flag then throw (.overflow result)
  if is_positive then pure result
  else pure result.Get_Complement

/-- The digit character pushed by `Serialize`: the low word of `copy % kTen`,
plus `'0'`. -/
def digitChar (r : Integer) : Char :=
  Char.ofNat (bitsToNat (r.bits.take kWord_Bits_Cnt) + '0'.toNat)

/-- The digit-extraction loop of `Serialize`
(`for (; copy != kZero; copy /= kTen)`), producing characters most
significant first (the source pushes onto a stack and pops).  Fuel bounds the
source's unbounded loop. -/
def serLoop (w : t_Width) : Nat → Integer → Except MpError (List Char)
  | 0, _ => throw .fuelExhausted
  | fuel + 1, copy =>
    if bne copy (kZero w) then do
      let m ← opMod copy (kTen w)
      let q ← opDiv copy (kTen w)
      let rest ← serLoop w fuel q
      pure (rest ++ [digitChar m])
    else
      pure []

/-- `Serialize()`: `"0"` for zero; otherwise repeated division by ten of the
absolute value, with a leading `-` for negative values. -/
def Serialize (x : Integer) : Except MpError String := do
  let (copy, is_positive) :=
    if !x.Is_Positive then (x.Get_Complement, false)
    else (x, true)
  if beq x (kZero x.width) then pure "0"
  else do
    let digits ← serLoop x.width (copy.toNatU + 1) copy
    pure (String.mk ((if is_positive then [] else ['-']) ++ digits))

/-- Well-formedness: the representation invariants of §3 of the spec.  A
fixed width is at least `kWidth_Min` and owns exactly that many words; an
unlimited value owns at least `kWidth_Min` whole words. -/
def Wf (x : Integer) : Prop :=
  match x.width with
  | .fixed n => kWidth_Min ≤ n ∧ x.bits.length = kWord_Bits_Cnt * n
  | .unlimited => kWord_Bits_Cnt * kWidth_Min ≤ x.bits.length ∧
      kWord_Bits_Cnt ∣ x.bits.length

instance (x : Integer) : Decidable x.Wf := by
  unfold Wf
  cases x.width <;> infer_instance

end Integer

/-- Bits of a natural number, little-endian, at a given length (a helper for
writing concrete test values). -/
def natBits (len n : Nat) : List Bool :=
  (List.range len).map (fun i => n.testBit i)

/-- A concrete `Fixed(n)` value from an integer (two's complement, helper for
concrete inputs). -/
def ofIntFixed (n : Nat) (v : Int) : Integer :=
  ⟨.fixed n, natBits (kWord_Bits_Cnt * n) ((v % (2 ^ (kWord_Bits_Cnt * n) : Nat)).toNat)⟩

/-- A concrete unlimited value with a given word count from an integer. -/
def ofIntUnlimited (words : Nat) (v : Int) : Integer :=
  ⟨.unlimited, natBits (kWord_Bits_Cnt * words) ((v % (2 ^ (kWord_Bits_Cnt * words) : Nat)).toNat)⟩

end mparith


/-! ## Arithmetic facts about the bit-list representation -/

namespace mparith

theorem bitsToNat_nil : bitsToNat [] = 0 := rfl

theorem bitsToNat_cons (b : Bool) (bs : List Bool) :
    bitsToNat (b :: bs) = b.toNat + 2 * bitsToNat bs := rfl

theorem bitsToNat_lt (bs : List Bool) : bitsToNat bs < 2 ^ bs.length := by
  induction bs with
  | nil => simp [bitsToNat]
  | cons b t ih =>
    simp only [bitsToNat_cons, List.length_cons, pow_succ]
    cases b <;> simp [Bool.toNat] <;> omega

theorem bitsToNat_append (a b : List Bool) :
    bitsToNat (a ++ b) = bitsToNat a + 2 ^ a.length * bitsToNat b := by
  induction a with
  | nil => simp [bitsToNat]
  | cons x t ih =>
    simp only [List.cons_append, bitsToNat_cons, ih, List.length_cons, pow_succ]
    ring

theorem bitsToNat_replicate_false (k : Nat) :
    bitsToNat (List.replicate k false) = 0 := by
  induction k with
  | zero => rfl
  | succ n ih => simp [List.replicate_succ, bitsToNat_cons, ih]

theorem bitsToNat_replicate_true (k : Nat) :
    bitsToNat (List.replicate k true) + 1 = 2 ^ k := by
  induction k with
  | zero => rfl
  | succ n ih =>
    simp only [List.replicate_succ, bitsToNat_cons, pow_succ, Bool.toNat_true]
    omega

theorem bitsToNat_testBit (bs : List Bool) (i : Nat) :
    (bitsToNat bs).testBit i = bs.getD i false := by
  induction bs generalizing i with
  | nil => simp [bitsToNat]
  | cons b t ih =>
    cases i with
    | zero =>
      simp only [Nat.testBit_zero, bitsToNat_cons, List.getD_cons_zero]
      cases b <;> simp [Bool.toNat]
    | succ n =>
      rw [Nat.testBit_succ]
      have : (b.toNat + 2 * bitsToNat t) / 2 = bitsToNat t := by
        cases b <;> simp [Bool.toNat] <;> omega
      simp only [bitsToNat_cons, this, ih, List.getD_cons_succ]

theorem bitsToNat_inj (a b : List Bool) (hlen : a.length = b.length)
    (h : bitsToNat a = bitsToNat b) : a = b := by
  induction a generalizing b with
  | nil => cases b with
    | nil => rfl
    | cons _ _ => simp at hlen
  | cons x t ih =>
    cases b with
    | nil => simp at hlen
    | cons y s =>
      simp only [bitsToNat_cons] at h
      have hxy : x = y := by cases x <;> cases y <;> simp [Bool.toNat] at h ⊢ <;> omega
      subst hxy
      have : bitsToNat t = bitsToNat s := by cases x <;> simp [Bool.toNat] at h <;> omega
      simp only [List.length_cons] at hlen
      rw [ih s (by omega) this]

theorem bitsToNat_eq_zero_iff (bs : List Bool) :
    bitsToNat bs = 0 ↔ bs = List.replicate bs.length false := by
  constructor
  · intro h
    exact bitsToNat_inj bs _ (by simp) (by rw [h, bitsToNat_replicate_false])
  · intro h
    rw [h, bitsToNat_replicate_false]

theorem bitsToNat_take (bs : List Bool) (k : Nat) :
    bitsToNat (bs.take k) = bitsToNat bs % 2 ^ k := by
  rcases le_or_lt bs.length k with h | h
  · rw [List.take_of_length_le h, Nat.mod_eq_of_lt]
    exact lt_of_lt_of_le (bitsToNat_lt bs) (Nat.pow_le_pow_right (by norm_num) h)
  · have hdecomp : bs = bs.take k ++ bs.drop k := (List.take_append_drop k bs).symm
    have hlen : (bs.take k).length = k := List.length_take_of_le (le_of_lt h)
    conv_rhs => rw [hdecomp]
    rw [bitsToNat_append, hlen, Nat.add_mul_mod_self_left, Nat.mod_eq_of_lt]
    calc bitsToNat (bs.take k) < 2 ^ (bs.take k).length := bitsToNat_lt _
    _ = 2 ^ k := by rw [hlen]

theorem bitsToNat_drop (bs : List Bool) (k : Nat) :
    bitsToNat (bs.drop k) = bitsToNat bs / 2 ^ k := by
  rcases le_or_lt bs.length k with h | h
  · rw [List.drop_of_length_le h, Nat.div_eq_of_lt]
    · rfl
    · exact lt_of_lt_of_le (bitsToNat_lt bs) (Nat.pow_le_pow_right (by norm_num) h)
  · have hdecomp : bs = bs.take k ++ bs.drop k := (List.take_append_drop k bs).symm
    have hlen : (bs.take k).length = k := List.length_take_of_le (le_of_lt h)
    conv_rhs => rw [hdecomp]
    rw [bitsToNat_append, hlen]
    rw [Nat.add_mul_div_left _ _ (Nat.pos_pow_of_pos k (by norm_num)), Nat.div_eq_of_lt, Nat.zero_add]
    calc bitsToNat (bs.take k) < 2 ^ (bs.take k).length := bitsToNat_lt _
    _ = 2 ^ k := by rw [hlen]

theorem bitsToNat_map_not (bs : List Bool) :
    bitsToNat (bs.map (!·)) + bitsToNat bs + 1 = 2 ^ bs.length := by
  induction bs with
  | nil => rfl
  | cons b t ih =>
    simp only [List.map_cons, bitsToNat_cons, List.length_cons, pow_succ]
    cases b <;> simp [Bool.toNat] <;> omega

/-- The sign bit reads the range of the unsigned value. -/
theorem sign_bit_iff (bs : List Bool) (h : bs ≠ []) :
    bs.getD (bs.length - 1) false = decide (2 ^ (bs.length - 1) ≤ bitsToNat bs) := by
  have hlen : 0 < bs.length := List.length_pos.mpr h
  rw [← bitsToNat_testBit]
  have hub : bitsToNat bs < 2 ^ bs.length := bitsToNat_lt bs
  rw [Nat.testBit_to_div_mod]
  have hpow : (2 : Nat) ^ bs.length = 2 * 2 ^ (bs.length - 1) := by
    conv_lhs => rw [show bs.length = (bs.length - 1) + 1 by omega]
    rw [pow_succ]
    ring
  have h2 : bitsToNat bs / 2 ^ (bs.length - 1) < 2 :=
    Nat.div_lt_of_lt_mul (by omega)
  rcases Nat.lt_or_ge (bitsToNat bs) (2 ^ (bs.length - 1)) with hc | hc
  · have : bitsToNat bs / 2 ^ (bs.length - 1) = 0 := Nat.div_eq_of_lt hc
    simp [this, Nat.le_of_lt, hc, Nat.not_le.mpr hc]
  · have h1 : 1 ≤ bitsToNat bs / 2 ^ (bs.length - 1) :=
      (Nat.one_le_div_iff (Nat.pos_pow_of_pos _ (by norm_num))).mpr hc
    have : bitsToNat bs / 2 ^ (bs.length - 1) = 1 := by omega
    simp [this, hc]

end mparith

namespace mparith

/-- Abbreviation for the sign bit of a bit list. -/
def signBit (bs : List Bool) : Bool := bs.getD (bs.length - 1) false

theorem bitsToInt_eq (bs : List Bool) :
    bitsToInt bs = (bitsToNat bs : Int) - (2 : Int) ^ bs.length * (signBit bs).toNat := by
  unfold bitsToInt signBit
  cases h : bs.getD (bs.length - 1) false <;> simp

theorem signBit_true_iff (bs : List Bool) (h : bs ≠ []) :
    signBit bs = true ↔ 2 ^ (bs.length - 1) ≤ bitsToNat bs := by
  unfold signBit
  rw [sign_bit_iff bs h]
  simp

theorem signBit_false_iff (bs : List Bool) (h : bs ≠ []) :
    signBit bs = false ↔ bitsToNat bs < 2 ^ (bs.length - 1) := by
  constructor
  · intro hb
    by_contra hc
    push_neg at hc
    have hx := (signBit_true_iff bs h).mpr hc
    rw [hb] at hx
    simp at hx
  · intro hlt
    cases hx : signBit bs
    · rfl
    · have := (signBit_true_iff bs h).mp hx
      omega

theorem two_pow_len_split (bs : List Bool) (h : bs ≠ []) :
    (2 : Nat) ^ bs.length = 2 * 2 ^ (bs.length - 1) := by
  have hlen : 0 < bs.length := List.length_pos.mpr h
  conv_lhs => rw [show bs.length = (bs.length - 1) + 1 by omega]
  rw [pow_succ]
  ring

theorem bitsToInt_of_signBit_false (bs : List Bool) (h : signBit bs = false) :
    bitsToInt bs = (bitsToNat bs : Int) := by
  rw [bitsToInt_eq, h]
  simp

theorem bitsToInt_of_signBit_true (bs : List Bool) (h : signBit bs = true) :
    bitsToInt bs = (bitsToNat bs : Int) - (2 : Int) ^ bs.length := by
  rw [bitsToInt_eq, h]
  simp

theorem bitsToInt_lb (bs : List Bool) (h : bs ≠ []) :
    -((2 : Int) ^ (bs.length - 1)) ≤ bitsToInt bs := by
  have hsplit := two_pow_len_split bs h
  have hsplit' : (2 : Int) ^ bs.length = 2 * 2 ^ (bs.length - 1) := by
    exact_mod_cast congrArg (Nat.cast : Nat → Int) hsplit
  rcases hb : signBit bs with _ | _
  · rw [bitsToInt_of_signBit_false bs hb]
    have h0 : (0 : Int) ≤ (bitsToNat bs : Int) := by positivity
    have hp : (0 : Int) < (2 : Int) ^ (bs.length - 1) := by positivity
    omega
  · rw [bitsToInt_of_signBit_true bs hb]
    have h1 := (signBit_true_iff bs h).mp hb
    have h2 : ((2 : Nat) ^ (bs.length - 1) : Int) ≤ (bitsToNat bs : Int) := by exact_mod_cast h1
    push_cast at h2 ⊢
    omega

theorem bitsToInt_ub (bs : List Bool) (h : bs ≠ []) :
    bitsToInt bs < (2 : Int) ^ (bs.length - 1) := by
  rcases hb : signBit bs with _ | _
  · rw [bitsToInt_of_signBit_false bs hb]
    have := (signBit_false_iff bs h).mp hb
    exact_mod_cast this
  · rw [bitsToInt_of_signBit_true bs hb]
    have hub : bitsToNat bs < 2 ^ bs.length := bitsToNat_lt bs
    have hub' : (bitsToNat bs : Int) < (2 : Int) ^ bs.length := by exact_mod_cast hub
    have : (0 : Int) < (2 : Int) ^ (bs.length - 1) := by positivity
    omega

theorem bitsToInt_neg_iff (bs : List Bool) (h : bs ≠ []) :
    bitsToInt bs < 0 ↔ signBit bs = true := by
  constructor
  · intro hneg
    by_contra hc
    have hb : signBit bs = false := by
      rcases hx : signBit bs with _ | _
      · rfl
      · exact absurd hx hc
    rw [bitsToInt_of_signBit_false bs hb] at hneg
    have : (0 : Int) ≤ (bitsToNat bs : Int) := by positivity
    omega
  · intro hb
    rw [bitsToInt_of_signBit_true bs hb]
    have hub : bitsToNat bs < 2 ^ bs.length := bitsToNat_lt bs
    have hub' : (bitsToNat bs : Int) < (2 : Int) ^ bs.length := by exact_mod_cast hub
    omega

theorem bitsToInt_nonneg_iff (bs : List Bool) (h : bs ≠ []) :
    0 ≤ bitsToInt bs ↔ signBit bs = false := by
  rw [← not_lt, bitsToInt_neg_iff bs h]
  simp

theorem bitsToInt_emod (bs : List Bool) :
    bitsToInt bs % (2 : Int) ^ bs.length = (bitsToNat bs : Int) % (2 : Int) ^ bs.length := by
  rw [bitsToInt_eq]
  rcases signBit bs with _ | _ <;> simp [Int.sub_emod, Int.mul_emod_right]

theorem bitsToNat_of_bitsToInt (bs : List Bool) :
    (bitsToNat bs : Int) = bitsToInt bs + (2 : Int) ^ bs.length * (signBit bs).toNat := by
  rw [bitsToInt_eq]
  ring

theorem bitsToInt_inj (a b : List Bool) (hlen : a.length = b.length)
    (h : bitsToInt a = bitsToInt b) : a = b := by
  apply bitsToNat_inj a b hlen
  have ha : (bitsToNat a : Int) % (2 : Int) ^ a.length =
      (bitsToNat b : Int) % (2 : Int) ^ a.length := by
    rw [← bitsToInt_emod a, h, hlen, bitsToInt_emod b]
  have h1 : (bitsToNat a : Int) < (2 : Int) ^ a.length := by exact_mod_cast bitsToNat_lt a
  have h2 : (bitsToNat b : Int) < (2 : Int) ^ a.length := by
    rw [hlen]
    exact_mod_cast bitsToNat_lt b
  have ha' : (bitsToNat a : Int) = (bitsToNat b : Int) := by
    rwa [Int.emod_eq_of_lt (by positivity) h1, Int.emod_eq_of_lt (by positivity) h2] at ha
  exact_mod_cast ha'

end mparith

namespace mparith

theorem addBits_length (l : List Bool) : ∀ (r : List Bool) (c : Bool),
    (Integer.addBits l r c).1.length = l.length := by
  induction l with
  | nil => intro r c; rfl
  | cons a as ih =>
    intro r c
    simp [Integer.addBits, ih]

theorem addBits_toNat (l : List Bool) : ∀ (r : List Bool) (c : Bool), r.length = l.length →
    bitsToNat (Integer.addBits l r c).1 +
      2 ^ l.length * (Integer.addBits l r c).2.toNat =
    bitsToNat l + bitsToNat r + c.toNat := by
  induction l with
  | nil =>
    intro r c hlen
    have : r = [] := List.eq_nil_of_length_eq_zero hlen
    subst this
    simp [Integer.addBits, bitsToNat]
  | cons a as ih =>
    intro r c hlen
    cases r with
    | nil => simp at hlen
    | cons b bs =>
      simp only [List.length_cons] at hlen
      have hlen' : bs.length = as.length := by omega
      have key := ih bs ((a && b) || ((a.xor b) && c)) hlen'
      simp only [Integer.addBits, List.headD_cons, List.tail_cons]
      have hfa : ((a.xor b).xor c).toNat + 2 * ((a && b) || ((a.xor b) && c)).toNat =
          a.toNat + b.toNat + c.toNat := by
        cases a <;> cases b <;> cases c <;> decide
      cases hab : Integer.addBits as bs ((a && b) || ((a.xor b) && c)) with
      | mk rest cout =>
        rw [hab] at key
        simp only [hab, bitsToNat_cons, List.length_cons, pow_succ]
        simp only at key
        nlinarith [key, hfa]

/-- Fold the two components into the usual statement. -/
theorem addBits_toNat_fst (l r : List Bool) (c : Bool) (hlen : r.length = l.length) :
    bitsToNat (Integer.addBits l r c).1 =
      (bitsToNat l + bitsToNat r + c.toNat) % 2 ^ l.length := by
  have h := addBits_toNat l r c hlen
  have hlt : bitsToNat (Integer.addBits l r c).1 < 2 ^ l.length := by
    have := bitsToNat_lt (Integer.addBits l r c).1
    rwa [addBits_length] at this
  rcases hc : (Integer.addBits l r c).2 with _ | _ <;> rw [hc] at h <;>
    simp only [Bool.toNat_false, Bool.toNat_true] at h
  · rw [Nat.mul_zero, Nat.add_zero] at h
    rw [← h, Nat.mod_eq_of_lt hlt]
  · rw [Nat.mul_one] at h
    rw [← h, Nat.add_mod_right, Nat.mod_eq_of_lt hlt]

theorem addBits_carry (l r : List Bool) (c : Bool) (hlen : r.length = l.length) :
    (Integer.addBits l r c).2 = decide (2 ^ l.length ≤ bitsToNat l + bitsToNat r + c.toNat) := by
  have h := addBits_toNat l r c hlen
  have hlt : bitsToNat (Integer.addBits l r c).1 < 2 ^ l.length := by
    have := bitsToNat_lt (Integer.addBits l r c).1
    rwa [addBits_length] at this
  rcases hc : (Integer.addBits l r c).2 with _ | _ <;> rw [hc] at h <;>
    simp only [Bool.toNat_false, Bool.toNat_true] at h
  · symm
    rw [decide_eq_false_iff_not]
    omega
  · symm
    rw [decide_eq_true_iff]
    omega

theorem msbFrom_le (bs : List Bool) : ∀ i, Integer.msbFrom bs i ≤ i := by
  intro i
  induction i with
  | zero => simp [Integer.msbFrom]
  | succ n ih =>
    simp only [Integer.msbFrom]
    split
    · omega
    · omega

theorem msbFrom_high_false (bs : List Bool) :
    ∀ i j, Integer.msbFrom bs i < j → j ≤ i → bs.getD j false = false := by
  intro i
  induction i with
  | zero => intro j h1 h2; omega
  | succ n ih =>
    intro j h1 h2
    by_cases hbit : bs.getD (n + 1) false
    · simp only [Integer.msbFrom, hbit, if_true] at h1
      omega
    · simp only [Integer.msbFrom, hbit, if_false] at h1
      rcases Nat.lt_or_ge j (n + 1) with hj | hj
      · exact ih j h1 (by omega)
      · have : j = n + 1 := by omega
        rw [this]
        simpa using hbit

theorem bitsToNat_lt_of_high_false (bs : List Bool) :
    ∀ k, (∀ j, k ≤ j → bs.getD j false = false) → bitsToNat bs < 2 ^ k := by
  induction bs with
  | nil =>
    intro k _
    have hz : bitsToNat ([] : List Bool) = 0 := rfl
    rw [hz]
    positivity
  | cons b t ih =>
    intro k h
    cases k with
    | zero =>
      have hb : b = false := h 0 (by omega)
      have ht : bitsToNat t < 2 ^ 0 := by
        apply ih
        intro j _
        exact h (j + 1) (by omega)
      subst hb
      simp only [bitsToNat_cons, Bool.toNat_false, pow_zero] at ht ⊢
      omega
    | succ n =>
      have ht : bitsToNat t < 2 ^ n := by
        apply ih
        intro j hj
        exact h (j + 1) (by omega)
      have hb : b.toNat ≤ 1 := Bool.toNat_le b
      simp only [bitsToNat_cons, pow_succ]
      omega

/-- The value is bounded by the reported MSB index. -/
theorem bitsToNat_lt_msbFrom (bs : List Bool) (i : Nat) (hlen : bs.length ≤ i + 1) :
    bitsToNat bs < 2 ^ (Integer.msbFrom bs i + 1) := by
  apply bitsToNat_lt_of_high_false
  intro j hj
  rcases Nat.lt_or_ge j bs.length with hjl | hjl
  · exact msbFrom_high_false bs i j (by omega) (by omega)
  · exact List.getD_eq_default _ _ hjl

end mparith

namespace mparith

/-- `x` stores exactly `A` words, and its `Get_Actual_Width` reports `A`
(the representation invariant the source maintains). -/
def Sized (x : Integer) (A : Nat) : Prop :=
  x.Get_Actual_Width = A ∧ x.bits.length = kWord_Bits_Cnt * A

instance (x : Integer) (A : Nat) : Decidable (Sized x A) := by
  unfold Sized
  infer_instance

theorem Sized_mk_fixed (bs : List Bool) (n : Nat) (h : bs.length = kWord_Bits_Cnt * n) :
    Sized ⟨.fixed n, bs⟩ n := by
  exact ⟨rfl, h⟩

theorem Sized_mk_unlimited (bs : List Bool) (t : Nat) (h : bs.length = kWord_Bits_Cnt * t) :
    Sized ⟨.unlimited, bs⟩ t := by
  constructor
  · show bs.length / kWord_Bits_Cnt = t
    rw [h]
    simp [kWord_Bits_Cnt]
  · exact h

theorem Sized_kZero (w : t_Width) : Sized (Integer.kZero w) (Integer.initWords w) := by
  cases w with
  | fixed n => exact Sized_mk_fixed _ _ (by simp [Integer.kZero, Integer.initWords])
  | unlimited => exact Sized_mk_unlimited _ _ (by simp [Integer.kZero, Integer.initWords])

theorem Sized.bits_ne_nil {x : Integer} {A : Nat} (h : Sized x A) (hA : 0 < A) :
    x.bits ≠ [] := by
  intro hc
  have := h.2
  rw [hc] at this
  simp [kWord_Bits_Cnt] at this
  omega

theorem Sized.len_pos {x : Integer} {A : Nat} (h : Sized x A) (hA : 0 < A) :
    0 < x.bits.length := by
  rw [h.2]
  simp [kWord_Bits_Cnt]
  omega

theorem Is_Positive_eq_not_signBit {x : Integer} {A : Nat} (h : Sized x A) :
    x.Is_Positive = !signBit x.bits := by
  unfold Integer.Is_Positive signBit Integer.Get_Actual_Bits_Cnt
  rw [h.1, h.2]
  ring_nf

theorem Is_Positive_iff_nonneg {x : Integer} {A : Nat} (h : Sized x A) (hA : 0 < A) :
    x.Is_Positive = true ↔ 0 ≤ x.toInt := by
  rw [Is_Positive_eq_not_signBit h]
  rw [show x.toInt = bitsToInt x.bits from rfl]
  rw [bitsToInt_nonneg_iff x.bits (h.bits_ne_nil hA)]
  cases signBit x.bits <;> simp

theorem Is_Positive_false_iff_neg {x : Integer} {A : Nat} (h : Sized x A) (hA : 0 < A) :
    x.Is_Positive = false ↔ x.toInt < 0 := by
  rw [Is_Positive_eq_not_signBit h]
  rw [show x.toInt = bitsToInt x.bits from rfl]
  rw [bitsToInt_neg_iff x.bits (h.bits_ne_nil hA)]
  cases signBit x.bits <;> simp

theorem toInt_lb {x : Integer} {A : Nat} (h : Sized x A) (hA : 0 < A) :
    -((2 : Int) ^ (kWord_Bits_Cnt * A - 1)) ≤ x.toInt := by
  have := bitsToInt_lb x.bits (h.bits_ne_nil hA)
  rwa [h.2] at this

theorem toInt_ub {x : Integer} {A : Nat} (h : Sized x A) (hA : 0 < A) :
    x.toInt < (2 : Int) ^ (kWord_Bits_Cnt * A - 1) := by
  have := bitsToInt_ub x.bits (h.bits_ne_nil hA)
  rwa [h.2] at this

theorem toNatU_lt {x : Integer} {A : Nat} (h : Sized x A) :
    x.toNatU < 2 ^ (kWord_Bits_Cnt * A) := by
  have := bitsToNat_lt x.bits
  rwa [h.2] at this

/-- Appending a non-empty run of copies of a bit `s` puts `s` in the sign
position. -/
theorem signBit_append_replicate' (bs : List Bool) (k : Nat) (s : Bool) (hk : 0 < k) :
    signBit (bs ++ List.replicate k s) = s := by
  unfold signBit
  rw [List.length_append, List.length_replicate]
  rw [List.getD_eq_getElem?_getD, List.getElem?_append_right (by omega)]
  have : bs.length + k - 1 - bs.length = k - 1 := by omega
  rw [this, List.getElem?_replicate, if_pos (by omega)]
  rfl

theorem signBit_append_replicate (bs : List Bool) (k : Nat) (h : bs ≠ []) :
    signBit (bs ++ List.replicate k (signBit bs)) = signBit bs := by
  cases k with
  | zero => rw [List.replicate_zero, List.append_nil]
  | succ k' => exact signBit_append_replicate' bs (k' + 1) (signBit bs) (by omega)

/-- Padding a non-empty list with copies of its own sign bit preserves the
two's-complement value. -/
theorem bitsToInt_append_replicate_sign (bs : List Bool) (k : Nat) (h : bs ≠ []) :
    bitsToInt (bs ++ List.replicate k (signBit bs)) = bitsToInt bs := by
  cases k with
  | zero => rw [List.replicate_zero, List.append_nil]
  | succ k' =>
    have hlenpos : 0 < bs.length := List.length_pos.mpr h
    have hsign := signBit_append_replicate bs (k' + 1) h
    rw [bitsToInt_eq, bitsToInt_eq, hsign, List.length_append, List.length_replicate,
      bitsToNat_append]
    cases hs : signBit bs with
    | false =>
      simp [bitsToNat_replicate_false]
    | true =>
      have hrep := bitsToNat_replicate_true (k' + 1)
      have hrepc : (bitsToNat (List.replicate (k' + 1) true) : Int) = 2 ^ (k' + 1) - 1 := by
        have hx : ((bitsToNat (List.replicate (k' + 1) true) : Nat) : Int) + 1 =
            (2 : Int) ^ (k' + 1) := by
          exact_mod_cast congrArg (Nat.cast : Nat → Int) hrep
        omega
      simp only [Bool.toNat_true, Nat.cast_one, mul_one]
      push_cast
      rw [hrepc, pow_add]
      ring

/-- The padding word used by `normTo` is the sign bit. -/
theorem normTo_pad_bit {x : Integer} {A : Nat} (h : Sized x A) :
    (!x.Is_Positive) = signBit x.bits := by
  rw [Is_Positive_eq_not_signBit h]
  cases signBit x.bits <;> rfl

theorem normTo_eq_append {x : Integer} {A : Nat} (h : Sized x A) (t : Nat) :
    x.normTo t = x.bits ++ List.replicate (kWord_Bits_Cnt * t - kWord_Bits_Cnt * A) (signBit x.bits) := by
  unfold Integer.normTo
  rw [h.1, normTo_pad_bit h]

theorem normTo_length {x : Integer} {A : Nat} (h : Sized x A) (t : Nat) (ht : A ≤ t) :
    (x.normTo t).length = kWord_Bits_Cnt * t := by
  rw [normTo_eq_append h]
  simp only [List.length_append, List.length_replicate, h.2]
  have : kWord_Bits_Cnt * A ≤ kWord_Bits_Cnt * t := Nat.mul_le_mul_left _ ht
  omega

theorem normTo_toInt {x : Integer} {A : Nat} (h : Sized x A) (hA : 0 < A) (t : Nat) :
    bitsToInt (x.normTo t) = x.toInt := by
  rw [normTo_eq_append h]
  exact bitsToInt_append_replicate_sign x.bits _ (h.bits_ne_nil hA)

theorem normTo_signBit {x : Integer} {A : Nat} (h : Sized x A) (hA : 0 < A) (t : Nat) :
    signBit (x.normTo t) = signBit x.bits := by
  rw [normTo_eq_append h]
  exact signBit_append_replicate x.bits _ (h.bits_ne_nil hA)

theorem normTo_toNat {x : Integer} {A : Nat} (h : Sized x A) (hA : 0 < A) (t : Nat) (ht : A ≤ t) :
    bitsToNat (x.normTo t) =
      x.toNatU + (if signBit x.bits then 2 ^ (kWord_Bits_Cnt * t) - 2 ^ (kWord_Bits_Cnt * A) else 0) := by
  rw [normTo_eq_append h, bitsToNat_append, h.2]
  cases hs : signBit x.bits with
  | false => simp [bitsToNat_replicate_false, Integer.toNatU]
  | true =>
    have hrep := bitsToNat_replicate_true (kWord_Bits_Cnt * t - kWord_Bits_Cnt * A)
    have hle : kWord_Bits_Cnt * A ≤ kWord_Bits_Cnt * t := Nat.mul_le_mul_left _ ht
    simp only [if_true, Integer.toNatU]
    have hpow : 2 ^ (kWord_Bits_Cnt * A) * 2 ^ (kWord_Bits_Cnt * t - kWord_Bits_Cnt * A) =
        2 ^ (kWord_Bits_Cnt * t) := by
      rw [← pow_add]
      congr 1
      omega
    have h3 : 2 ^ (kWord_Bits_Cnt * A) *
        (bitsToNat (List.replicate (kWord_Bits_Cnt * t - kWord_Bits_Cnt * A) true) + 1) =
        2 ^ (kWord_Bits_Cnt * t) := by
      rw [hrep]
      exact hpow
    have h4 : 2 ^ (kWord_Bits_Cnt * A) *
        bitsToNat (List.replicate (kWord_Bits_Cnt * t - kWord_Bits_Cnt * A) true) +
        2 ^ (kWord_Bits_Cnt * A) = 2 ^ (kWord_Bits_Cnt * t) := by
      rw [← h3]
      ring
    omega

/-- Equality at the `Integer` level coincides with equality of
two's-complement values. -/
theorem beq_iff_toInt {x y : Integer} {a b : Nat} (hx : Sized x a) (hy : Sized y b)
    (ha : 0 < a) (hb : 0 < b) :
    Integer.beq x y = true ↔ x.toInt = y.toInt := by
  unfold Integer.beq
  rw [hx.1, hy.1]
  by_cases hs : x.Is_Positive.xor y.Is_Positive
  · rw [if_pos hs]
    have hne : x.toInt ≠ y.toInt := by
      intro hc
      rcases hpx : x.Is_Positive with _ | _ <;> rcases hpy : y.Is_Positive with _ | _
      · rw [hpx, hpy] at hs
        simp at hs
      · have h1 := (Is_Positive_false_iff_neg hx ha).mp hpx
        have h2 := (Is_Positive_iff_nonneg hy hb).mp hpy
        omega
      · have h1 := (Is_Positive_iff_nonneg hx ha).mp hpx
        have h2 := (Is_Positive_false_iff_neg hy hb).mp hpy
        omega
      · rw [hpx, hpy] at hs
        simp at hs
    simp [hne]
  · rw [if_neg hs]
    have hlx : (x.normTo (max a b)).length = kWord_Bits_Cnt * max a b :=
      normTo_length hx _ (le_max_left _ _)
    have hly : (y.normTo (max a b)).length = kWord_Bits_Cnt * max a b :=
      normTo_length hy _ (le_max_right _ _)
    constructor
    · intro he
      have he' : x.normTo (max a b) = y.normTo (max a b) := by
        exact beq_iff_eq.mp he
      have := congrArg bitsToInt he'
      rwa [normTo_toInt hx ha, normTo_toInt hy hb] at this
    · intro he
      apply beq_iff_eq.mpr
      apply bitsToInt_inj _ _ (by rw [hlx, hly])
      rw [normTo_toInt hx ha, normTo_toInt hy hb]
      exact he

end mparith


namespace mparith

/-- Proof-layer name for the common actual width `Add` normalizes to. -/
def addRaw (lhs rhs : Integer) : Nat :=
  max lhs.Get_Actual_Width rhs.Get_Actual_Width

/-- Proof-layer name for the ripple-carry sum bits inside `Add`. -/
def addSum (lhs rhs : Integer) : List Bool :=
  (Integer.addBits (lhs.normTo (addRaw lhs rhs)) (rhs.normTo (addRaw lhs rhs)) false).1

/-- Proof-layer name for the ripple-carry carry-out inside `Add`. -/
def addCarryOut (lhs rhs : Integer) : Bool :=
  (Integer.addBits (lhs.normTo (addRaw lhs rhs)) (rhs.normTo (addRaw lhs rhs)) false).2

/-- Proof-layer name for the overflow flag `Add` computes at a fixed result
width `k`. -/
def addOsetF (lhs rhs : Integer) (k : Nat) : Bool :=
  ((⟨.fixed k, lhs.normTo (addRaw lhs rhs)⟩ : Integer).Is_Positive &&
   (⟨.fixed k, rhs.normTo (addRaw lhs rhs)⟩ : Integer).Is_Positive &&
   !(⟨.fixed k, addSum lhs rhs⟩ : Integer).Is_Positive) ||
  (!(⟨.fixed k, lhs.normTo (addRaw lhs rhs)⟩ : Integer).Is_Positive &&
   !(⟨.fixed k, rhs.normTo (addRaw lhs rhs)⟩ : Integer).Is_Positive &&
   (⟨.fixed k, addSum lhs rhs⟩ : Integer).Is_Positive)

/-- Proof-layer name for the result `Add` builds at an unlimited result
width, including the grow-by-one-word post-processing. -/
def addResU (lhs rhs : Integer) : Integer :=
  if (⟨t_Width.unlimited, lhs.normTo (addRaw lhs rhs)⟩ : Integer).Is_Positive &&
     (⟨t_Width.unlimited, rhs.normTo (addRaw lhs rhs)⟩ : Integer).Is_Positive &&
     !(⟨t_Width.unlimited, addSum lhs rhs⟩ : Integer).Is_Positive then
    ⟨t_Width.unlimited, addSum lhs rhs ++ List.replicate kWord_Bits_Cnt false⟩
  else if !(⟨t_Width.unlimited, lhs.normTo (addRaw lhs rhs)⟩ : Integer).Is_Positive &&
       !(⟨t_Width.unlimited, rhs.normTo (addRaw lhs rhs)⟩ : Integer).Is_Positive &&
       (⟨t_Width.unlimited, addSum lhs rhs⟩ : Integer).Is_Positive then
    ⟨t_Width.unlimited, addSum lhs rhs ++ List.replicate kWord_Bits_Cnt true⟩
  else ⟨t_Width.unlimited, addSum lhs rhs⟩

theorem Add_eq_fixed (lhs rhs : Integer) (k : Nat)
    (hrw : Get_Max_Width lhs.width rhs.width = .fixed k) :
    Integer.Add lhs rhs =
      (⟨.fixed k, addSum lhs rhs⟩, addOsetF lhs rhs k, addCarryOut lhs rhs) := by
  unfold Integer.Add addOsetF addSum addCarryOut addRaw
  rw [hrw]

theorem Add_eq_unlimited (lhs rhs : Integer)
    (hrw : Get_Max_Width lhs.width rhs.width = .unlimited) :
    Integer.Add lhs rhs = (addResU lhs rhs, false, addCarryOut lhs rhs) := by
  unfold Integer.Add addResU addSum addCarryOut addRaw
  rw [hrw]

theorem Is_Positive_mk_fixed (n : Nat) (bs : List Bool)
    (h : bs.length = kWord_Bits_Cnt * n) :
    (⟨.fixed n, bs⟩ : Integer).Is_Positive = !signBit bs :=
  Is_Positive_eq_not_signBit (Sized_mk_fixed bs n h)

theorem Is_Positive_mk_unlimited (t : Nat) (bs : List Bool)
    (h : bs.length = kWord_Bits_Cnt * t) :
    (⟨.unlimited, bs⟩ : Integer).Is_Positive = !signBit bs :=
  Is_Positive_eq_not_signBit (Sized_mk_unlimited bs t h)

end mparith

namespace mparith

/-- All facts about a fixed-width `Add`: result width and size, the value up
to a single `2^L` wrap, the exact overflow-flag characterization, exactness
when the flag is clear, and the carry flag. -/
theorem Add_spec_fixed (lhs rhs : Integer) (a₁ a₂ : Nat)
    (hw1 : lhs.width = .fixed a₁) (hw2 : rhs.width = .fixed a₂)
    (hl1 : lhs.bits.length = kWord_Bits_Cnt * a₁)
    (hl2 : rhs.bits.length = kWord_Bits_Cnt * a₂)
    (ha₁ : 0 < a₁) (ha₂ : 0 < a₂) :
    (Integer.Add lhs rhs).1.width = .fixed (max a₁ a₂) ∧
    (Integer.Add lhs rhs).1.bits.length = kWord_Bits_Cnt * max a₁ a₂ ∧
    ((Integer.Add lhs rhs).1.toInt = lhs.toInt + rhs.toInt ∨
     (Integer.Add lhs rhs).1.toInt =
       lhs.toInt + rhs.toInt + (2 : Int) ^ (kWord_Bits_Cnt * max a₁ a₂) ∨
     (Integer.Add lhs rhs).1.toInt =
       lhs.toInt + rhs.toInt - (2 : Int) ^ (kWord_Bits_Cnt * max a₁ a₂)) ∧
    ((Integer.Add lhs rhs).2.1 = false ↔
      (-((2 : Int) ^ (kWord_Bits_Cnt * max a₁ a₂ - 1)) ≤ lhs.toInt + rhs.toInt ∧
        lhs.toInt + rhs.toInt < (2 : Int) ^ (kWord_Bits_Cnt * max a₁ a₂ - 1))) ∧
    ((Integer.Add lhs rhs).2.1 = false →
      (Integer.Add lhs rhs).1.toInt = lhs.toInt + rhs.toInt) ∧
    ((Integer.Add lhs rhs).2.2 =
      decide (2 ^ (kWord_Bits_Cnt * max a₁ a₂) ≤
        bitsToNat (lhs.normTo (max a₁ a₂)) + bitsToNat (rhs.normTo (max a₁ a₂)))) := by
  have hx : Sized lhs a₁ := ⟨by rw [Integer.Get_Actual_Width, hw1], hl1⟩
  have hy : Sized rhs a₂ := ⟨by rw [Integer.Get_Actual_Width, hw2], hl2⟩
  set A := max a₁ a₂ with hAdef
  have hA : 0 < A := by omega
  have hrw : Get_Max_Width lhs.width rhs.width = .fixed A := by
    rw [hw1, hw2]
    rfl
  have hraw : addRaw lhs rhs = A := by
    unfold addRaw
    rw [hx.1, hy.1]
  have hred1 : (Integer.Add lhs rhs).1 = ⟨.fixed A, addSum lhs rhs⟩ := by
    rw [Add_eq_fixed lhs rhs A hrw]
  have hred2 : (Integer.Add lhs rhs).2.1 = addOsetF lhs rhs A := by
    rw [Add_eq_fixed lhs rhs A hrw]
  have hred3 : (Integer.Add lhs rhs).2.2 = addCarryOut lhs rhs := by
    rw [Add_eq_fixed lhs rhs A hrw]
  rw [hred1, hred2, hred3]
  -- sizes of the normalized operands and the sum
  have hll : (lhs.normTo A).length = kWord_Bits_Cnt * A := normTo_length hx A (by omega)
  have hrl : (rhs.normTo A).length = kWord_Bits_Cnt * A := normTo_length hy A (by omega)
  have hsumdef : addSum lhs rhs =
      (Integer.addBits (lhs.normTo A) (rhs.normTo A) false).1 := by
    unfold addSum
    rw [hraw]
  have hcdef : addCarryOut lhs rhs =
      (Integer.addBits (lhs.normTo A) (rhs.normTo A) false).2 := by
    unfold addCarryOut
    rw [hraw]
  have hsum_len : (addSum lhs rhs).length = kWord_Bits_Cnt * A := by
    rw [hsumdef, addBits_length, hll]
  have h8 : kWord_Bits_Cnt = 8 := rfl
  have hLpos : 0 < kWord_Bits_Cnt * A := by
    rw [h8]
    omega
  have hsum_ne : addSum lhs rhs ≠ [] := by
    intro hcon
    rw [hcon] at hsum_len
    simp only [List.length_nil] at hsum_len
    omega
  have hln_ne : lhs.normTo A ≠ [] := by
    intro hcon
    rw [hcon] at hll
    simp only [List.length_nil] at hll
    omega
  have hrn_ne : rhs.normTo A ≠ [] := by
    intro hcon
    rw [hcon] at hrl
    simp only [List.length_nil] at hrl
    omega
  -- value facts
  have hlv : bitsToInt (lhs.normTo A) = lhs.toInt := normTo_toInt hx ha₁ A
  have hrv : bitsToInt (rhs.normTo A) = rhs.toInt := normTo_toInt hy ha₂ A
  have hrip := addBits_toNat (lhs.normTo A) (rhs.normTo A) false (by rw [hll, hrl])
  rw [hll] at hrip
  have hcq := addBits_carry (lhs.normTo A) (rhs.normTo A) false (by rw [hll, hrl])
  rw [hll] at hcq
  -- pow split
  have hps : (2 : Int) ^ (kWord_Bits_Cnt * A) = 2 * 2 ^ (kWord_Bits_Cnt * A - 1) := by
    conv_lhs => rw [show kWord_Bits_Cnt * A = (kWord_Bits_Cnt * A - 1) + 1 by omega]
    rw [pow_succ]
    ring
  have hpsN : (2 : Nat) ^ (kWord_Bits_Cnt * A) = 2 * 2 ^ (kWord_Bits_Cnt * A - 1) := by
    conv_lhs => rw [show kWord_Bits_Cnt * A = (kWord_Bits_Cnt * A - 1) + 1 by omega]
    rw [pow_succ]
    ring
  -- the overflow flag in sign-bit form
  have ho : addOsetF lhs rhs A =
      ((!signBit (lhs.normTo A) && !signBit (rhs.normTo A) && signBit (addSum lhs rhs)) ||
       (signBit (lhs.normTo A) && signBit (rhs.normTo A) && !signBit (addSum lhs rhs))) := by
    unfold addOsetF
    rw [hraw]
    rw [Is_Positive_mk_fixed A _ hll, Is_Positive_mk_fixed A _ hrl,
      Is_Positive_mk_fixed A _ hsum_len]
    cases signBit (lhs.normTo A) <;> cases signBit (rhs.normTo A) <;>
      cases signBit (addSum lhs rhs) <;> rfl
  refine ⟨rfl, hsum_len, ?_⟩
  -- numbers as integers
  have hNl := bitsToNat_lt (lhs.normTo A)
  rw [hll] at hNl
  have hNr := bitsToNat_lt (rhs.normTo A)
  rw [hrl] at hNr
  have hNs := bitsToNat_lt (addSum lhs rhs)
  rw [hsum_len] at hNs
  have hresInt : (⟨t_Width.fixed A, addSum lhs rhs⟩ : Integer).toInt =
      bitsToInt (addSum lhs rhs) := rfl
  have hLeq : lhs.toInt = bitsToInt (lhs.normTo A) := hlv.symm
  have hReq : rhs.toInt = bitsToInt (rhs.normTo A) := hrv.symm
  have heqL := bitsToInt_eq (lhs.normTo A)
  have heqR := bitsToInt_eq (rhs.normTo A)
  have heqS := bitsToInt_eq (addSum lhs rhs)
  rw [hll] at heqL
  rw [hrl] at heqR
  rw [hsum_len] at heqS
  have hsltrue := signBit_true_iff (lhs.normTo A) hln_ne
  have hslfalse := signBit_false_iff (lhs.normTo A) hln_ne
  have hsrtrue := signBit_true_iff (rhs.normTo A) hrn_ne
  have hsrfalse := signBit_false_iff (rhs.normTo A) hrn_ne
  have hsstrue := signBit_true_iff (addSum lhs rhs) hsum_ne
  have hssfalse := signBit_false_iff (addSum lhs rhs) hsum_ne
  rw [hll] at hsltrue hslfalse
  rw [hrl] at hsrtrue hsrfalse
  rw [hsum_len] at hsstrue hssfalse
  rw [ho, hresInt, hLeq, hReq, hcdef, hsumdef]
  rw [hsumdef] at heqS hsstrue hssfalse hNs
  have hcast1 : (((2 : Nat) ^ (kWord_Bits_Cnt * A) : Nat) : Int) =
      (2 : Int) ^ (kWord_Bits_Cnt * A) := by
    push_cast
    ring
  have hcast2 : (((2 : Nat) ^ (kWord_Bits_Cnt * A - 1) : Nat) : Int) =
      (2 : Int) ^ (kWord_Bits_Cnt * A - 1) := by
    push_cast
    ring
  rcases hslv : signBit (lhs.normTo A) with _ | _ <;>
    rcases hsrv : signBit (rhs.normTo A) with _ | _ <;>
    rcases hssv : signBit ((Integer.addBits (lhs.normTo A) (rhs.normTo A) false).1) with _ | _ <;>
    rcases hcv : (Integer.addBits (lhs.normTo A) (rhs.normTo A) false).2 with _ | _ <;>
  · rw [hslv] at heqL hsltrue hslfalse
    rw [hsrv] at heqR hsrtrue hsrfalse
    rw [hssv] at heqS hsstrue hssfalse
    rw [hcv] at hrip hcq
    simp only [Bool.toNat_false, Bool.toNat_true, mul_zero, mul_one, add_zero,
      Nat.cast_zero, Nat.cast_one] at heqL heqR heqS hrip hcq
    simp at hsltrue hslfalse hsrtrue hsrfalse hsstrue hssfalse
    refine ⟨?_, ?_, ?_, ?_⟩
    · omega
    · constructor
      · intro hb
        first
        | omega
        | simp at hb
      · intro hP
        first
        | rfl
        | (exfalso; omega)
    · intro hof
      first
      | omega
      | simp at hof
    · exact hcq

end mparith

namespace mparith

/-- All facts about an unlimited-width `Add`: the result width, the
never-set overflow flag, exactness of the value (thanks to the grow-on-
overflow post-processing), and the exact word count of the result. -/
theorem Add_spec_unlimited (lhs rhs : Integer) (a₁ a₂ : Nat)
    (hrw : Get_Max_Width lhs.width rhs.width = .unlimited)
    (hx : Sized lhs a₁) (hy : Sized rhs a₂) (ha₁ : 0 < a₁) (ha₂ : 0 < a₂) :
    (Integer.Add lhs rhs).1.width = .unlimited ∧
    (Integer.Add lhs rhs).2.1 = false ∧
    (Integer.Add lhs rhs).1.toInt = lhs.toInt + rhs.toInt ∧
    ((-((2 : Int) ^ (kWord_Bits_Cnt * max a₁ a₂ - 1)) ≤ lhs.toInt + rhs.toInt ∧
      lhs.toInt + rhs.toInt < (2 : Int) ^ (kWord_Bits_Cnt * max a₁ a₂ - 1)) →
      (Integer.Add lhs rhs).1.bits.length = kWord_Bits_Cnt * max a₁ a₂) ∧
    (¬(-((2 : Int) ^ (kWord_Bits_Cnt * max a₁ a₂ - 1)) ≤ lhs.toInt + rhs.toInt ∧
      lhs.toInt + rhs.toInt < (2 : Int) ^ (kWord_Bits_Cnt * max a₁ a₂ - 1)) →
      (Integer.Add lhs rhs).1.bits.length = kWord_Bits_Cnt * (max a₁ a₂ + 1)) := by
  set A := max a₁ a₂ with hAdef
  have hA : 0 < A := by omega
  have hraw : addRaw lhs rhs = A := by
    unfold addRaw
    rw [hx.1, hy.1]
  have hred1 : (Integer.Add lhs rhs).1 = addResU lhs rhs := by
    rw [Add_eq_unlimited lhs rhs hrw]
  have hred2 : (Integer.Add lhs rhs).2.1 = false := by
    rw [Add_eq_unlimited lhs rhs hrw]
  have hll : (lhs.normTo A).length = kWord_Bits_Cnt * A := normTo_length hx A (by omega)
  have hrl : (rhs.normTo A).length = kWord_Bits_Cnt * A := normTo_length hy A (by omega)
  have hsumdef : addSum lhs rhs =
      (Integer.addBits (lhs.normTo A) (rhs.normTo A) false).1 := by
    unfold addSum
    rw [hraw]
  have hsum_len : (addSum lhs rhs).length = kWord_Bits_Cnt * A := by
    rw [hsumdef, addBits_length, hll]
  have h8 : kWord_Bits_Cnt = 8 := rfl
  have hLpos : 0 < kWord_Bits_Cnt * A := by
    rw [h8]
    omega
  have hsum_ne : addSum lhs rhs ≠ [] := by
    intro hcon
    rw [hcon] at hsum_len
    simp only [List.length_nil] at hsum_len
    omega
  have hln_ne : lhs.normTo A ≠ [] := by
    intro hcon
    rw [hcon] at hll
    simp only [List.length_nil] at hll
    omega
  have hrn_ne : rhs.normTo A ≠ [] := by
    intro hcon
    rw [hcon] at hrl
    simp only [List.length_nil] at hrl
    omega
  have hlv : bitsToInt (lhs.normTo A) = lhs.toInt := normTo_toInt hx ha₁ A
  have hrv : bitsToInt (rhs.normTo A) = rhs.toInt := normTo_toInt hy ha₂ A
  have hrip := addBits_toNat (lhs.normTo A) (rhs.normTo A) false (by rw [hll, hrl])
  rw [hll] at hrip
  have hps : (2 : Int) ^ (kWord_Bits_Cnt * A) = 2 * 2 ^ (kWord_Bits_Cnt * A - 1) := by
    conv_lhs => rw [show kWord_Bits_Cnt * A = (kWord_Bits_Cnt * A - 1) + 1 by omega]
    rw [pow_succ]
    ring
  have hpsN : (2 : Nat) ^ (kWord_Bits_Cnt * A) = 2 * 2 ^ (kWord_Bits_Cnt * A - 1) := by
    conv_lhs => rw [show kWord_Bits_Cnt * A = (kWord_Bits_Cnt * A - 1) + 1 by omega]
    rw [pow_succ]
    ring
  have hresU : addResU lhs rhs =
      (if (!signBit (lhs.normTo A) && !signBit (rhs.normTo A) && signBit (addSum lhs rhs)) then
        (⟨.unlimited, addSum lhs rhs ++ List.replicate kWord_Bits_Cnt false⟩ : Integer)
      else if (signBit (lhs.normTo A) && signBit (rhs.normTo A) && !signBit (addSum lhs rhs)) then
        ⟨.unlimited, addSum lhs rhs ++ List.replicate kWord_Bits_Cnt true⟩
      else ⟨.unlimited, addSum lhs rhs⟩) := by
    unfold addResU
    rw [hraw]
    rw [Is_Positive_mk_unlimited A _ hll, Is_Positive_mk_unlimited A _ hrl,
      Is_Positive_mk_unlimited A _ hsum_len]
    simp only [Bool.not_not]
  -- facts about the two possible grown results
  have hg0_sign : signBit (addSum lhs rhs ++ List.replicate kWord_Bits_Cnt false) = false :=
    signBit_append_replicate' _ _ false (by rw [h8]; omega)
  have hg1_sign : signBit (addSum lhs rhs ++ List.replicate kWord_Bits_Cnt true) = true :=
    signBit_append_replicate' _ _ true (by rw [h8]; omega)
  have hg0_len : (addSum lhs rhs ++ List.replicate kWord_Bits_Cnt false).length =
      kWord_Bits_Cnt * (A + 1) := by
    rw [List.length_append, List.length_replicate, hsum_len]
    ring
  have hg1_len : (addSum lhs rhs ++ List.replicate kWord_Bits_Cnt true).length =
      kWord_Bits_Cnt * (A + 1) := by
    rw [List.length_append, List.length_replicate, hsum_len]
    ring
  have hg0_val : bitsToInt (addSum lhs rhs ++ List.replicate kWord_Bits_Cnt false) =
      (bitsToNat (addSum lhs rhs) : Int) := by
    rw [bitsToInt_of_signBit_false _ hg0_sign, bitsToNat_append, bitsToNat_replicate_false]
    push_cast
    ring
  have hg1_val : bitsToInt (addSum lhs rhs ++ List.replicate kWord_Bits_Cnt true) =
      (bitsToNat (addSum lhs rhs) : Int) - 2 ^ (kWord_Bits_Cnt * A) := by
    rw [bitsToInt_of_signBit_true _ hg1_sign]
    rw [List.length_append, List.length_replicate, hsum_len]
    rw [bitsToNat_append, hsum_len]
    have hrep : bitsToNat (List.replicate kWord_Bits_Cnt true) = 255 := rfl
    rw [hrep]
    have hsplit : (2 : Int) ^ (kWord_Bits_Cnt * A + kWord_Bits_Cnt) =
        2 ^ (kWord_Bits_Cnt * A) * 256 := by
      rw [pow_add, h8]
      norm_num
    push_cast
    rw [hsplit]
    ring
  -- value and sign-range equations
  have heqL := bitsToInt_eq (lhs.normTo A)
  have heqR := bitsToInt_eq (rhs.normTo A)
  have heqS := bitsToInt_eq (addSum lhs rhs)
  rw [hll] at heqL
  rw [hrl] at heqR
  rw [hsum_len] at heqS
  have hsltrue := signBit_true_iff (lhs.normTo A) hln_ne
  have hslfalse := signBit_false_iff (lhs.normTo A) hln_ne
  have hsrtrue := signBit_true_iff (rhs.normTo A) hrn_ne
  have hsrfalse := signBit_false_iff (rhs.normTo A) hrn_ne
  have hsstrue := signBit_true_iff (addSum lhs rhs) hsum_ne
  have hssfalse := signBit_false_iff (addSum lhs rhs) hsum_ne
  rw [hll] at hsltrue hslfalse
  rw [hrl] at hsrtrue hsrfalse
  rw [hsum_len] at hsstrue hssfalse
  have hNl := bitsToNat_lt (lhs.normTo A)
  rw [hll] at hNl
  have hNr := bitsToNat_lt (rhs.normTo A)
  rw [hrl] at hNr
  have hNs := bitsToNat_lt (addSum lhs rhs)
  rw [hsum_len] at hNs
  have hcast1 : (((2 : Nat) ^ (kWord_Bits_Cnt * A) : Nat) : Int) =
      (2 : Int) ^ (kWord_Bits_Cnt * A) := by
    push_cast
    ring
  have hcast2 : (((2 : Nat) ^ (kWord_Bits_Cnt * A - 1) : Nat) : Int) =
      (2 : Int) ^ (kWord_Bits_Cnt * A - 1) := by
    push_cast
    ring
  have hwidthU : (addResU lhs rhs).width = t_Width.unlimited := by
    rw [hresU]
    split
    · rfl
    · split
      · rfl
      · rfl
  have hLeq : lhs.toInt = bitsToInt (lhs.normTo A) := hlv.symm
  have hReq : rhs.toInt = bitsToInt (rhs.normTo A) := hrv.symm
  refine ⟨by rw [hred1]; exact hwidthU, hred2, ?_⟩
  rw [hred1, hresU, hLeq, hReq]
  have hripS : bitsToNat (addSum lhs rhs) +
      2 ^ (kWord_Bits_Cnt * A) * ((Integer.addBits (lhs.normTo A) (rhs.normTo A) false).2).toNat =
      bitsToNat (lhs.normTo A) + bitsToNat (rhs.normTo A) + false.toNat := by
    rw [hsumdef]
    exact hrip
  rcases hslv : signBit (lhs.normTo A) with _ | _ <;>
    rcases hsrv : signBit (rhs.normTo A) with _ | _ <;>
    rcases hssv : signBit (addSum lhs rhs) with _ | _ <;>
    rcases hcv : (Integer.addBits (lhs.normTo A) (rhs.normTo A) false).2 with _ | _ <;>
  · rw [hslv] at heqL hsltrue hslfalse
    rw [hsrv] at heqR hsrtrue hsrfalse
    rw [hssv] at heqS hsstrue hssfalse
    rw [hcv] at hripS
    simp only [Bool.toNat_false, Bool.toNat_true, mul_zero, mul_one, add_zero,
      Nat.cast_zero, Nat.cast_one] at heqL heqR heqS hripS
    simp at hsltrue hslfalse hsrtrue hsrfalse hsstrue hssfalse
    simp only [Bool.not_false, Bool.not_true, Bool.false_and, Bool.true_and,
      Bool.and_false, Bool.and_true, Bool.and_self, reduceCtorEq, reduceIte,
      if_true, if_false]
    refine ⟨?_, ?_, ?_⟩
    · show Integer.toInt _ = _
      first
      | (rw [show Integer.toInt ⟨t_Width.unlimited,
            addSum lhs rhs ++ List.replicate kWord_Bits_Cnt false⟩ =
            bitsToInt (addSum lhs rhs ++ List.replicate kWord_Bits_Cnt false) from rfl, hg0_val]
         omega)
      | (rw [show Integer.toInt ⟨t_Width.unlimited,
            addSum lhs rhs ++ List.replicate kWord_Bits_Cnt true⟩ =
            bitsToInt (addSum lhs rhs ++ List.replicate kWord_Bits_Cnt true) from rfl, hg1_val]
         omega)
      | (rw [show Integer.toInt ⟨t_Width.unlimited, addSum lhs rhs⟩ =
            bitsToInt (addSum lhs rhs) from rfl, heqS]
         omega)
    · intro hin
      first
      | exact hsum_len
      | (exfalso; omega)
      | (rw [show (Integer.bits ⟨t_Width.unlimited,
            addSum lhs rhs ++ List.replicate kWord_Bits_Cnt false⟩) =
            addSum lhs rhs ++ List.replicate kWord_Bits_Cnt false from rfl]
         exact hg0_len)
      | (rw [show (Integer.bits ⟨t_Width.unlimited,
            addSum lhs rhs ++ List.replicate kWord_Bits_Cnt true⟩) =
            addSum lhs rhs ++ List.replicate kWord_Bits_Cnt true from rfl]
         exact hg1_len)
    · intro hin
      first
      | exact hg0_len
      | exact hg1_len
      | (exfalso; apply hin; constructor <;> omega)

end mparith

namespace mparith

theorem signBit_map_not (bs : List Bool) (h : bs ≠ []) :
    signBit (bs.map (!·)) = !signBit bs := by
  unfold signBit
  have hlen : 0 < bs.length := List.length_pos.mpr h
  rw [List.length_map]
  rw [List.getD_eq_getElem?_getD, List.getD_eq_getElem?_getD]
  rw [List.getElem?_map]
  have hidx : bs.length - 1 < bs.length := by omega
  rw [List.getElem?_eq_getElem hidx]
  rfl

theorem Get_Inverse_width (x : Integer) : x.Get_Inverse.width = x.width := rfl

theorem Get_Inverse_len (x : Integer) : x.Get_Inverse.bits.length = x.bits.length := by
  unfold Integer.Get_Inverse
  exact List.length_map _ _

theorem Sized_Get_Inverse {x : Integer} {A : Nat} (h : Sized x A) :
    Sized x.Get_Inverse A := by
  constructor
  · have : x.Get_Inverse.Get_Actual_Width = x.Get_Actual_Width := by
      unfold Integer.Get_Actual_Width Integer.Get_Inverse
      cases x.width
      · rfl
      · simp
    rw [this, h.1]
  · rw [Get_Inverse_len, h.2]

theorem Get_Inverse_toInt {x : Integer} {A : Nat} (h : Sized x A) (hA : 0 < A) :
    x.Get_Inverse.toInt = -x.toInt - 1 := by
  have hne := h.bits_ne_nil hA
  have hmap := bitsToNat_map_not x.bits
  have hsign := signBit_map_not x.bits hne
  have hlen : (x.bits.map (!·)).length = x.bits.length := List.length_map _ _
  show bitsToInt (x.bits.map (!·)) = -bitsToInt x.bits - 1
  rw [bitsToInt_eq, bitsToInt_eq, hsign, hlen]
  cases hs : signBit x.bits with
  | false =>
    simp only [Bool.not_false, Bool.toNat_true, Bool.toNat_false, Nat.cast_zero,
      Nat.cast_one, mul_zero, mul_one]
    have : (bitsToNat (x.bits.map (!·)) : Int) + (bitsToNat x.bits : Int) + 1 =
        (2 : Int) ^ x.bits.length := by
      exact_mod_cast congrArg (Nat.cast : Nat → Int) hmap
    omega
  | true =>
    simp only [Bool.not_true, Bool.toNat_true, Bool.toNat_false, Nat.cast_zero,
      Nat.cast_one, mul_zero, mul_one]
    have : (bitsToNat (x.bits.map (!·)) : Int) + (bitsToNat x.bits : Int) + 1 =
        (2 : Int) ^ x.bits.length := by
      exact_mod_cast congrArg (Nat.cast : Nat → Int) hmap
    omega

theorem kOne_width (w : t_Width) : (Integer.kOne w).width = w := rfl

theorem kOne_bits (w : t_Width) (h : 0 < Integer.initWords w) :
    (Integer.kOne w).bits =
      true :: List.replicate (kWord_Bits_Cnt * Integer.initWords w - 1) false := by
  unfold Integer.kOne Integer.kZero Integer.setBit
  have h8 : kWord_Bits_Cnt = 8 := rfl
  have : kWord_Bits_Cnt * Integer.initWords w = (kWord_Bits_Cnt * Integer.initWords w - 1) + 1 := by
    rw [h8]
    omega
  rw [this]
  simp [List.replicate_succ]

theorem kOne_len (w : t_Width) :
    (Integer.kOne w).bits.length = kWord_Bits_Cnt * Integer.initWords w := by
  unfold Integer.kOne Integer.kZero Integer.setBit
  simp

theorem Sized_kOne (w : t_Width) : Sized (Integer.kOne w) (Integer.initWords w) := by
  constructor
  · show (Integer.kOne w).Get_Actual_Width = _
    unfold Integer.Get_Actual_Width
    rw [kOne_width]
    cases w with
    | fixed n => rfl
    | unlimited =>
      show (Integer.kOne .unlimited).bits.length / kWord_Bits_Cnt = _
      rw [kOne_len]
      rfl
  · exact kOne_len w

theorem kOne_toNatU (w : t_Width) (h : 0 < Integer.initWords w) :
    (Integer.kOne w).toNatU = 1 := by
  unfold Integer.toNatU
  rw [kOne_bits w h]
  rw [bitsToNat_cons, bitsToNat_replicate_false]
  rfl

theorem getD_replicate_self (a : Bool) (n i : Nat) :
    (List.replicate n a).getD i a = a := by
  induction n generalizing i with
  | zero => simp [List.getD]
  | succ m ih =>
    cases i with
    | zero => simp [List.replicate_succ]
    | succ j => simp [List.replicate_succ, ih]

theorem kOne_toInt (w : t_Width) (h : 0 < Integer.initWords w) :
    (Integer.kOne w).toInt = 1 := by
  have h8 : kWord_Bits_Cnt = 8 := rfl
  show bitsToInt (Integer.kOne w).bits = 1
  have hsign : signBit (Integer.kOne w).bits = false := by
    unfold signBit
    rw [kOne_len, kOne_bits w h]
    rw [show kWord_Bits_Cnt * Integer.initWords w - 1 =
      (kWord_Bits_Cnt * Integer.initWords w - 2) + 1 by rw [h8]; omega]
    rw [List.getD_cons_succ]
    exact getD_replicate_self false _ _
  rw [bitsToInt_of_signBit_false _ hsign]
  have := kOne_toNatU w h
  unfold Integer.toNatU at this
  rw [this]
  rfl

theorem signBit_kOne (w : t_Width) (h : 0 < Integer.initWords w) :
    signBit (Integer.kOne w).bits = false := by
  have h8 : kWord_Bits_Cnt = 8 := rfl
  unfold signBit
  rw [kOne_len, kOne_bits w h]
  rw [show kWord_Bits_Cnt * Integer.initWords w - 1 =
    (kWord_Bits_Cnt * Integer.initWords w - 2) + 1 by rw [h8]; omega]
  rw [List.getD_cons_succ]
  exact getD_replicate_self false _ _

end mparith

namespace mparith

theorem Sized_of_unlimited {y : Integer} {t : Nat} (hwy : y.width = .unlimited)
    (hly : y.bits.length = kWord_Bits_Cnt * t) : Sized y t := by
  constructor
  · show (match y.width with
      | .fixed n => n
      | .unlimited => y.bits.length / kWord_Bits_Cnt) = t
    rw [hwy, hly]
    show kWord_Bits_Cnt * t / kWord_Bits_Cnt = t
    rw [Nat.mul_div_cancel_left t (by decide : 0 < kWord_Bits_Cnt)]
  · exact hly

/-- Two's-complement negation at a fixed width: exact except at the most
negative value, which is its own complement. -/
theorem Get_Complement_spec_fixed (x : Integer) (A : Nat)
    (hw : x.width = .fixed A) (hl : x.bits.length = kWord_Bits_Cnt * A) (hA : 0 < A) :
    x.Get_Complement.width = .fixed A ∧
    x.Get_Complement.bits.length = kWord_Bits_Cnt * A ∧
    (x.toInt ≠ -((2 : Int) ^ (kWord_Bits_Cnt * A - 1)) →
      x.Get_Complement.toInt = -x.toInt) ∧
    (x.toInt = -((2 : Int) ^ (kWord_Bits_Cnt * A - 1)) →
      x.Get_Complement.toInt = x.toInt) := by
  have hx : Sized x A := ⟨by rw [Integer.Get_Actual_Width, hw], hl⟩
  have hinv : Sized x.Get_Inverse A := Sized_Get_Inverse hx
  have hinvInt := Get_Inverse_toInt hx hA
  have hinvw : x.Get_Inverse.width = .fixed A := by
    rw [Get_Inverse_width, hw]
  have honew : (Integer.kOne x.width).width = .fixed A := by
    rw [kOne_width, hw]
  have honeIW : Integer.initWords (Integer.kOne x.width).width = A := by
    rw [honew]
    rfl
  have honeIW' : Integer.initWords x.width = A := by
    rw [hw]
    rfl
  have hone_pos : 0 < Integer.initWords x.width := by omega
  have honel : (Integer.kOne x.width).bits.length = kWord_Bits_Cnt * A := by
    rw [kOne_len, honeIW']
  have honeInt : (Integer.kOne x.width).toInt = 1 := kOne_toInt x.width hone_pos
  have hspec := Add_spec_fixed x.Get_Inverse (Integer.kOne x.width) A A hinvw honew
    hinv.2 honel hA hA
  rw [Nat.max_self] at hspec
  obtain ⟨hsw, hslen, hsval, _, _, _⟩ := hspec
  have hcomp : x.Get_Complement = (Integer.Add x.Get_Inverse (Integer.kOne x.width)).1 := rfl
  rw [hinvInt, honeInt] at hsval
  have hxlb := toInt_lb hx hA
  have hxub := toInt_ub hx hA
  have hreslen : (Integer.Add x.Get_Inverse (Integer.kOne x.width)).1.bits.length =
      kWord_Bits_Cnt * A := hslen
  have hresne : (Integer.Add x.Get_Inverse (Integer.kOne x.width)).1.bits ≠ [] := by
    intro hcon
    rw [hcon] at hreslen
    simp only [List.length_nil] at hreslen
    have h8 : kWord_Bits_Cnt = 8 := rfl
    rw [h8] at hreslen
    omega
  have hreslb := bitsToInt_lb _ hresne
  have hresub := bitsToInt_ub _ hresne
  rw [hreslen] at hreslb hresub
  have hps : (2 : Int) ^ (kWord_Bits_Cnt * A) = 2 * 2 ^ (kWord_Bits_Cnt * A - 1) := by
    have h8 : kWord_Bits_Cnt = 8 := rfl
    conv_lhs => rw [show kWord_Bits_Cnt * A = (kWord_Bits_Cnt * A - 1) + 1 by rw [h8]; omega]
    rw [pow_succ]
    ring
  have hresInt : (Integer.Add x.Get_Inverse (Integer.kOne x.width)).1.toInt =
      bitsToInt (Integer.Add x.Get_Inverse (Integer.kOne x.width)).1.bits := rfl
  rw [hresInt] at hsval
  refine ⟨by rw [hcomp]; exact hsw, by rw [hcomp]; exact hreslen, ?_, ?_⟩
  · intro hne
    rw [hcomp]
    show bitsToInt (Integer.Add x.Get_Inverse (Integer.kOne x.width)).1.bits = -x.toInt
    omega
  · intro heq
    rw [hcomp]
    show bitsToInt (Integer.Add x.Get_Inverse (Integer.kOne x.width)).1.bits = x.toInt
    omega

/-- Two's-complement negation at unlimited width: always exact; the word
vector grows by one exactly at the minimal-negative bit patterns. -/
theorem Get_Complement_spec_unlimited (x : Integer) (A : Nat)
    (hw : x.width = .unlimited) (hx : Sized x A) (hA : kWidth_Min ≤ A) :
    x.Get_Complement.width = .unlimited ∧
    x.Get_Complement.toInt = -x.toInt ∧
    (x.toInt ≠ -((2 : Int) ^ (kWord_Bits_Cnt * A - 1)) → Sized x.Get_Complement A) ∧
    (x.toInt = -((2 : Int) ^ (kWord_Bits_Cnt * A - 1)) → Sized x.Get_Complement (A + 1)) := by
  have hA0 : 0 < A := by
    have : kWidth_Min = 4 := rfl
    omega
  have hinv : Sized x.Get_Inverse A := Sized_Get_Inverse hx
  have hinvInt := Get_Inverse_toInt hx hA0
  have hinvw : x.Get_Inverse.width = .unlimited := by
    rw [Get_Inverse_width, hw]
  have honew : (Integer.kOne x.width).width = .unlimited := by
    rw [kOne_width, hw]
  have honeIW' : Integer.initWords x.width = kWidth_Min := by
    rw [hw]
    rfl
  have hone_pos : 0 < Integer.initWords x.width := by
    rw [honeIW']
    norm_num [kWidth_Min]
  have hone_sized : Sized (Integer.kOne x.width) kWidth_Min := by
    have := Sized_kOne x.width
    rwa [honeIW'] at this
  have honeInt : (Integer.kOne x.width).toInt = 1 := kOne_toInt x.width hone_pos
  have hrw : Get_Max_Width x.Get_Inverse.width (Integer.kOne x.width).width = .unlimited := by
    rw [hinvw, honew]
    rfl
  have hspec := Add_spec_unlimited x.Get_Inverse (Integer.kOne x.width) A kWidth_Min hrw
    hinv hone_sized hA0 (by norm_num [kWidth_Min])
  rw [Nat.max_eq_left hA] at hspec
  obtain ⟨hsw, _, hsval, hsin, hsout⟩ := hspec
  rw [hinvInt, honeInt] at hsval hsin hsout
  have hcomp : x.Get_Complement = (Integer.Add x.Get_Inverse (Integer.kOne x.width)).1 := rfl
  have hxlb := toInt_lb hx hA0
  have hxub := toInt_ub hx hA0
  have hps : (2 : Int) ^ (kWord_Bits_Cnt * A) = 2 * 2 ^ (kWord_Bits_Cnt * A - 1) := by
    have h8 : kWord_Bits_Cnt = 8 := rfl
    conv_lhs => rw [show kWord_Bits_Cnt * A = (kWord_Bits_Cnt * A - 1) + 1 by rw [h8]; omega]
    rw [pow_succ]
    ring
  refine ⟨by rw [hcomp]; exact hsw, by rw [hcomp]; omega, ?_, ?_⟩
  · intro hne
    rw [hcomp]
    apply Sized_of_unlimited hsw
    apply hsin
    constructor
    · omega
    · omega
  · intro heq
    rw [hcomp]
    apply Sized_of_unlimited hsw
    apply hsout
    intro hcon
    omega

end mparith

namespace mparith

theorem Integer.ext' (x y : Integer) (h1 : x.width = y.width) (h2 : x.bits = y.bits) :
    x = y := by
  cases x
  cases y
  simp_all

/-- The most negative `Fixed(n)` value: sign bit set, all other bits clear. -/
def minNegFixed (n : Nat) : Integer :=
  ⟨.fixed n, List.replicate (kWord_Bits_Cnt * n - 1) false ++ [true]⟩

/-- The minimal-length unlimited value with only the sign bit set
(the bit pattern of `-2^(8*words-1)`). -/
def minNegUnlimited (words : Nat) : Integer :=
  ⟨.unlimited, List.replicate (kWord_Bits_Cnt * words - 1) false ++ [true]⟩

theorem minNegFixed_len (n : Nat) (hn : 0 < n) :
    (minNegFixed n).bits.length = kWord_Bits_Cnt * n := by
  unfold minNegFixed
  have h8 : kWord_Bits_Cnt = 8 := rfl
  simp only [List.length_append, List.length_replicate, List.length_cons, List.length_nil]
  rw [h8]
  omega

theorem minNegFixed_toInt (n : Nat) (hn : 0 < n) :
    (minNegFixed n).toInt = -((2 : Int) ^ (kWord_Bits_Cnt * n - 1)) := by
  have h8 : kWord_Bits_Cnt = 8 := rfl
  have hlen := minNegFixed_len n hn
  have hnat : bitsToNat (minNegFixed n).bits = 2 ^ (kWord_Bits_Cnt * n - 1) := by
    show bitsToNat (List.replicate (kWord_Bits_Cnt * n - 1) false ++ [true]) = _
    rw [bitsToNat_append, bitsToNat_replicate_false, List.length_replicate]
    show 0 + 2 ^ (kWord_Bits_Cnt * n - 1) * (1 + 2 * 0) = 2 ^ (kWord_Bits_Cnt * n - 1)
    ring
  have hsign : signBit (minNegFixed n).bits = true := by
    unfold signBit
    rw [hlen]
    show (List.replicate (kWord_Bits_Cnt * n - 1) false ++ [true]).getD
      (kWord_Bits_Cnt * n - 1) false = true
    rw [List.getD_eq_getElem?_getD,
      List.getElem?_append_right (by simp [List.length_replicate])]
    simp
  show bitsToInt (minNegFixed n).bits = _
  rw [bitsToInt_of_signBit_true _ hsign, hlen, hnat]
  have hsplit : (2 : Int) ^ (kWord_Bits_Cnt * n) = 2 * 2 ^ (kWord_Bits_Cnt * n - 1) := by
    conv_lhs => rw [show kWord_Bits_Cnt * n = (kWord_Bits_Cnt * n - 1) + 1 by rw [h8]; omega]
    rw [pow_succ]
    ring
  push_cast
  omega

theorem minNegUnlimited_len (words : Nat) (hn : 0 < words) :
    (minNegUnlimited words).bits.length = kWord_Bits_Cnt * words := by
  unfold minNegUnlimited
  have h8 : kWord_Bits_Cnt = 8 := rfl
  simp only [List.length_append, List.length_replicate, List.length_cons, List.length_nil]
  rw [h8]
  omega

/-- `Get_Positive` at a fixed width: identity on non-negative values, exact
absolute value on negative ones except the most negative. -/
theorem Get_Positive_spec_fixed (x : Integer) (A : Nat)
    (hw : x.width = .fixed A) (hl : x.bits.length = kWord_Bits_Cnt * A) (hA : 0 < A) :
    x.Get_Positive.width = .fixed A ∧
    x.Get_Positive.bits.length = kWord_Bits_Cnt * A ∧
    (0 ≤ x.toInt → x.Get_Positive = x) ∧
    (x.toInt < 0 → x.toInt ≠ -((2 : Int) ^ (kWord_Bits_Cnt * A - 1)) →
      x.Get_Positive.toInt = -x.toInt) ∧
    (x.toInt = -((2 : Int) ^ (kWord_Bits_Cnt * A - 1)) →
      x.Get_Positive.toInt = x.toInt) := by
  have hx : Sized x A := ⟨by rw [Integer.Get_Actual_Width, hw], hl⟩
  have hcs := Get_Complement_spec_fixed x A hw hl hA
  have hminneg : -((2 : Int) ^ (kWord_Bits_Cnt * A - 1)) < 0 := by
    have : (0 : Int) < (2 : Int) ^ (kWord_Bits_Cnt * A - 1) := by positivity
    omega
  by_cases hp : x.Is_Positive = true
  · have hnn := (Is_Positive_iff_nonneg hx hA).mp hp
    have hid : x.Get_Positive = x := by
      unfold Integer.Get_Positive
      rw [hp]
      simp
    refine ⟨by rw [hid, hw], by rw [hid, hl], fun _ => hid, ?_, ?_⟩
    · intro hneg _
      omega
    · intro heq
      omega
  · have hpf : x.Is_Positive = false := by
      rcases hv : x.Is_Positive
      · rfl
      · exact absurd hv hp
    have hneg := (Is_Positive_false_iff_neg hx hA).mp hpf
    have hcomp : x.Get_Positive = x.Get_Complement := by
      unfold Integer.Get_Positive
      rw [hpf]
      simp
    refine ⟨by rw [hcomp]; exact hcs.1, by rw [hcomp]; exact hcs.2.1, ?_, ?_, ?_⟩
    · intro hnn
      omega
    · intro _ hne
      rw [hcomp]
      exact hcs.2.2.1 hne
    · intro heq
      rw [hcomp]
      exact hcs.2.2.2 heq

/-- `Get_Positive` at unlimited width: always the exact absolute value;
grows by one word exactly at the minimal-negative patterns. -/
theorem Get_Positive_spec_unlimited (x : Integer) (A : Nat)
    (hw : x.width = .unlimited) (hx : Sized x A) (hA : kWidth_Min ≤ A) :
    x.Get_Positive.width = .unlimited ∧
    (0 ≤ x.toInt → x.Get_Positive = x) ∧
    (x.toInt < 0 → x.Get_Positive.toInt = -x.toInt) ∧
    (x.toInt ≠ -((2 : Int) ^ (kWord_Bits_Cnt * A - 1)) → Sized x.Get_Positive A) ∧
    (x.toInt = -((2 : Int) ^ (kWord_Bits_Cnt * A - 1)) → Sized x.Get_Positive (A + 1)) := by
  have hA0 : 0 < A := by
    have : kWidth_Min = 4 := rfl
    omega
  have hminneg : -((2 : Int) ^ (kWord_Bits_Cnt * A - 1)) < 0 := by
    have : (0 : Int) < (2 : Int) ^ (kWord_Bits_Cnt * A - 1) := by positivity
    omega
  have hcs := Get_Complement_spec_unlimited x A hw hx hA
  by_cases hp : x.Is_Positive = true
  · have hnn := (Is_Positive_iff_nonneg hx hA0).mp hp
    have hid : x.Get_Positive = x := by
      unfold Integer.Get_Positive
      rw [hp]
      simp
    refine ⟨by rw [hid, hw], fun _ => hid, ?_, ?_, ?_⟩
    · intro hneg
      omega
    · intro _
      rw [hid]
      exact hx
    · intro heq
      omega
  · have hpf : x.Is_Positive = false := by
      rcases hv : x.Is_Positive
      · rfl
      · exact absurd hv hp
    have hneg := (Is_Positive_false_iff_neg hx hA0).mp hpf
    have hcomp : x.Get_Positive = x.Get_Complement := by
      unfold Integer.Get_Positive
      rw [hpf]
      simp
    refine ⟨by rw [hcomp]; exact hcs.1, ?_, ?_, ?_, ?_⟩
    · intro hnn
      omega
    · intro _
      rw [hcomp]
      exact hcs.2.1
    · intro hne
      rw [hcomp]
      exact hcs.2.2.1 hne
    · intro heq
      rw [hcomp]
      exact hcs.2.2.2 heq

end mparith

namespace mparith

theorem signBit_replicate_false (k : Nat) : signBit (List.replicate k false) = false := by
  unfold signBit
  exact getD_replicate_self false _ _

theorem kZero_toNatU (w : t_Width) : (Integer.kZero w).toNatU = 0 := by
  unfold Integer.toNatU Integer.kZero
  exact bitsToNat_replicate_false _

theorem kZero_toInt (w : t_Width) : (Integer.kZero w).toInt = 0 := by
  show bitsToInt (Integer.kZero w).bits = 0
  have hs : signBit (Integer.kZero w).bits = false := signBit_replicate_false _
  rw [bitsToInt_of_signBit_false _ hs]
  have := kZero_toNatU w
  unfold Integer.toNatU at this
  rw [this]
  rfl

theorem beq_kZero_iff {y : Integer} {b : Nat} (hy : Sized y b) (hb : 0 < b)
    (w : t_Width) (hw : 0 < Integer.initWords w) :
    Integer.beq y (Integer.kZero w) = true ↔ y.toInt = 0 := by
  rw [beq_iff_toInt hy (Sized_kZero w) hb hw, kZero_toInt]

/-- C9: Unary negation on a `Fixed(n)` value never fails for any input — it
is a total operation returning a value of the same width and word count —
and applied to the most negative `Fixed(n)` value (sign bit set, all other
bits clear) it returns that same value unchanged (two's-complement
wrap-around), with no overflow reported. -/
theorem C9_unary_negation_total_and_minneg_fixpoint :
    (∀ (x : Integer) (n : Nat), x.width = .fixed n →
      x.bits.length = kWord_Bits_Cnt * n → 0 < n →
      (Integer.opNeg x).width = .fixed n ∧
      (Integer.opNeg x).bits.length = kWord_Bits_Cnt * n) ∧
    (∀ n : Nat, 0 < n → Integer.opNeg (minNegFixed n) = minNegFixed n) := by
  constructor
  · intro x n hw hl hn
    have hcs := Get_Complement_spec_fixed x n hw hl hn
    exact ⟨hcs.1, hcs.2.1⟩
  · intro n hn
    have hw : (minNegFixed n).width = .fixed n := rfl
    have hl := minNegFixed_len n hn
    have hcs := Get_Complement_spec_fixed (minNegFixed n) n hw hl hn
    have hti := minNegFixed_toInt n hn
    have hval : (minNegFixed n).Get_Complement.toInt = (minNegFixed n).toInt :=
      hcs.2.2.2 hti
    apply Integer.ext'
    · show (minNegFixed n).Get_Complement.width = (minNegFixed n).width
      rw [hcs.1, hw]
    · show (minNegFixed n).Get_Complement.bits = (minNegFixed n).bits
      exact bitsToInt_inj _ _ (by rw [hcs.2.1, hl]) hval

/-- Witness for C9 at `n = 4`. -/
theorem C9_unary_negation_total_and_minneg_fixpoint_witness :
    ((Integer.opNeg (ofIntFixed 4 7)).width = .fixed 4 ∧
     (Integer.opNeg (ofIntFixed 4 7)).bits.length = kWord_Bits_Cnt * 4) ∧
    Integer.opNeg (minNegFixed 4) = minNegFixed 4 :=
  ⟨C9_unary_negation_total_and_minneg_fixpoint.1 (ofIntFixed 4 7) 4 rfl (by decide)
    (by norm_num),
   C9_unary_negation_total_and_minneg_fixpoint.2 4 (by norm_num)⟩

end mparith

namespace mparith

theorem initWords_pos_of_sized {x : Integer} {a : Nat} (hx : Sized x a) (ha : 0 < a) :
    0 < Integer.initWords x.width := by
  cases hxw : x.width with
  | fixed n =>
    have h1 := hx.1
    unfold Integer.Get_Actual_Width at h1
    rw [hxw] at h1
    have h2 : n = a := h1
    show 0 < n
    omega
  | unlimited =>
    show 0 < kWidth_Min
    decide

/-- C7: For every value `x` of any admissible width, `x / 0` and `x % 0`
both fail with `ArithmeticException("Division By Zero")` and produce no
result values; and when `x == 0` and the divisor is non-zero, division
returns quotient 0 and remainder 0. -/
theorem C7_division_by_zero_and_zero_dividend :
    (∀ (x y : Integer) (a b : Nat), Sized x a → Sized y b → 0 < a → 0 < b →
      y.toInt = 0 →
      Integer.opDiv x y = .error (.arithmetic "Division By Zero") ∧
      Integer.opMod x y = .error (.arithmetic "Division By Zero")) ∧
    (∀ (x y : Integer) (a b : Nat), Sized x a → Sized y b → 0 < a → 0 < b →
      x.toInt = 0 → y.toInt ≠ 0 →
      ∃ q r, Integer.Div_Mod x y = .ok (q, r) ∧ q.toInt = 0 ∧ r.toInt = 0) := by
  constructor
  · intro x y a b hx hy ha hb hy0
    have hiw := initWords_pos_of_sized hx ha
    have hbeq : Integer.beq y (Integer.kZero x.width) = true :=
      (beq_kZero_iff hy hb x.width hiw).mpr hy0
    have hdm : Integer.Div_Mod x y = .error (.arithmetic "Division By Zero") := by
      unfold Integer.Div_Mod
      rw [hbeq]
      rfl
    constructor
    · unfold Integer.opDiv
      rw [hdm]
      rfl
    · unfold Integer.opMod
      rw [hdm]
      rfl
  · intro x y a b hx hy ha hb hx0 hynz
    have hiw := initWords_pos_of_sized hx ha
    have hbne : Integer.beq y (Integer.kZero x.width) = false := by
      rcases hv : Integer.beq y (Integer.kZero x.width) with _ | _
      · rfl
      · exact absurd ((beq_kZero_iff hy hb x.width hiw).mp hv) hynz
    have hbeqx : Integer.beq x (Integer.kZero x.width) = true :=
      (beq_kZero_iff hx ha x.width hiw).mpr hx0
    refine ⟨⟨Get_Max_Width x.width y.width, (Integer.kZero x.width).bits⟩,
      ⟨Get_Max_Width x.width y.width, (Integer.kZero x.width).bits⟩, ?_, ?_, ?_⟩
    · unfold Integer.Div_Mod
      rw [hbne, hbeqx]
      rfl
    · exact kZero_toInt x.width
    · exact kZero_toInt x.width

/-- Witness for C7: division of 7 by 0 raises, and 0 divided by 5 yields
(0, 0), at `Fixed(4)`. -/
theorem C7_division_by_zero_and_zero_dividend_witness :
    (Integer.opDiv (ofIntFixed 4 7) (ofIntFixed 4 0) =
       .error (.arithmetic "Division By Zero") ∧
     Integer.opMod (ofIntFixed 4 7) (ofIntFixed 4 0) =
       .error (.arithmetic "Division By Zero")) ∧
    (∃ q r, Integer.Div_Mod (ofIntFixed 4 0) (ofIntFixed 4 5) = .ok (q, r) ∧
      q.toInt = 0 ∧ r.toInt = 0) :=
  ⟨C7_division_by_zero_and_zero_dividend.1 (ofIntFixed 4 7) (ofIntFixed 4 0) 4 4
    (by decide) (by decide) (by norm_num) (by norm_num) (by decide),
   C7_division_by_zero_and_zero_dividend.2 (ofIntFixed 4 0) (ofIntFixed 4 5) 4 4
    (by decide) (by decide) (by norm_num) (by norm_num) (by decide) (by decide)⟩

end mparith

namespace mparith

/-- C10: If prefix increment, prefix decrement, or a compound assignment
(`+=`, `-=`, `*=`, `/=`, `%=`) on a value `x` fails with an overflow or
arithmetic error, `x` retains exactly the value it had before the operation:
the rebinding `*this = (...)` never happens on the error path, because the
throwing kernel expression is evaluated before the assignment.  In
particular incrementing the largest `Fixed(4)` value fails with an
`OverflowException` carrying `-2^31` and leaves the receiver unchanged. -/
theorem C10_compound_assign_error_preserves_receiver :
    (∀ (x y : Integer) (e : MpError),
      (Integer.addAssign x y).2 = some e → (Integer.addAssign x y).1 = x) ∧
    (∀ (x y : Integer) (e : MpError),
      (Integer.subAssign x y).2 = some e → (Integer.subAssign x y).1 = x) ∧
    (∀ (x y : Integer) (e : MpError),
      (Integer.mulAssign x y).2 = some e → (Integer.mulAssign x y).1 = x) ∧
    (∀ (x y : Integer) (e : MpError),
      (Integer.divAssign x y).2 = some e → (Integer.divAssign x y).1 = x) ∧
    (∀ (x y : Integer) (e : MpError),
      (Integer.modAssign x y).2 = some e → (Integer.modAssign x y).1 = x) ∧
    (∀ (x : Integer) (e : MpError),
      (Integer.incState x).2 = some e → (Integer.incState x).1 = x) ∧
    (∀ (x : Integer) (e : MpError),
      (Integer.decState x).2 = some e → (Integer.decState x).1 = x) ∧
    ((Integer.incState (ofIntFixed 4 (2 ^ 31 - 1))).1 = ofIntFixed 4 (2 ^ 31 - 1) ∧
     ∃ t : Integer, (Integer.incState (ofIntFixed 4 (2 ^ 31 - 1))).2 =
       some (.overflow t) ∧ t.toInt = -(2 ^ 31)) := by
  refine ⟨?_, ?_, ?_, ?_, ?_, ?_, ?_, ?_, ?_⟩
  · intro x y e h
    unfold Integer.addAssign at h ⊢
    cases hv : Integer.opAdd x y with
    | ok r =>
      rw [hv] at h
      simp at h
    | error e' => rfl
  · intro x y e h
    unfold Integer.subAssign at h ⊢
    cases hv : Integer.opSub x y with
    | ok r =>
      rw [hv] at h
      simp at h
    | error e' => rfl
  · intro x y e h
    unfold Integer.mulAssign at h ⊢
    cases hv : Integer.opMul x y with
    | ok r =>
      rw [hv] at h
      simp at h
    | error e' => rfl
  · intro x y e h
    unfold Integer.divAssign at h ⊢
    cases hv : Integer.opDiv x y with
    | ok r =>
      rw [hv] at h
      simp at h
    | error e' => rfl
  · intro x y e h
    unfold Integer.modAssign at h ⊢
    cases hv : Integer.opMod x y with
    | ok r =>
      rw [hv] at h
      simp at h
    | error e' => rfl
  · intro x e h
    unfold Integer.incState at h ⊢
    cases hv : Integer.opAdd x (Integer.kOne x.width) with
    | ok r =>
      rw [hv] at h
      simp at h
    | error e' => rfl
  · intro x e h
    unfold Integer.decState at h ⊢
    cases hv : Integer.opSub x (Integer.kOne x.width) with
    | ok r =>
      rw [hv] at h
      simp at h
    | error e' => rfl
  · rfl
  · exact ⟨ofIntFixed 4 (-(2 ^ 31)), by rfl, by decide⟩

/-- Witness for C10: `++` on the largest `Fixed(4)` value errors and the
receiver keeps its value. -/
theorem C10_compound_assign_error_preserves_receiver_witness :
    (Integer.incState (ofIntFixed 4 (2 ^ 31 - 1))).1 = ofIntFixed 4 (2 ^ 31 - 1) :=
  (C10_compound_assign_error_preserves_receiver.2.2.2.2.2.1)
    (ofIntFixed 4 (2 ^ 31 - 1))
    (.overflow (ofIntFixed 4 (-(2 ^ 31))))
    (by rfl)

end mparith

namespace mparith

/-- C3 (code-bug evidence): the Unlimited value `-2^31` stored in its
minimal 4 words is reachable through the public operations (here as
`(-2^30) + (-2^30)`), and multiplying it by `1` fails: `Get_Positive` grows
its absolute value to 5 words, and `Mul` then asks `Get_Normalized` to
normalize those 5 words down to the 4-word result actual width, which
performs an out-of-bounds `std::ranges::copy` in the source (undefined
behavior, modelled as `outOfBounds`) instead of returning the exact product
`-2^31`. -/
theorem C3_unlimited_mul_hits_out_of_bounds_copy :
    (Integer.opAdd (ofIntUnlimited 4 (-(2 ^ 30))) (ofIntUnlimited 4 (-(2 ^ 30))) =
      .ok (minNegUnlimited 4)) ∧
    (minNegUnlimited 4).toInt = -(2 ^ 31) ∧
    Integer.Mul (minNegUnlimited 4) (ofIntUnlimited 4 1) = .error .outOfBounds ∧
    Integer.opMul (minNegUnlimited 4) (ofIntUnlimited 4 1) = .error .outOfBounds := by
  refine ⟨by rfl, by decide, by rfl, by rfl⟩

/-- C1 (counterexample): at `Fixed(4)`, `-7 / 2` and `-7 % 2` return
normally with quotient `-3` and remainder `1`, but `(-3)*2 + 1 = -5 ≠ -7`:
the division identity fails for a negative dividend, because the remainder
is computed on absolute values and never negated. -/
theorem C1_counterexample_negative_dividend :
    ∃ q r : Integer,
      Integer.Div_Mod (ofIntFixed 4 (-7)) (ofIntFixed 4 2) = .ok (q, r) ∧
      q.toInt = -3 ∧ r.toInt = 1 ∧
      q.toInt * (ofIntFixed 4 2).toInt + r.toInt ≠ (ofIntFixed 4 (-7)).toInt := by
  refine ⟨_, _, rfl, by decide, by decide, by decide⟩

/-- C2 (counterexample): at `Fixed(4)`, `2^30 * (-2)` raises
`OverflowException` although the mathematical result `-2^31` is
representable in 4 bytes; the attached truncated result equals that exact
result.  (`Mul` flags any magnitude product with the top bit set.) -/
theorem C2_counterexample_representable_product_raises :
    ∃ t : Integer,
      Integer.opMul (ofIntFixed 4 (2 ^ 30)) (ofIntFixed 4 (-2)) =
        .error (.overflow t) ∧
      t.toInt = (ofIntFixed 4 (2 ^ 30)).toInt * (ofIntFixed 4 (-2)).toInt ∧
      -((2 : Int) ^ 31) ≤ (ofIntFixed 4 (2 ^ 30)).toInt * (ofIntFixed 4 (-2)).toInt ∧
      (ofIntFixed 4 (2 ^ 30)).toInt * (ofIntFixed 4 (-2)).toInt < 2 ^ 31 := by
  refine ⟨_, rfl, by decide, by decide, by decide⟩

/-- C5 (counterexample): at `Fixed(4)`, `x + (-x)` for the most negative
value raises `OverflowException` (with the all-zero truncated result
attached) instead of returning normally. -/
theorem C5_counterexample_minneg_plus_its_negation_raises :
    ∃ t : Integer,
      Integer.opAdd (minNegFixed 4) (Integer.opNeg (minNegFixed 4)) =
        .error (.overflow t) ∧
      t.toInt = 0 := by
  refine ⟨_, rfl, by decide⟩

/-- C8 (counterexample): an Unlimited subtraction of equal 5-word values
returns a zero with 5 words (40 bits), above the 4-word minimum; and a
mixed-width `Fixed(4) / Fixed(8)` division of a zero dividend returns a
`Fixed(8)`-tagged zero that owns only 4 words. -/
theorem C8_counterexample_nonminimal_zero :
    (∃ z : Integer,
      Integer.opSub (ofIntUnlimited 5 (2 ^ 31)) (ofIntUnlimited 5 (2 ^ 31)) = .ok z ∧
      z.width = .unlimited ∧ z.toInt = 0 ∧ z.bits.length = 40) ∧
    (∃ p : Integer × Integer,
      Integer.Div_Mod (ofIntFixed 4 0) (ofIntFixed 8 7) = .ok p ∧
      p.1.width = .fixed 8 ∧ p.1.toInt = 0 ∧ p.1.bits.length = 32) := by
  refine ⟨⟨_, rfl, rfl, by decide, by decide⟩, ⟨_, rfl, rfl, by decide, by decide⟩⟩

end mparith

namespace mparith

theorem opAdd_eq (x y : Integer) :
    Integer.opAdd x y =
      if (Integer.Add x y).2.1 then .error (.overflow (Integer.Add x y).1)
      else .ok (Integer.Add x y).1 := by
  unfold Integer.opAdd
  rcases Integer.Add x y with ⟨r, o, c⟩
  rfl

theorem Get_Actual_Width_of_fixed {x : Integer} {n : Nat} (h : x.width = .fixed n) :
    x.Get_Actual_Width = n := by
  unfold Integer.Get_Actual_Width
  rw [h]

theorem Sized_of_fixed {x : Integer} {n : Nat} (hw : x.width = .fixed n)
    (hl : x.bits.length = kWord_Bits_Cnt * n) : Sized x n :=
  ⟨Get_Actual_Width_of_fixed hw, hl⟩

/-- Every well-formed value is `Sized` at some word count `≥ kWidth_Min`. -/
theorem Wf_sized {x : Integer} (h : x.Wf) :
    ∃ a, Sized x a ∧ kWidth_Min ≤ a ∧
      (∀ n, x.width = .fixed n → n = a) := by
  unfold Integer.Wf at h
  cases hw : x.width with
  | fixed n =>
    rw [hw] at h
    refine ⟨n, Sized_of_fixed hw h.2, h.1, ?_⟩
    intro m hm
    injection hm with h3
    exact h3.symm
  | unlimited =>
    rw [hw] at h
    have hlen := h.1
    obtain ⟨m, hm⟩ := h.2
    refine ⟨x.bits.length / kWord_Bits_Cnt, ?_, ?_, ?_⟩
    · refine Sized_of_unlimited hw ?_
      rw [hm, Nat.mul_div_cancel_left m (by decide : 0 < kWord_Bits_Cnt)]
    · rw [hm, Nat.mul_div_cancel_left m (by decide : 0 < kWord_Bits_Cnt)]
      have h8 : kWord_Bits_Cnt = 8 := rfl
      have hk4 : kWidth_Min = 4 := rfl
      rw [hm, h8] at hlen
      rw [hk4]
      omega
    · intro k hk
      cases hk

end mparith

namespace mparith

/-- If the true sum fits in the larger operand width, `operator+` returns
normally with the exact sum (for unlimited widths the fit condition is only
used to bound the result size). -/
theorem opAdd_exact {x y : Integer} {a b : Nat}
    (hx : Sized x a) (hy : Sized y b) (hwxy : y.width = x.width)
    (ha : 0 < a) (hb : 0 < b)
    (hfit : -((2 : Int) ^ (kWord_Bits_Cnt * max a b - 1)) ≤ x.toInt + y.toInt ∧
      x.toInt + y.toInt < (2 : Int) ^ (kWord_Bits_Cnt * max a b - 1)) :
    ∃ r c, Integer.opAdd x y = .ok r ∧ Sized r c ∧ 0 < c ∧
      r.toInt = x.toInt + y.toInt := by
  cases hw : x.width with
  | fixed n =>
    have han : n = a := (Get_Actual_Width_of_fixed hw).symm.trans hx.1
    have hw' : x.width = .fixed a := by rw [hw, han]
    have hwy' : y.width = .fixed a := hwxy.trans hw'
    have hbn : b = a := hy.1.symm.trans (Get_Actual_Width_of_fixed hwy')
    have hy2 : y.bits.length = kWord_Bits_Cnt * a := by rw [hy.2, hbn]
    rw [hbn, Nat.max_self] at hfit
    have hspec := Add_spec_fixed x y a a hw' hwy' hx.2 hy2 ha ha
    rw [Nat.max_self] at hspec
    have hof : (Integer.Add x y).2.1 = false := hspec.2.2.2.1.mpr hfit
    refine ⟨(Integer.Add x y).1, a, ?_, ?_, ha, hspec.2.2.2.2.1 hof⟩
    · rw [opAdd_eq, hof]
      rfl
    · exact Sized_of_fixed hspec.1 hspec.2.1
  | unlimited =>
    have hrw : Get_Max_Width x.width y.width = .unlimited := by
      rw [hw, hwxy.trans hw]
      rfl
    have hspec := Add_spec_unlimited x y a b hrw hx hy ha hb
    have hlen := hspec.2.2.2.1 hfit
    refine ⟨(Integer.Add x y).1, max a b, ?_, ?_, ?_, hspec.2.2.1⟩
    · rw [opAdd_eq, hspec.2.1]
      rfl
    · exact Sized_of_unlimited hspec.1 hlen
    · omega

end mparith

namespace mparith

/-- C5 (corrected): for every well-formed value `x`, `x + 0 == x` and
`0 + x == x` return normally; and `x + (-x) == 0` returns normally provided
`x` is not the minimal negative value of a fixed width (for which `-x`
overflows back to `x` and the sum raises `OverflowError`, see the
counterexample). -/
theorem C5_addition_identities (x : Integer) (h : x.Wf) :
    (∃ r, Integer.opAdd x (Integer.kZero x.width) = .ok r ∧
      Integer.beq r x = true) ∧
    (∃ r, Integer.opAdd (Integer.kZero x.width) x = .ok r ∧
      Integer.beq r x = true) ∧
    ((∀ n, x.width = .fixed n →
        x.toInt ≠ -((2 : Int) ^ (kWord_Bits_Cnt * n - 1))) →
      ∃ r, Integer.opAdd x (Integer.opNeg x) = .ok r ∧
        Integer.beq r (Integer.kZero x.width) = true) := by
  obtain ⟨a, hx, ha4, hfa⟩ := Wf_sized h
  have hk4 : kWidth_Min = 4 := rfl
  have ha : 0 < a := by omega
  have hz : Sized (Integer.kZero x.width) (Integer.initWords x.width) :=
    Sized_kZero x.width
  have hba : Integer.initWords x.width ≤ a := by
    cases hw : x.width with
    | fixed n =>
      have hna := hfa n hw
      show n ≤ a
      omega
    | unlimited =>
      show kWidth_Min ≤ a
      exact ha4
  have hb0 : 0 < Integer.initWords x.width := by
    cases hw : x.width with
    | fixed n =>
      have hna := hfa n hw
      show 0 < n
      omega
    | unlimited =>
      show 0 < kWidth_Min
      omega
  refine ⟨?_, ?_, ?_⟩
  · -- x + 0 == x
    have hfit : -((2 : Int) ^
          (kWord_Bits_Cnt * max a (Integer.initWords x.width) - 1)) ≤
        x.toInt + (Integer.kZero x.width).toInt ∧
        x.toInt + (Integer.kZero x.width).toInt < (2 : Int) ^
          (kWord_Bits_Cnt * max a (Integer.initWords x.width) - 1) := by
      rw [Nat.max_eq_left hba, kZero_toInt, add_zero]
      exact ⟨toInt_lb hx ha, toInt_ub hx ha⟩
    obtain ⟨r, c, hok, hr, hc, hrInt⟩ := opAdd_exact hx hz rfl ha hb0 hfit
    refine ⟨r, hok, (beq_iff_toInt hr hx hc ha).mpr ?_⟩
    rw [hrInt, kZero_toInt, add_zero]
  · -- 0 + x == x
    have hfit : -((2 : Int) ^
          (kWord_Bits_Cnt * max (Integer.initWords x.width) a - 1)) ≤
        (Integer.kZero x.width).toInt + x.toInt ∧
        (Integer.kZero x.width).toInt + x.toInt < (2 : Int) ^
          (kWord_Bits_Cnt * max (Integer.initWords x.width) a - 1) := by
      rw [Nat.max_eq_right hba, kZero_toInt, zero_add]
      exact ⟨toInt_lb hx ha, toInt_ub hx ha⟩
    obtain ⟨r, c, hok, hr, hc, hrInt⟩ := opAdd_exact hz hx rfl hb0 ha hfit
    refine ⟨r, hok, (beq_iff_toInt hr hx hc ha).mpr ?_⟩
    rw [hrInt, kZero_toInt, zero_add]
  · -- x + (-x) == 0 away from the fixed minimal negative
    intro hmn
    have key : ∃ c', Sized (Integer.opNeg x) c' ∧ 0 < c' ∧
        (Integer.opNeg x).width = x.width ∧
        x.toInt + (Integer.opNeg x).toInt = 0 := by
      cases hw : x.width with
      | fixed n =>
        have hna : n = a := hfa n hw
        have hxl : x.bits.length = kWord_Bits_Cnt * n := by rw [hx.2, hna]
        have hn : 0 < n := by omega
        have hc := Get_Complement_spec_fixed x n hw hxl hn
        have hce : x.Get_Complement.toInt = -x.toInt := hc.2.2.1 (hmn n hw)
        refine ⟨n, Sized_of_fixed hc.1 hc.2.1, hn, hc.1, ?_⟩
        show x.toInt + x.Get_Complement.toInt = 0
        rw [hce]
        ring
      | unlimited =>
        have hcu := Get_Complement_spec_unlimited x a hw hx ha4
        have hS : x.toInt + (Integer.opNeg x).toInt = 0 := by
          show x.toInt + x.Get_Complement.toInt = 0
          rw [hcu.2.1]
          ring
        by_cases hm : x.toInt = -((2 : Int) ^ (kWord_Bits_Cnt * a - 1))
        · exact ⟨a + 1, hcu.2.2.2 hm, by omega, hcu.1, hS⟩
        · exact ⟨a, hcu.2.2.1 hm, ha, hcu.1, hS⟩
    obtain ⟨c', hneg, hc', hnw, hS⟩ := key
    have hp : (0 : Int) < 2 ^ (kWord_Bits_Cnt * max a c' - 1) := by positivity
    have hfit : -((2 : Int) ^ (kWord_Bits_Cnt * max a c' - 1)) ≤
        x.toInt + (Integer.opNeg x).toInt ∧
        x.toInt + (Integer.opNeg x).toInt <
          (2 : Int) ^ (kWord_Bits_Cnt * max a c' - 1) := by
      rw [hS]
      omega
    obtain ⟨r, c, hok, hr, hc, hrInt⟩ := opAdd_exact hx hneg hnw ha hc' hfit
    refine ⟨r, hok, (beq_iff_toInt hr hz hc hb0).mpr ?_⟩
    rw [hrInt, hS, kZero_toInt]

end mparith

namespace mparith

theorem C5_addition_identities_witness :
    (Integer.kOne (t_Width.fixed 4)).Wf ∧
    ((∃ r, Integer.opAdd (Integer.kOne (t_Width.fixed 4))
        (Integer.kZero (Integer.kOne (t_Width.fixed 4)).width) = .ok r ∧
      Integer.beq r (Integer.kOne (t_Width.fixed 4)) = true) ∧
    (∃ r, Integer.opAdd
        (Integer.kZero (Integer.kOne (t_Width.fixed 4)).width)
        (Integer.kOne (t_Width.fixed 4)) = .ok r ∧
      Integer.beq r (Integer.kOne (t_Width.fixed 4)) = true) ∧
    ((∀ n, (Integer.kOne (t_Width.fixed 4)).width = .fixed n →
        (Integer.kOne (t_Width.fixed 4)).toInt ≠
          -((2 : Int) ^ (kWord_Bits_Cnt * n - 1))) →
      ∃ r, Integer.opAdd (Integer.kOne (t_Width.fixed 4))
          (Integer.opNeg (Integer.kOne (t_Width.fixed 4))) = .ok r ∧
        Integer.beq r
          (Integer.kZero (Integer.kOne (t_Width.fixed 4)).width) = true)) :=
  ⟨by decide, C5_addition_identities (Integer.kOne (t_Width.fixed 4)) (by decide)⟩

end mparith

namespace mparith

/-- A successful same-width fixed addition returns a result of that width
with exactly the operands' word count. -/
theorem opAdd_ok_size {x y : Integer} {n : Nat} {r : Integer}
    (hwx : x.width = .fixed n) (hwy : y.width = .fixed n)
    (hlx : x.bits.length = kWord_Bits_Cnt * n)
    (hly : y.bits.length = kWord_Bits_Cnt * n) (hn : 0 < n)
    (hok : Integer.opAdd x y = .ok r) :
    r.width = .fixed n ∧ r.bits.length = kWord_Bits_Cnt * n := by
  have hspec := Add_spec_fixed x y n n hwx hwy hlx hly hn hn
  rw [Nat.max_self] at hspec
  rw [opAdd_eq] at hok
  cases hb : (Integer.Add x y).2.1 with
  | true =>
    rw [hb] at hok
    exact absurd hok (by simp)
  | false =>
    rw [hb] at hok
    simp only [Bool.false_eq_true, if_false, Except.ok.injEq] at hok
    rw [← hok]
    exact ⟨hspec.1, hspec.2.1⟩

end mparith

namespace mparith

/-- C8 (corrected): a value equal to zero always has every bit of its word
vector cleared; and same-width fixed addition and subtraction return results
with exactly the operands' word count.  (Minimality of the word count for
zeros of unlimited width, or across mixed fixed widths, fails; see the
counterexample.) -/
theorem C8_zero_bits_and_fixed_width_preservation :
    (∀ (x : Integer) (a : Nat), Sized x a → 0 < a →
      (x.toInt = 0 ↔ x.bits = List.replicate (kWord_Bits_Cnt * a) false)) ∧
    (∀ (x y : Integer) (n : Nat) (r : Integer),
      x.width = .fixed n → y.width = .fixed n →
      x.bits.length = kWord_Bits_Cnt * n →
      y.bits.length = kWord_Bits_Cnt * n → 0 < n →
      (Integer.opAdd x y = .ok r ∨ Integer.opSub x y = .ok r) →
      r.width = .fixed n ∧ r.bits.length = kWord_Bits_Cnt * n) := by
  constructor
  · intro x a hx ha
    have hne : x.bits ≠ [] := hx.bits_ne_nil ha
    constructor
    · intro h0
      have hsb : signBit x.bits = false :=
        (bitsToInt_nonneg_iff x.bits hne).mp
          (by rw [show bitsToInt x.bits = x.toInt from rfl, h0])
      have h2 := bitsToInt_of_signBit_false x.bits hsb
      rw [show bitsToInt x.bits = x.toInt from rfl, h0] at h2
      have hN : bitsToNat x.bits = 0 := by exact_mod_cast h2.symm
      have h3 := (bitsToNat_eq_zero_iff x.bits).mp hN
      rw [hx.2] at h3
      exact h3
    · intro h
      show bitsToInt x.bits = 0
      rw [h, bitsToInt_of_signBit_false _ (signBit_replicate_false _),
        bitsToNat_replicate_false]
      simp
  · intro x y n r hwx hwy hlx hly hn hor
    cases hor with
    | inl hadd => exact opAdd_ok_size hwx hwy hlx hly hn hadd
    | inr hsub =>
      have hc := Get_Complement_spec_fixed y n hwy hly hn
      have hsub' : Integer.opAdd x y.Get_Complement = .ok r := hsub
      exact opAdd_ok_size hwx hc.1 hlx hc.2.1 hn hsub'

theorem C8_zero_bits_and_fixed_width_preservation_witness :
    ((Integer.kZero (t_Width.fixed 4)).toInt = 0 ↔
      (Integer.kZero (t_Width.fixed 4)).bits =
        List.replicate (kWord_Bits_Cnt * 4) false) ∧
    ((Integer.kTwo (t_Width.fixed 4)).width = .fixed 4 ∧
      (Integer.kTwo (t_Width.fixed 4)).bits.length = kWord_Bits_Cnt * 4) :=
  ⟨C8_zero_bits_and_fixed_width_preservation.1
      (Integer.kZero (t_Width.fixed 4)) 4 (by decide) (by decide),
    C8_zero_bits_and_fixed_width_preservation.2
      (Integer.kOne (t_Width.fixed 4)) (Integer.kOne (t_Width.fixed 4)) 4
      (Integer.kTwo (t_Width.fixed 4)) rfl rfl (by decide) (by decide)
      (by decide) (Or.inl rfl)⟩

end mparith

namespace mparith

theorem exceptBind_ok {ε α β : Type} (a : α) (f : α → Except ε β) :
    (Except.ok a : Except ε α) >>= f = f a := rfl

theorem exceptBind_pure {ε α β : Type} (a : α) (f : α → Except ε β) :
    (pure a : Except ε α) >>= f = f a := rfl

theorem GN_error {z : Integer} {w : t_Width} {a : Nat} {e : MpError}
    (h : Integer.Get_Normalized z w a = .error e) : e = .outOfBounds := by
  unfold Integer.Get_Normalized at h
  split at h
  · cases h
  · cases h
    rfl

theorem GN_ok_width {z : Integer} {w : t_Width} {a : Nat} {v : Integer}
    (h : Integer.Get_Normalized z w a = .ok v) : v.width = w := by
  unfold Integer.Get_Normalized at h
  split at h
  · cases h
    rfl
  · cases h

theorem addResU_width (lhs rhs : Integer) : (addResU lhs rhs).width = .unlimited := by
  unfold addResU
  split
  · rfl
  · split
    · rfl
    · rfl

theorem Add_width (x y : Integer) :
    (Integer.Add x y).1.width = Get_Max_Width x.width y.width := by
  cases hg : Get_Max_Width x.width y.width with
  | fixed n => rw [Add_eq_fixed x y n hg]
  | unlimited =>
    rw [Add_eq_unlimited x y hg]
    exact addResU_width x y

theorem Get_Max_Width_unlimited_left (w : t_Width) :
    Get_Max_Width .unlimited w = .unlimited := by
  cases w <;> rfl

theorem Get_Complement_width (x : Integer) : x.Get_Complement.width = x.width := by
  show (Integer.Add x.Get_Inverse (Integer.kOne x.width)).1.width = x.width
  rw [Add_width, Get_Inverse_width, kOne_width]
  cases x.width with
  | fixed n =>
    show t_Width.fixed (max n n) = t_Width.fixed n
    rw [Nat.max_self]
  | unlimited => rfl

theorem opAdd_no_overflow_of_unlimited {x y : Integer}
    (hrw : Get_Max_Width x.width y.width = .unlimited) (t : Integer) :
    Integer.opAdd x y ≠ .error (.overflow t) := by
  have h2 : (Integer.Add x y).2.1 = false := by rw [Add_eq_unlimited x y hrw]
  rw [opAdd_eq, h2]
  simp

theorem opSub_no_overflow_of_unlimited {x y : Integer}
    (hrw : Get_Max_Width x.width y.width = .unlimited) (t : Integer) :
    Integer.opSub x y ≠ .error (.overflow t) := by
  have hrw' : Get_Max_Width x.width y.Get_Complement.width = .unlimited := by
    rw [Get_Complement_width]
    exact hrw
  exact opAdd_no_overflow_of_unlimited hrw' t

end mparith

namespace mparith

/-- For an unlimited result width, `Mul` either hits the out-of-bounds copy
or returns normally with a cleared overflow flag. -/
theorem Mul_unlimited_shape (x y : Integer)
    (hrw : Get_Max_Width x.width y.width = .unlimited) :
    Integer.Mul x y = .error .outOfBounds ∨
    ∃ r, Integer.Mul x y = .ok (r, false) := by
  unfold Integer.Mul
  rw [hrw]
  dsimp only []
  rcases h1 : x.Get_Positive.Get_Normalized t_Width.unlimited
      (max x.Get_Actual_Width y.Get_Actual_Width) with e | left
  · left
    rw [GN_error h1]
    rfl
  · simp only [exceptBind_ok]
    rcases h2 : y.Get_Positive.Get_Normalized t_Width.unlimited
        (max x.Get_Actual_Width y.Get_Actual_Width) with e | right
    · left
      rw [GN_error h2]
      rfl
    · simp only [exceptBind_ok]
      rcases h3 : left.Get_Normalized t_Width.unlimited
          (2 * max x.Get_Actual_Width y.Get_Actual_Width) with e | l
      · left
        rw [GN_error h3]
        rfl
      · simp only [exceptBind_ok]
        rcases h4 : right.Get_Normalized t_Width.unlimited
            (2 * max x.Get_Actual_Width y.Get_Actual_Width) with e | r
        · left
          rw [GN_error h4]
          rfl
        · right
          simp only [exceptBind_ok, exceptBind_pure]
          cases hip : (!(x.Is_Positive.xor y.Is_Positive))
          · exact ⟨_, rfl⟩
          · exact ⟨_, rfl⟩

theorem opMul_no_overflow_of_unlimited {x y : Integer}
    (hrw : Get_Max_Width x.width y.width = .unlimited) (t : Integer) :
    Integer.opMul x y ≠ .error (.overflow t) := by
  rcases Mul_unlimited_shape x y hrw with h | ⟨r, h⟩
  · have hred : Integer.opMul x y = .error .outOfBounds := by
      unfold Integer.opMul
      rw [h]
      rfl
    rw [hred]
    simp
  · have hred : Integer.opMul x y = .ok r := by
      unfold Integer.opMul
      rw [h]
      rfl
    rw [hred]
    simp

end mparith

namespace mparith

/-- With an unlimited-width remainder the division loop never throws: the
inner subtraction's result width is unlimited, so its overflow flag is
never set. -/
theorem divLoop_unlimited_ok (num den : Integer) :
    ∀ (idxs : List Nat) (q r : Integer), r.width = .unlimited →
      ∃ q2 r2, Integer.divLoop num den idxs q r = .ok (q2, r2) := by
  intro idxs
  induction idxs with
  | nil =>
    intro q r _
    exact ⟨q, r, rfl⟩
  | cons i is ih =>
    intro q r hr
    have hrem'w : ((r.shl 1).setBit 0 (num.getBit i)).width = t_Width.unlimited := hr
    have hGW : Get_Max_Width ((r.shl 1).setBit 0 (num.getBit i)).width
        den.Get_Complement.width = t_Width.unlimited := by
      rw [hrem'w]
      exact Get_Max_Width_unlimited_left _
    have h2 : (Integer.Add ((r.shl 1).setBit 0 (num.getBit i))
        den.Get_Complement).2.1 = false := by
      rw [Add_eq_unlimited _ _ hGW]
    have hok : Integer.opSub ((r.shl 1).setBit 0 (num.getBit i)) den =
        .ok ((Integer.Add ((r.shl 1).setBit 0 (num.getBit i))
          den.Get_Complement).1) := by
      show Integer.opAdd _ _ = _
      rw [opAdd_eq, h2]
      rfl
    have hdw : ((Integer.Add ((r.shl 1).setBit 0 (num.getBit i))
        den.Get_Complement).1).width = t_Width.unlimited := by
      rw [Add_width]
      exact hGW
    unfold Integer.divLoop
    dsimp only []
    rw [hok]
    simp only [exceptBind_ok]
    cases hip : ((Integer.Add ((r.shl 1).setBit 0 (num.getBit i))
        den.Get_Complement).1).Is_Positive
    · obtain ⟨q2, r2, hqr⟩ := ih q ((r.shl 1).setBit 0 (num.getBit i)) hr
      exact ⟨q2, r2, hqr⟩
    · obtain ⟨q2, r2, hqr⟩ := ih (q.setBit i true)
        ((Integer.Add ((r.shl 1).setBit 0 (num.getBit i))
          den.Get_Complement).1) hdw
      exact ⟨q2, r2, hqr⟩

end mparith

namespace mparith

theorem GNN_error {w : t_Width} {a : Nat} {e : MpError}
    (h : Integer.Get_Normalized_New w a = .error e) : e = .outOfBounds := by
  unfold Integer.Get_Normalized_New at h
  exact GN_error h

theorem GNN_ok_width {w : t_Width} {a : Nat} {v : Integer}
    (h : Integer.Get_Normalized_New w a = .ok v) : v.width = w := by
  unfold Integer.Get_Normalized_New at h
  exact GN_ok_width h

/-- For an unlimited result width, `Div_Mod` either reports division by
zero, hits an out-of-bounds copy, or returns normally — it never reports
overflow. -/
theorem Div_Mod_unlimited_shape (x y : Integer)
    (hrw : Get_Max_Width x.width y.width = .unlimited) :
    Integer.Div_Mod x y = .error (.arithmetic "Division By Zero") ∨
    Integer.Div_Mod x y = .error .outOfBounds ∨
    ∃ p, Integer.Div_Mod x y = .ok p := by
  unfold Integer.Div_Mod
  rw [hrw]
  dsimp only []
  cases hb1 : Integer.beq y (Integer.kZero x.width)
  · cases hb2 : Integer.beq x (Integer.kZero x.width)
    · rcases hn : x.Get_Positive.Get_Normalized t_Width.unlimited
          (max x.Get_Actual_Width y.Get_Actual_Width) with e | num
      · right
        left
        rw [GN_error hn]
        rfl
      · simp only [exceptBind_ok]
        rcases hd : y.Get_Positive.Get_Normalized t_Width.unlimited
            (max x.Get_Actual_Width y.Get_Actual_Width) with e | den
        · right
          left
          rw [GN_error hd]
          rfl
        · simp only [exceptBind_ok]
          rcases hq : Integer.Get_Normalized_New t_Width.unlimited
              (max x.Get_Actual_Width y.Get_Actual_Width) with e | qv
          · right
            left
            rw [GNN_error hq]
            rfl
          · simp only [exceptBind_ok]
            have hrv : qv.width = t_Width.unlimited := GNN_ok_width hq
            obtain ⟨q2, r2, hqr⟩ := divLoop_unlimited_ok num den
              ((List.range (num.Get_Msb_Idx + 1)).reverse) qv qv hrv
            rw [hqr]
            simp only [exceptBind_ok]
            right
            right
            cases hip : (!(x.Is_Positive.xor y.Is_Positive))
            · exact ⟨_, rfl⟩
            · exact ⟨_, rfl⟩
    · right
      right
      exact ⟨_, rfl⟩
  · left
    rfl

end mparith

namespace mparith

theorem Div_Mod_no_overflow_of_unlimited {x y : Integer}
    (hrw : Get_Max_Width x.width y.width = .unlimited) (t : Integer) :
    Integer.Div_Mod x y ≠ .error (.overflow t) := by
  rcases Div_Mod_unlimited_shape x y hrw with h | h | ⟨p, h⟩ <;> rw [h] <;> simp

theorem opDiv_no_overflow_of_unlimited {x y : Integer}
    (hrw : Get_Max_Width x.width y.width = .unlimited) (t : Integer) :
    Integer.opDiv x y ≠ .error (.overflow t) := by
  rcases hD : Integer.Div_Mod x y with e | p
  · have hred : Integer.opDiv x y = .error e := by
      unfold Integer.opDiv
      rw [hD]
      rfl
    rw [hred]
    intro hc
    apply Div_Mod_no_overflow_of_unlimited hrw t
    rw [hD]
    injection hc with h2
    rw [h2]
  · have hred : Integer.opDiv x y = .ok p.1 := by
      unfold Integer.opDiv
      rw [hD]
      rfl
    rw [hred]
    simp

theorem opMod_no_overflow_of_unlimited {x y : Integer}
    (hrw : Get_Max_Width x.width y.width = .unlimited) (t : Integer) :
    Integer.opMod x y ≠ .error (.overflow t) := by
  rcases hD : Integer.Div_Mod x y with e | p
  · have hred : Integer.opMod x y = .error e := by
      unfold Integer.opMod
      rw [hD]
      rfl
    rw [hred]
    intro hc
    apply Div_Mod_no_overflow_of_unlimited hrw t
    rw [hD]
    injection hc with h2
    rw [h2]
  · have hred : Integer.opMod x y = .ok p.2 := by
      unfold Integer.opMod
      rw [hD]
      rfl
    rw [hred]
    simp

end mparith

namespace mparith

/-- When a same-width fixed addition overflows, the attached truncated
result is congruent to the mathematical sum modulo `2 ^ (8n)`. -/
theorem opAdd_overflow_trunc {x y : Integer} {n : Nat} {t : Integer}
    (hwx : x.width = .fixed n) (hwy : y.width = .fixed n)
    (hlx : x.bits.length = kWord_Bits_Cnt * n)
    (hly : y.bits.length = kWord_Bits_Cnt * n) (hn : 0 < n)
    (h : Integer.opAdd x y = .error (.overflow t)) :
    t.toInt % (2 : Int) ^ (kWord_Bits_Cnt * n) =
      (x.toInt + y.toInt) % (2 : Int) ^ (kWord_Bits_Cnt * n) := by
  have hspec := Add_spec_fixed x y n n hwx hwy hlx hly hn hn
  rw [Nat.max_self] at hspec
  rw [opAdd_eq] at h
  cases hb : (Integer.Add x y).2.1 with
  | false =>
    rw [hb] at h
    exact absurd h (by simp)
  | true =>
    rw [hb] at h
    simp only [if_true, reduceIte, Except.error.injEq, MpError.overflow.injEq] at h
    rw [← h]
    rcases hspec.2.2.1 with h3 | h3 | h3
    · rw [h3]
    · rw [h3, show x.toInt + y.toInt + (2 : Int) ^ (kWord_Bits_Cnt * n) =
        x.toInt + y.toInt + (2 : Int) ^ (kWord_Bits_Cnt * n) * 1 by ring,
        Int.add_mul_emod_self_left]
    · rw [h3, show x.toInt + y.toInt - (2 : Int) ^ (kWord_Bits_Cnt * n) =
        x.toInt + y.toInt + (2 : Int) ^ (kWord_Bits_Cnt * n) * (-1) by ring,
        Int.add_mul_emod_self_left]

/-- When a same-width fixed subtraction overflows, the attached truncated
result is congruent to the mathematical difference modulo `2 ^ (8n)`. -/
theorem opSub_overflow_trunc {x y : Integer} {n : Nat} {t : Integer}
    (hwx : x.width = .fixed n) (hwy : y.width = .fixed n)
    (hlx : x.bits.length = kWord_Bits_Cnt * n)
    (hly : y.bits.length = kWord_Bits_Cnt * n) (hn : 0 < n)
    (h : Integer.opSub x y = .error (.overflow t)) :
    t.toInt % (2 : Int) ^ (kWord_Bits_Cnt * n) =
      (x.toInt - y.toInt) % (2 : Int) ^ (kWord_Bits_Cnt * n) := by
  have hc := Get_Complement_spec_fixed y n hwy hly hn
  have h' : Integer.opAdd x y.Get_Complement = .error (.overflow t) := h
  have htr := opAdd_overflow_trunc hwx hc.1 hlx hc.2.1 hn h'
  by_cases hm : y.toInt = -((2 : Int) ^ (kWord_Bits_Cnt * n - 1))
  · have hcy : y.Get_Complement.toInt = y.toInt := hc.2.2.2 hm
    rw [hcy, hm] at htr
    rw [hm, htr]
    have h2L : (2 : Int) ^ (kWord_Bits_Cnt * n) =
        (2 : Int) ^ (kWord_Bits_Cnt * n - 1) * 2 := by
      rw [← pow_succ]
      congr 1
      have h8 : kWord_Bits_Cnt = 8 := rfl
      rw [h8]
      omega
    rw [show x.toInt + -((2 : Int) ^ (kWord_Bits_Cnt * n - 1)) =
      (x.toInt - -((2 : Int) ^ (kWord_Bits_Cnt * n - 1))) +
        (2 : Int) ^ (kWord_Bits_Cnt * n) * (-1) by rw [h2L]; ring,
      Int.add_mul_emod_self_left]
  · have hcy : y.Get_Complement.toInt = -y.toInt := hc.2.2.1 hm
    rw [hcy, ← sub_eq_add_neg] at htr
    exact htr

end mparith

namespace mparith


end mparith

namespace mparith

theorem getD_set_ne (bs : List Bool) :
    ∀ (p j : Nat) (b : Bool), j ≠ p →
      (bs.set p b).getD j false = bs.getD j false := by
  induction bs with
  | nil =>
    intro p j b _
    rfl
  | cons c t ih =>
    intro p j b hne
    cases p with
    | zero =>
      cases j with
      | zero => exact absurd rfl hne
      | succ j' => rfl
    | succ p' =>
      cases j with
      | zero => rfl
      | succ j' =>
        show (t.set p' b).getD j' false = t.getD j' false
        exact ih p' j' b (fun h => hne (by rw [h]))

theorem bitsToNat_set_of_false (bs : List Bool) :
    ∀ (p : Nat) (b : Bool), p < bs.length → bs.getD p false = false →
      bitsToNat (bs.set p b) = b.toNat * 2 ^ p + bitsToNat bs := by
  induction bs with
  | nil =>
    intro p b h _
    simp at h
  | cons c t ih =>
    intro p b hp h0
    cases p with
    | zero =>
      have hc : c = false := h0
      subst hc
      show bitsToNat (b :: t) = b.toNat * 2 ^ 0 + bitsToNat (false :: t)
      rw [bitsToNat_cons, bitsToNat_cons]
      simp
    | succ p' =>
      have hp' : p' < t.length := by
        rw [List.length_cons] at hp
        omega
      have h0' : t.getD p' false = false := h0
      show bitsToNat (c :: t.set p' b) = b.toNat * 2 ^ (p' + 1) + bitsToNat (c :: t)
      rw [bitsToNat_cons, bitsToNat_cons, ih p' b hp' h0']
      ring

theorem shl_one_bits (x : Integer) :
    (x.shl 1).bits = (false :: x.bits).take x.bits.length := rfl

theorem shl_one_length (x : Integer) : (x.shl 1).bits.length = x.bits.length := by
  rw [shl_one_bits, List.length_take, List.length_cons]
  omega

theorem shl_one_toNatU (x : Integer) :
    (x.shl 1).toNatU = 2 * x.toNatU % 2 ^ x.bits.length := by
  show bitsToNat (x.shl 1).bits = _
  rw [shl_one_bits, bitsToNat_take, bitsToNat_cons]
  show (Bool.toNat false + 2 * bitsToNat x.bits) % 2 ^ x.bits.length = _
  simp [Integer.toNatU]

theorem shl_one_bit0 (x : Integer) (h : 0 < x.bits.length) :
    (x.shl 1).bits.getD 0 false = false := by
  rw [shl_one_bits]
  cases hbs : x.bits with
  | nil =>
    rw [hbs] at h
    simp at h
  | cons c t => rfl

theorem setBit_toNatU {x : Integer} {p : Nat} {b : Bool}
    (hp : p < x.bits.length) (h0 : x.bits.getD p false = false) :
    (x.setBit p b).toNatU = b.toNat * 2 ^ p + x.toNatU :=
  bitsToNat_set_of_false x.bits p b hp h0

theorem setBit_length (x : Integer) (p : Nat) (b : Bool) :
    (x.setBit p b).bits.length = x.bits.length := by
  show (x.bits.set p b).length = _
  simp

theorem getBit_toNat (x : Integer) (i : Nat) :
    (x.getBit i).toNat = x.toNatU / 2 ^ i % 2 := by
  show (x.bits.getD i false).toNat = bitsToNat x.bits / 2 ^ i % 2
  rw [← bitsToNat_testBit, Nat.testBit_to_div_mod]
  rcases Nat.mod_two_eq_zero_or_one (bitsToNat x.bits / 2 ^ i) with h2 | h2 <;>
    simp [h2]

theorem Sized_congr {x y : Integer} {A : Nat} (hx : Sized x A)
    (hw : y.width = x.width) (hl : y.bits.length = x.bits.length) : Sized y A := by
  obtain ⟨h1, h2⟩ := hx
  refine ⟨?_, by rw [hl, h2]⟩
  unfold Integer.Get_Actual_Width at h1 ⊢
  rw [hw, hl]
  exact h1

theorem Get_Max_Width_self (w : t_Width) : Get_Max_Width w w = w := by
  cases w with
  | fixed n =>
    show t_Width.fixed (max n n) = _
    rw [Nat.max_self]
  | unlimited => rfl

theorem opAdd_ok_width {x y r : Integer} (h : Integer.opAdd x y = .ok r) :
    r.width = Get_Max_Width x.width y.width := by
  rw [opAdd_eq] at h
  cases hb : (Integer.Add x y).2.1 with
  | true =>
    rw [hb] at h
    exact absurd h (by simp)
  | false =>
    rw [hb] at h
    simp only [Bool.false_eq_true, if_false, Except.ok.injEq] at h
    rw [← h, Add_width]

/-- Strengthening of `opAdd_exact` recording the result's exact word count. -/
theorem opAdd_exact' {x y : Integer} {a b : Nat}
    (hx : Sized x a) (hy : Sized y b) (hwxy : y.width = x.width)
    (ha : 0 < a) (hb : 0 < b)
    (hfit : -((2 : Int) ^ (kWord_Bits_Cnt * max a b - 1)) ≤ x.toInt + y.toInt ∧
      x.toInt + y.toInt < (2 : Int) ^ (kWord_Bits_Cnt * max a b - 1)) :
    ∃ r, Integer.opAdd x y = .ok r ∧ Sized r (max a b) ∧
      r.toInt = x.toInt + y.toInt := by
  cases hw : x.width with
  | fixed n =>
    have han : n = a := (Get_Actual_Width_of_fixed hw).symm.trans hx.1
    have hw' : x.width = .fixed a := by rw [hw, han]
    have hwy' : y.width = .fixed a := hwxy.trans hw'
    have hbn : b = a := hy.1.symm.trans (Get_Actual_Width_of_fixed hwy')
    have hy2 : y.bits.length = kWord_Bits_Cnt * a := by rw [hy.2, hbn]
    rw [hbn, Nat.max_self] at hfit
    have hspec := Add_spec_fixed x y a a hw' hwy' hx.2 hy2 ha ha
    rw [Nat.max_self] at hspec
    have hof : (Integer.Add x y).2.1 = false := hspec.2.2.2.1.mpr hfit
    refine ⟨(Integer.Add x y).1, ?_, ?_, hspec.2.2.2.2.1 hof⟩
    · rw [opAdd_eq, hof]
      rfl
    · rw [hbn, Nat.max_self]
      exact Sized_of_fixed hspec.1 hspec.2.1
  | unlimited =>
    have hrw : Get_Max_Width x.width y.width = .unlimited := by
      rw [hw, hwxy.trans hw]
      rfl
    have hspec := Add_spec_unlimited x y a b hrw hx hy ha hb
    have hlen := hspec.2.2.2.1 hfit
    refine ⟨(Integer.Add x y).1, ?_, ?_, hspec.2.2.1⟩
    · rw [opAdd_eq, hspec.2.1]
      rfl
    · exact Sized_of_unlimited hspec.1 hlen

end mparith

namespace mparith

/-- One step of the restoring-division loop under the loop invariant: shift
the remainder, bring down numerator bit `p`, subtract the denominator, keep
the difference when non-negative.  The denominator facts are supplied by the
caller. -/
theorem divLoop_step (num den : Integer) (A : Nat) (hA : 0 < A)
    (hd1 : 1 ≤ den.toNatU)
    (hdlim : den.toNatU ≤ 2 ^ (kWord_Bits_Cnt * A - 1))
    (hcomp : den.Get_Complement.toInt = -(den.toNatU : Int))
    (hcompS : Sized den.Get_Complement A)
    (hN : num.toNatU < 2 ^ (kWord_Bits_Cnt * A - 1) ∨
      2 * den.toNatU ≤ 2 ^ (kWord_Bits_Cnt * A - 1))
    (p : Nat) (hp : p < kWord_Bits_Cnt * A) (q r : Integer)
    (hq : Sized q A) (hr : Sized r A)
    (hqw : q.width = den.width) (hrw : r.width = den.width)
    (hrv : r.toNatU = num.toNatU / 2 ^ (p + 1) % den.toNatU)
    (hqv : q.toNatU = num.toNatU / 2 ^ (p + 1) / den.toNatU * 2 ^ (p + 1))
    (hqb : ∀ j, j ≤ p → q.bits.getD j false = false) :
    ∃ q2 r2,
      (∀ idxs, Integer.divLoop num den (p :: idxs) q r =
        Integer.divLoop num den idxs q2 r2) ∧
      Sized q2 A ∧ Sized r2 A ∧ q2.width = den.width ∧ r2.width = den.width ∧
      r2.toNatU = num.toNatU / 2 ^ p % den.toNatU ∧
      q2.toNatU = num.toNatU / 2 ^ p / den.toNatU * 2 ^ p ∧
      (∀ j, j < p → q2.bits.getD j false = false) := by
  have h8 : kWord_Bits_Cnt = 8 := rfl
  have hd0 : 0 < den.toNatU := hd1
  have hLpos : 0 < kWord_Bits_Cnt * A := by
    rw [h8]
    omega
  have hpow_split : 2 ^ (kWord_Bits_Cnt * A) = 2 ^ (kWord_Bits_Cnt * A - 1) * 2 := by
    rw [← pow_succ]
    congr 1
    omega
  have hrlt : r.toNatU < den.toNatU := by
    rw [hrv]
    exact Nat.mod_lt _ hd0
  have hrlen : r.bits.length = kWord_Bits_Cnt * A := hr.2
  have h2r : 2 * r.toNatU < 2 ^ (kWord_Bits_Cnt * A) := by
    rw [hpow_split]
    omega
  have hshl_val : (r.shl 1).toNatU = 2 * r.toNatU := by
    rw [shl_one_toNatU, hrlen]
    exact Nat.mod_eq_of_lt h2r
  have hshl_len : (r.shl 1).bits.length = kWord_Bits_Cnt * A := by
    rw [shl_one_length, hrlen]
  have hbit0 : (r.shl 1).bits.getD 0 false = false := by
    apply shl_one_bit0
    rw [hrlen]
    exact hLpos
  have hrem_val : ((r.shl 1).setBit 0 (num.getBit p)).toNatU =
      2 * r.toNatU + (num.getBit p).toNat := by
    rw [setBit_toNatU (by rw [hshl_len]; exact hLpos) hbit0, hshl_val]
    ring
  have hremLen : ((r.shl 1).setBit 0 (num.getBit p)).bits.length =
      kWord_Bits_Cnt * A := by
    rw [setBit_length, hshl_len]
  have hremS : Sized ((r.shl 1).setBit 0 (num.getBit p)) A := by
    refine Sized_congr hr rfl ?_
    rw [setBit_length, shl_one_length]
  have hremw : ((r.shl 1).setBit 0 (num.getBit p)).width = den.width := hrw
  have hbitle : (num.getBit p).toNat ≤ 1 := by
    cases num.getBit p <;> simp
  have hMsplit : num.toNatU / 2 ^ p =
      2 * (num.toNatU / 2 ^ (p + 1)) + (num.getBit p).toNat := by
    rw [getBit_toNat]
    have hdd : num.toNatU / 2 ^ (p + 1) = num.toNatU / 2 ^ p / 2 := by
      rw [Nat.div_div_eq_div_mul, ← pow_succ]
    rw [hdd]
    omega
  have hrem_val' : ((r.shl 1).setBit 0 (num.getBit p)).toNatU =
      2 * (num.toNatU / 2 ^ (p + 1) % den.toNatU) + (num.getBit p).toNat := by
    rw [hrem_val, hrv]
  have hslt : num.toNatU / 2 ^ (p + 1) % den.toNatU < den.toNatU :=
    Nat.mod_lt _ hd0
  have hR2d : ((r.shl 1).setBit 0 (num.getBit p)).toNatU < 2 * den.toNatU := by
    rw [hrem_val']
    omega
  have hRle : ((r.shl 1).setBit 0 (num.getBit p)).toNatU ≤ num.toNatU / 2 ^ p := by
    rw [hrem_val', hMsplit]
    have hmle : num.toNatU / 2 ^ (p + 1) % den.toNatU ≤ num.toNatU / 2 ^ (p + 1) :=
      Nat.mod_le _ _
    omega
  have hRlt : ((r.shl 1).setBit 0 (num.getBit p)).toNatU <
      2 ^ (kWord_Bits_Cnt * A - 1) := by
    have h1 : num.toNatU / 2 ^ p ≤ num.toNatU := Nat.div_le_self _ _
    rcases hN with hN | hN
    · omega
    · omega
  have hremSign : signBit ((r.shl 1).setBit 0 (num.getBit p)).bits = false := by
    cases hs : signBit ((r.shl 1).setBit 0 (num.getBit p)).bits with
    | false => rfl
    | true =>
      have hge := (signBit_true_iff _ (hremS.bits_ne_nil hA)).mp hs
      rw [hremLen] at hge
      have hk : bitsToNat ((r.shl 1).setBit 0 (num.getBit p)).bits =
          ((r.shl 1).setBit 0 (num.getBit p)).toNatU := rfl
      rw [hk] at hge
      have hlt : ((r.shl 1).setBit 0 (num.getBit p)).toNatU <
          2 ^ (kWord_Bits_Cnt * A - 1) := hRlt
      omega
  have hremInt : ((r.shl 1).setBit 0 (num.getBit p)).toInt =
      (((r.shl 1).setBit 0 (num.getBit p)).toNatU : Int) :=
    bitsToInt_of_signBit_false _ hremSign
  have hfit : -((2 : Int) ^ (kWord_Bits_Cnt * max A A - 1)) ≤
      ((r.shl 1).setBit 0 (num.getBit p)).toInt + den.Get_Complement.toInt ∧
      ((r.shl 1).setBit 0 (num.getBit p)).toInt + den.Get_Complement.toInt <
        (2 : Int) ^ (kWord_Bits_Cnt * max A A - 1) := by
    rw [Nat.max_self, hremInt, hcomp]
    have hcast : ((2 ^ (kWord_Bits_Cnt * A - 1) : Nat) : Int) =
        (2 : Int) ^ (kWord_Bits_Cnt * A - 1) := by
      push_cast
      ring
    have hdle : (den.toNatU : Int) ≤ (2 : Int) ^ (kWord_Bits_Cnt * A - 1) := by
      rw [← hcast]
      exact Nat.cast_le.mpr hdlim
    have hd1' : (1 : Int) ≤ (den.toNatU : Int) := by exact_mod_cast hd1
    have hRlt' : (((r.shl 1).setBit 0 (num.getBit p)).toNatU : Int) <
        (2 : Int) ^ (kWord_Bits_Cnt * A - 1) := by
      rw [← hcast]
      exact Nat.cast_lt.mpr hRlt
    have hR0 : (0 : Int) ≤ (((r.shl 1).setBit 0 (num.getBit p)).toNatU : Int) :=
      Int.natCast_nonneg _
    constructor <;> omega
  obtain ⟨diff, hdiffok, hdiffS, hdiffInt⟩ :=
    opAdd_exact' hremS hcompS ((Get_Complement_width den).trans hremw.symm) hA hA hfit
  rw [Nat.max_self] at hdiffS
  have hdiffw : diff.width = den.width := by
    have hw := opAdd_ok_width hdiffok
    rw [hremw, Get_Complement_width, Get_Max_Width_self] at hw
    exact hw
  have hsub : Integer.opSub ((r.shl 1).setBit 0 (num.getBit p)) den = .ok diff :=
    hdiffok
  have hdiffVal : diff.toInt =
      (((r.shl 1).setBit 0 (num.getBit p)).toNatU : Int) - (den.toNatU : Int) := by
    rw [hdiffInt, hremInt, hcomp]
    ring
  by_cases hcase : den.toNatU ≤ ((r.shl 1).setBit 0 (num.getBit p)).toNatU
  · -- subtract branch: quotient bit set, remainder becomes the difference
    have hcase' : (den.toNatU : Int) ≤
        (((r.shl 1).setBit 0 (num.getBit p)).toNatU : Int) := by exact_mod_cast hcase
    have hdiffNonneg : 0 ≤ diff.toInt := by
      rw [hdiffVal]
      omega
    have hip : diff.Is_Positive = true :=
      (Is_Positive_iff_nonneg hdiffS hA).mpr hdiffNonneg
    have hdiffSign : signBit diff.bits = false := by
      have hps := Is_Positive_eq_not_signBit hdiffS
      rw [hip] at hps
      cases hs : signBit diff.bits with
      | false => rfl
      | true =>
        rw [hs] at hps
        simp at hps
    have hdiffNat : (diff.toNatU : Int) = diff.toInt :=
      (bitsToInt_of_signBit_false _ hdiffSign).symm
    have hdiffNatVal : diff.toNatU =
        ((r.shl 1).setBit 0 (num.getBit p)).toNatU - den.toNatU := by
      have h1 : (diff.toNatU : Int) =
          (((r.shl 1).setBit 0 (num.getBit p)).toNatU : Int) - (den.toNatU : Int) := by
        rw [hdiffNat, hdiffVal]
      omega
    obtain ⟨t, ht⟩ : ∃ t, ((r.shl 1).setBit 0 (num.getBit p)).toNatU =
        den.toNatU + t := ⟨_, (Nat.add_sub_cancel' hcase).symm⟩
    have htd : t < den.toNatU := by omega
    have hNp : num.toNatU / 2 ^ p =
        t + (2 * (num.toNatU / 2 ^ (p + 1) / den.toNatU) + 1) * den.toNatU := by
      have hMd := Nat.div_add_mod (num.toNatU / 2 ^ (p + 1)) den.toNatU
      have h2s : 2 * (num.toNatU / 2 ^ (p + 1) % den.toNatU) + (num.getBit p).toNat =
          den.toNatU + t := hrem_val'.symm.trans ht
      rw [hMsplit]
      rw [show (2 * (num.toNatU / 2 ^ (p + 1) / den.toNatU) + 1) * den.toNatU =
        2 * (den.toNatU * (num.toNatU / 2 ^ (p + 1) / den.toNatU)) + den.toNatU
        by ring]
      generalize hP : den.toNatU * (num.toNatU / 2 ^ (p + 1) / den.toNatU) = P at hMd ⊢
      omega
    have hmod : num.toNatU / 2 ^ p % den.toNatU = t := by
      rw [hNp, Nat.add_mul_mod_self_right]
      exact Nat.mod_eq_of_lt htd
    have hdiv : num.toNatU / 2 ^ p / den.toNatU =
        2 * (num.toNatU / 2 ^ (p + 1) / den.toNatU) + 1 := by
      rw [hNp, Nat.add_mul_div_right _ _ hd0, Nat.div_eq_of_lt htd]
      omega
    have hplen : p < q.bits.length := by
      rw [hq.2]
      exact hp
    refine ⟨q.setBit p true, diff, ?_, ?_, hdiffS, ?_, hdiffw, ?_, ?_, ?_⟩
    · intro idxs
      rw [Integer.divLoop]
      dsimp only []
      rw [hsub]
      simp only [exceptBind_ok]
      rw [hip]
      rfl
    · refine Sized_congr hq rfl ?_
      rw [setBit_length]
    · exact hqw
    · rw [hdiffNatVal, hmod]
      omega
    · have hqsv : (q.setBit p true).toNatU = 1 * 2 ^ p + q.toNatU :=
        setBit_toNatU hplen (hqb p (le_refl p))
      rw [hqsv, hqv, hdiv]
      ring
    · intro j hj
      show (q.bits.set p true).getD j false = false
      rw [getD_set_ne q.bits p j true (by omega)]
      exact hqb j (by omega)
  · -- keep branch: remainder stays the shifted value
    push_neg at hcase
    have hcase' : (((r.shl 1).setBit 0 (num.getBit p)).toNatU : Int) <
        (den.toNatU : Int) := by exact_mod_cast hcase
    have hdiffNeg : diff.toInt < 0 := by
      rw [hdiffVal]
      omega
    have hip : diff.Is_Positive = false :=
      (Is_Positive_false_iff_neg hdiffS hA).mpr hdiffNeg
    have hNp : num.toNatU / 2 ^ p =
        ((r.shl 1).setBit 0 (num.getBit p)).toNatU +
          2 * (num.toNatU / 2 ^ (p + 1) / den.toNatU) * den.toNatU := by
      have hMd := Nat.div_add_mod (num.toNatU / 2 ^ (p + 1)) den.toNatU
      rw [hMsplit, hrem_val']
      rw [show 2 * (num.toNatU / 2 ^ (p + 1) / den.toNatU) * den.toNatU =
        2 * (den.toNatU * (num.toNatU / 2 ^ (p + 1) / den.toNatU)) by ring]
      generalize hP : den.toNatU * (num.toNatU / 2 ^ (p + 1) / den.toNatU) = P at hMd ⊢
      omega
    have hmod : num.toNatU / 2 ^ p % den.toNatU =
        ((r.shl 1).setBit 0 (num.getBit p)).toNatU := by
      rw [hNp, Nat.add_mul_mod_self_right]
      exact Nat.mod_eq_of_lt hcase
    have hdiv : num.toNatU / 2 ^ p / den.toNatU =
        2 * (num.toNatU / 2 ^ (p + 1) / den.toNatU) := by
      rw [hNp, Nat.add_mul_div_right _ _ hd0, Nat.div_eq_of_lt hcase]
      omega
    refine ⟨q, (r.shl 1).setBit 0 (num.getBit p), ?_, hq, hremS, hqw, hremw, ?_, ?_, ?_⟩
    · intro idxs
      rw [Integer.divLoop]
      dsimp only []
      rw [hsub]
      simp only [exceptBind_ok]
      rw [hip]
      rfl
    · rw [hmod]
    · rw [hqv, hdiv]
      ring
    · intro j hj
      exact hqb j (by omega)

end mparith

namespace mparith

/-- Running the restoring-division loop over bit positions `p, …, 0` from a
state satisfying the invariant yields exactly the unsigned quotient and
remainder of the numerator by the denominator. -/
theorem divLoop_run (num den : Integer) (A : Nat) (hA : 0 < A)
    (hd1 : 1 ≤ den.toNatU)
    (hdlim : den.toNatU ≤ 2 ^ (kWord_Bits_Cnt * A - 1))
    (hcomp : den.Get_Complement.toInt = -(den.toNatU : Int))
    (hcompS : Sized den.Get_Complement A)
    (hN : num.toNatU < 2 ^ (kWord_Bits_Cnt * A - 1) ∨
      2 * den.toNatU ≤ 2 ^ (kWord_Bits_Cnt * A - 1)) :
    ∀ (p : Nat), p < kWord_Bits_Cnt * A →
      ∀ (q r : Integer), Sized q A → Sized r A →
        q.width = den.width → r.width = den.width →
        r.toNatU = num.toNatU / 2 ^ (p + 1) % den.toNatU →
        q.toNatU = num.toNatU / 2 ^ (p + 1) / den.toNatU * 2 ^ (p + 1) →
        (∀ j, j ≤ p → q.bits.getD j false = false) →
        ∃ q2 r2, Integer.divLoop num den ((List.range (p + 1)).reverse) q r =
            .ok (q2, r2) ∧
          Sized q2 A ∧ Sized r2 A ∧ q2.width = den.width ∧ r2.width = den.width ∧
          q2.toNatU = num.toNatU / den.toNatU ∧
          r2.toNatU = num.toNatU % den.toNatU := by
  intro p
  induction p with
  | zero =>
    intro hp q r hq hr hqw hrw hrv hqv hqb
    obtain ⟨q2, r2, hstep, hq2, hr2, hq2w, hr2w, hr2v, hq2v, _⟩ :=
      divLoop_step num den A hA hd1 hdlim hcomp hcompS hN 0 hp q r
        hq hr hqw hrw hrv hqv hqb
    refine ⟨q2, r2, ?_, hq2, hr2, hq2w, hr2w, ?_, ?_⟩
    · have h01 : (List.range (0 + 1)).reverse = [0] := rfl
      rw [h01, hstep []]
      rfl
    · rw [hq2v]
      simp
    · rw [hr2v]
      simp
  | succ p' ih =>
    intro hp q r hq hr hqw hrw hrv hqv hqb
    obtain ⟨q2, r2, hstep, hq2, hr2, hq2w, hr2w, hr2v, hq2v, hq2b⟩ :=
      divLoop_step num den A hA hd1 hdlim hcomp hcompS hN (p' + 1) hp q r
        hq hr hqw hrw hrv hqv hqb
    obtain ⟨q3, r3, hrun, hq3, hr3, hq3w, hr3w, hq3v, hr3v⟩ :=
      ih (by omega) q2 r2 hq2 hr2 hq2w hr2w hr2v hq2v
        (fun j hj => hq2b j (by omega))
    refine ⟨q3, r3, ?_, hq3, hr3, hq3w, hr3w, hq3v, hr3v⟩
    have hlist : (List.range (p' + 1 + 1)).reverse =
        (p' + 1) :: (List.range (p' + 1)).reverse := by
      rw [List.range_succ, List.reverse_append]
      rfl
    rw [hlist, hstep ((List.range (p' + 1)).reverse), hrun]

end mparith

namespace mparith

theorem exceptBind_error {ε α β : Type} (e : ε) (f : α → Except ε β) :
    (Except.error e : Except ε α) >>= f = .error e := rfl

theorem GN_ok_inv {z : Integer} {w : t_Width} {a : Nat} {v : Integer}
    (h : Integer.Get_Normalized z w a = .ok v) :
    z.Get_Actual_Width ≤ a ∧ v = ⟨w, z.normTo a⟩ := by
  unfold Integer.Get_Normalized at h
  split at h
  · rename_i hcond
    cases h
    exact ⟨hcond, rfl⟩
  · cases h

theorem GNN_ok_inv {w : t_Width} {a : Nat} {v : Integer}
    (h : Integer.Get_Normalized_New w a = .ok v) :
    (Integer.kZero w).Get_Actual_Width ≤ a ∧
      v = ⟨w, (Integer.kZero w).normTo a⟩ := by
  unfold Integer.Get_Normalized_New at h
  exact GN_ok_inv h

theorem Get_Positive_of_positive {x : Integer} (h : x.Is_Positive = true) :
    x.Get_Positive = x := by
  unfold Integer.Get_Positive
  rw [h]
  simp

theorem Sized_mk_RW {RW : t_Width} {A : Nat} {bs : List Bool}
    (hRW : ∀ m, RW = .fixed m → m = A)
    (hlen : bs.length = kWord_Bits_Cnt * A) : Sized ⟨RW, bs⟩ A := by
  cases hRWc : RW with
  | fixed m =>
    have hm : m = A := hRW m hRWc
    refine ⟨?_, hlen⟩
    show m = A
    exact hm
  | unlimited =>
    exact Sized_mk_unlimited bs A hlen

theorem kZero_Is_Positive (w : t_Width) : (Integer.kZero w).Is_Positive = true := by
  unfold Integer.Is_Positive
  rw [show (Integer.kZero w).bits = List.replicate
    (kWord_Bits_Cnt * Integer.initWords w) false from rfl]
  rw [getD_replicate_self]
  rfl

theorem kZero_normTo (w : t_Width) (a : Nat) (ha : Integer.initWords w ≤ a) :
    (Integer.kZero w).normTo a = List.replicate (kWord_Bits_Cnt * a) false := by
  unfold Integer.normTo
  rw [kZero_Is_Positive]
  rw [show (Integer.kZero w).bits = List.replicate
    (kWord_Bits_Cnt * Integer.initWords w) false from rfl]
  rw [(Sized_kZero w).1]
  rw [show (!true) = false from rfl]
  rw [← List.replicate_add]
  congr 1
  have h1 : kWord_Bits_Cnt * Integer.initWords w ≤ kWord_Bits_Cnt * a :=
    Nat.mul_le_mul_left _ ha
  omega

theorem aw_kZero (w : t_Width) :
    (Integer.kZero w).Get_Actual_Width = Integer.initWords w :=
  (Sized_kZero w).1

/-- The complement of any non-negative value is its exact negation (no
minimal-negative fixpoint or growth can occur). -/
theorem Get_Complement_toInt_nonneg {z : Integer} {A : Nat}
    (hz : Sized z A) (hA4 : kWidth_Min ≤ A) (hznn : 0 ≤ z.toInt) :
    z.Get_Complement.toInt = -z.toInt := by
  have hk4 : kWidth_Min = 4 := rfl
  have hA0 : 0 < A := by omega
  have hpow : (0 : Int) < (2 : Int) ^ (kWord_Bits_Cnt * A - 1) := by positivity
  have hne : z.toInt ≠ -((2 : Int) ^ (kWord_Bits_Cnt * A - 1)) := by omega
  cases hzw : z.width with
  | fixed n =>
    have hn : n = A := (Get_Actual_Width_of_fixed hzw).symm.trans hz.1
    have hzw' : z.width = .fixed A := by rw [hzw, hn]
    exact (Get_Complement_spec_fixed z A hzw' hz.2 hA0).2.2.1 hne
  | unlimited =>
    exact (Get_Complement_spec_unlimited z A hzw hz hA4).2.1

theorem Get_Complement_Sized_nonneg {z : Integer} {A : Nat}
    (hz : Sized z A) (hA4 : kWidth_Min ≤ A) (hznn : 0 ≤ z.toInt) :
    Sized z.Get_Complement A := by
  have hk4 : kWidth_Min = 4 := rfl
  have hA0 : 0 < A := by omega
  have hpow : (0 : Int) < (2 : Int) ^ (kWord_Bits_Cnt * A - 1) := by positivity
  have hne : z.toInt ≠ -((2 : Int) ^ (kWord_Bits_Cnt * A - 1)) := by omega
  cases hzw : z.width with
  | fixed n =>
    have hn : n = A := (Get_Actual_Width_of_fixed hzw).symm.trans hz.1
    have hzw' : z.width = .fixed A := by rw [hzw, hn]
    have hspec := Get_Complement_spec_fixed z A hzw' hz.2 hA0
    exact Sized_of_fixed hspec.1 hspec.2.1
  | unlimited =>
    exact (Get_Complement_spec_unlimited z A hzw hz hA4).2.2.1 hne

end mparith

namespace mparith

/-- Facts about the normalized denominator in `Div_Mod`, for a nonzero,
non-minimal-negative divisor. -/
theorem den_facts (y den : Integer) (b A : Nat) (RW : t_Width)
    (hy : Sized y b) (hb4 : kWidth_Min ≤ b) (hbA : b ≤ A) (hA4 : kWidth_Min ≤ A)
    (hRW : ∀ m, RW = .fixed m → m = A)
    (hynz : y.toInt ≠ 0)
    (hymin : y.toInt ≠ -((2 : Int) ^ (kWord_Bits_Cnt * b - 1)))
    (hden : y.Get_Positive.Get_Normalized RW A = .ok den) :
    den.width = RW ∧ Sized den A ∧ 1 ≤ den.toNatU ∧
    den.toNatU < 2 ^ (kWord_Bits_Cnt * A - 1) ∧
    (0 ≤ y.toInt → (den.toNatU : Int) = y.toInt) ∧
    (y.toInt < 0 → (den.toNatU : Int) = -y.toInt) ∧
    den.Get_Complement.toInt = -(den.toNatU : Int) ∧
    Sized den.Get_Complement A ∧
    den.Get_Complement.width = RW := by
  have hk4 : kWidth_Min = 4 := rfl
  have hb0 : 0 < b := by omega
  have hA0 : 0 < A := by omega
  obtain ⟨hawle, hdeneq⟩ := GN_ok_inv hden
  -- facts about the positive copy, uniform over the width tag
  have hGP : Sized y.Get_Positive b ∧
      (0 ≤ y.toInt → y.Get_Positive.toInt = y.toInt) ∧
      (y.toInt < 0 → y.Get_Positive.toInt = -y.toInt) := by
    cases hyw : y.width with
    | fixed n =>
      have hn : n = b := (Get_Actual_Width_of_fixed hyw).symm.trans hy.1
      have hyw' : y.width = .fixed b := by rw [hyw, hn]
      have hsp := Get_Positive_spec_fixed y b hyw' hy.2 hb0
      refine ⟨Sized_of_fixed hsp.1 hsp.2.1, ?_, ?_⟩
      · intro hnn
        rw [hsp.2.2.1 hnn]
      · intro hneg
        exact hsp.2.2.2.1 hneg hymin
    | unlimited =>
      have hsp := Get_Positive_spec_unlimited y b hyw hy hb4
      refine ⟨hsp.2.2.2.1 hymin, ?_, ?_⟩
      · intro hnn
        rw [hsp.2.1 hnn]
      · intro hneg
        exact hsp.2.2.1 hneg
    
  obtain ⟨hGPS, hGPpos, hGPneg⟩ := hGP
  have hGPval : (1 : Int) ≤ y.Get_Positive.toInt ∧
      y.Get_Positive.toInt < (2 : Int) ^ (kWord_Bits_Cnt * b - 1) := by
    have hlb := toInt_lb hy hb0
    have hub := toInt_ub hy hb0
    rcases lt_or_le y.toInt 0 with hneg | hnn
    · rw [hGPneg hneg]
      constructor <;> omega
    · rw [hGPpos hnn]
      constructor <;> omega
  -- the normalized denominator
  have hdenbits : den.bits = y.Get_Positive.normTo A := by rw [hdeneq]
  have hdenw : den.width = RW := by rw [hdeneq]
  have hdenlen : den.bits.length = kWord_Bits_Cnt * A := by
    rw [hdenbits]
    exact normTo_length hGPS A hbA
  have hdenS : Sized den A := by
    rw [hdeneq]
    exact Sized_mk_RW hRW (normTo_length hGPS A hbA)
  have hdenInt : den.toInt = y.Get_Positive.toInt := by
    show bitsToInt den.bits = _
    rw [hdenbits]
    exact normTo_toInt hGPS hb0 A
  have hdenIntPos : (1 : Int) ≤ den.toInt := by
    rw [hdenInt]
    exact hGPval.1
  have hdsign : signBit den.bits = false := by
    have h0 : (0 : Int) ≤ den.toInt := by omega
    exact (bitsToInt_nonneg_iff den.bits (hdenS.bits_ne_nil hA0)).mp h0
  have hdenNat : (den.toNatU : Int) = den.toInt :=
    (bitsToInt_of_signBit_false _ hdsign).symm
  have hcastb : ((2 ^ (kWord_Bits_Cnt * b - 1) : Nat) : Int) =
      (2 : Int) ^ (kWord_Bits_Cnt * b - 1) := by
    push_cast
    ring
  have hcastA : ((2 ^ (kWord_Bits_Cnt * A - 1) : Nat) : Int) =
      (2 : Int) ^ (kWord_Bits_Cnt * A - 1) := by
    push_cast
    ring
  have hpowle : (2 : Int) ^ (kWord_Bits_Cnt * b - 1) ≤
      (2 : Int) ^ (kWord_Bits_Cnt * A - 1) := by
    apply pow_le_pow_right (by omega)
    have h8 : kWord_Bits_Cnt = 8 := rfl
    rw [h8]
    omega
  have hd1 : 1 ≤ den.toNatU := by
    have h1 : (1 : Int) ≤ (den.toNatU : Int) := by
      rw [hdenNat]
      exact hdenIntPos
    exact_mod_cast h1
  have hdlt : den.toNatU < 2 ^ (kWord_Bits_Cnt * A - 1) := by
    have h1 : (den.toNatU : Int) < (2 : Int) ^ (kWord_Bits_Cnt * A - 1) := by
      rw [hdenNat, hdenInt]
      have := hGPval.2
      omega
    rw [← hcastA] at h1
    exact_mod_cast h1
  have hcomp : den.Get_Complement.toInt = -(den.toNatU : Int) := by
    rw [hdenNat]
    exact Get_Complement_toInt_nonneg hdenS hA4 (by omega)
  refine ⟨hdenw, hdenS, hd1, hdlt, ?_, ?_, hcomp, ?_, ?_⟩
  · intro hnn
    rw [hdenNat, hdenInt, hGPpos hnn]
  · intro hneg
    rw [hdenNat, hdenInt, hGPneg hneg]
  · exact Get_Complement_Sized_nonneg hdenS hA4 (by omega)
  · rw [Get_Complement_width, hdenw]

end mparith

namespace mparith

theorem toInt_eq_toNatU {z : Integer} {A : Nat} (hz : Sized z A) (hA : 0 < A)
    (h : z.toNatU < 2 ^ (kWord_Bits_Cnt * A - 1)) : z.toInt = (z.toNatU : Int) := by
  have hsign : signBit z.bits = false := by
    rw [signBit_false_iff z.bits (hz.bits_ne_nil hA)]
    rw [hz.2]
    exact h
  exact bitsToInt_of_signBit_false _ hsign

theorem signBit_eq_false_of_pos {z : Integer} {A : Nat} (hz : Sized z A)
    (h : z.Is_Positive = true) : signBit z.bits = false := by
  have hps := Is_Positive_eq_not_signBit hz
  rw [h] at hps
  cases hs : signBit z.bits with
  | false => rfl
  | true =>
    rw [hs] at hps
    simp at hps

theorem abc_of_sized {z : Integer} {A : Nat} (hz : Sized z A) :
    z.Get_Actual_Bits_Cnt = A * kWord_Bits_Cnt := by
  unfold Integer.Get_Actual_Bits_Cnt
  rw [hz.1]

end mparith

namespace mparith

theorem exceptThrow_bind {ε α β : Type} (e : ε) (f : α → Except ε β) :
    (throw e : Except ε α) >>= f = .error e := rfl

theorem exceptPure_eq_ok {ε α : Type} (a : α) :
    (pure a : Except ε α) = .ok a := rfl

/-- C1 (corrected): whenever the dividend is non-negative and the divisor is
neither zero nor the minimal-negative bit pattern of its word count (sign bit
set, all others clear — the pattern whose absolute value the sign-magnitude
preparation cannot represent), the division identity `q*y + r == x` holds
with a non-negative remainder satisfying `|x % y| < |y|`; for negative
dividends the identity fails because `Div_Mod` never negates the remainder
(see the counterexample). -/
theorem C1_division_identity_nonneg_dividend (x y q r : Integer) (a b : Nat)
    (hx : Sized x a) (hy : Sized y b)
    (ha4 : kWidth_Min ≤ a) (hb4 : kWidth_Min ≤ b)
    (hxpos : x.Is_Positive = true)
    (hymin : y.toInt ≠ -((2 : Int) ^ (kWord_Bits_Cnt * b - 1)))
    (hok : Integer.Div_Mod x y = .ok (q, r)) :
    q.toInt * y.toInt + r.toInt = x.toInt ∧ 0 ≤ r.toInt ∧
      r.toInt.natAbs < y.toInt.natAbs := by
  have hk4 : kWidth_Min = 4 := rfl
  have h8 : kWord_Bits_Cnt = 8 := rfl
  have ha0 : 0 < a := by omega
  have hb0 : 0 < b := by omega
  have hA0 : 0 < max a b := by omega
  have hA4 : kWidth_Min ≤ max a b := by omega
  have hz0 : 0 < Integer.initWords x.width := initWords_pos_of_sized hx ha0
  have hRW : ∀ m, Get_Max_Width x.width y.width = .fixed m → m = max a b := by
    intro m hm
    cases hxw : x.width with
    | unlimited =>
      rw [hxw, Get_Max_Width_unlimited_left] at hm
      cases hm
    | fixed n =>
      cases hyw2 : y.width with
      | unlimited =>
        rw [hxw, hyw2] at hm
        simp [Get_Max_Width] at hm
      | fixed k =>
        rw [hxw, hyw2] at hm
        have hna : n = a := (Get_Actual_Width_of_fixed hxw).symm.trans hx.1
        have hkb : k = b := (Get_Actual_Width_of_fixed hyw2).symm.trans hy.1
        injection hm with h2
        omega
  unfold Integer.Div_Mod at hok
  dsimp only [] at hok
  rw [hx.1, hy.1] at hok
  cases hb1 : Integer.beq y (Integer.kZero x.width) with
  | true =>
    rw [hb1] at hok
    simp only [reduceIte, exceptThrow_bind, reduceCtorEq] at hok
  | false =>
    rw [hb1] at hok
    simp only [reduceIte, Bool.false_eq_true, exceptBind_pure] at hok
    have hynz : y.toInt ≠ 0 := by
      intro hc
      have hbt := (beq_kZero_iff hy hb0 x.width hz0).mpr hc
      rw [hb1] at hbt
      simp at hbt
    cases hb2 : Integer.beq x (Integer.kZero x.width) with
    | true =>
      rw [hb2] at hok
      simp only [reduceIte, exceptPure_eq_ok] at hok
      have hx0 : x.toInt = 0 := (beq_kZero_iff hx ha0 x.width hz0).mp hb2
      simp only [Except.ok.injEq, Prod.mk.injEq] at hok
      obtain ⟨hqe, hre⟩ := hok
      have hv : (⟨Get_Max_Width x.width y.width,
          (Integer.kZero x.width).bits⟩ : Integer).toInt = 0 := kZero_toInt x.width
      refine ⟨?_, ?_, ?_⟩
      · rw [← hqe, ← hre, hv, hx0]
        ring
      · rw [← hre, hv]
      · rw [← hre, hv]
        omega
    | false =>
      rw [hb2] at hok
      simp only [reduceIte, Bool.false_eq_true] at hok
      have hxnn : 0 ≤ x.toInt := (Is_Positive_iff_nonneg hx ha0).mp hxpos
      have hnum_ok : x.Get_Positive.Get_Normalized (Get_Max_Width x.width y.width)
          (max a b) = .ok ⟨Get_Max_Width x.width y.width, x.normTo (max a b)⟩ := by
        rw [Get_Positive_of_positive hxpos]
        unfold Integer.Get_Normalized
        rw [hx.1]
        rw [if_pos (by omega : a ≤ max a b)]
      rw [hnum_ok] at hok
      simp only [exceptBind_ok] at hok
      rcases hd : y.Get_Positive.Get_Normalized (Get_Max_Width x.width y.width)
          (max a b) with e | den
      · rw [hd] at hok
        simp only [exceptBind_error] at hok
        simp at hok
      · rw [hd] at hok
        simp only [exceptBind_ok] at hok
        obtain ⟨hdenw, hdenS, hd1, hdlt, hdpos, hdneg, hcomp, hcompS, hcompw⟩ :=
          den_facts y den b (max a b) (Get_Max_Width x.width y.width) hy hb4
            (le_max_right a b) hA4 hRW hynz hymin hd
        rcases hq0 : Integer.Get_Normalized_New (Get_Max_Width x.width y.width)
            (max a b) with e | q0
        · rw [hq0] at hok
          simp only [exceptBind_error] at hok
          simp at hok
        · rw [hq0] at hok
          simp only [exceptBind_ok] at hok
          -- the fresh quotient/remainder are all-zero values of width RW
          obtain ⟨hq0le, hq0eq⟩ := GNN_ok_inv hq0
          have hq0bits : q0.bits = List.replicate (kWord_Bits_Cnt * max a b) false := by
            rw [hq0eq]
            show (Integer.kZero (Get_Max_Width x.width y.width)).normTo (max a b) = _
            apply kZero_normTo
            rw [← aw_kZero]
            exact hq0le
          have hq0S : Sized q0 (max a b) := by
            rw [hq0eq]
            apply Sized_mk_RW hRW
            show ((Integer.kZero (Get_Max_Width x.width y.width)).normTo (max a b)).length = _
            rw [show (Integer.kZero (Get_Max_Width x.width y.width)).normTo (max a b) =
              q0.bits from (congrArg Integer.bits hq0eq).symm, hq0bits]
            simp
          have hq0w : q0.width = den.width := by
            rw [hq0eq, hdenw]
          have hq0v : q0.toNatU = 0 := by
            show bitsToNat q0.bits = 0
            rw [hq0bits, bitsToNat_replicate_false]
          have hq0b : ∀ j, q0.bits.getD j false = false := by
            intro j
            rw [hq0bits]
            exact getD_replicate_self false _ j
          -- numerator value facts
          have hnumS : Sized (⟨Get_Max_Width x.width y.width,
              x.normTo (max a b)⟩ : Integer) (max a b) :=
            Sized_mk_RW hRW (normTo_length hx (max a b) (le_max_left a b))
          have hsx : signBit x.bits = false := signBit_eq_false_of_pos hx hxpos
          have hnumv : (⟨Get_Max_Width x.width y.width,
              x.normTo (max a b)⟩ : Integer).toNatU = x.toNatU := by
            show bitsToNat (x.normTo (max a b)) = x.toNatU
            rw [normTo_toNat hx ha0 (max a b) (le_max_left a b), hsx]
            simp
          have hxult : x.toNatU < 2 ^ (kWord_Bits_Cnt * a - 1) := by
            have := (signBit_false_iff x.bits (hx.bits_ne_nil ha0)).mp hsx
            rw [hx.2] at this
            exact this
          have hNlt : (⟨Get_Max_Width x.width y.width,
              x.normTo (max a b)⟩ : Integer).toNatU <
              2 ^ (kWord_Bits_Cnt * max a b - 1) := by
            rw [hnumv]
            have hm : 2 ^ (kWord_Bits_Cnt * a - 1) ≤
                2 ^ (kWord_Bits_Cnt * max a b - 1) := by
              apply Nat.pow_le_pow_right (by omega)
              rw [h8]
              omega
            omega
          -- the loop
          have hmsb : (⟨Get_Max_Width x.width y.width,
              x.normTo (max a b)⟩ : Integer).Get_Msb_Idx <
              kWord_Bits_Cnt * max a b := by
            have h1 : (⟨Get_Max_Width x.width y.width,
                x.normTo (max a b)⟩ : Integer).Get_Msb_Idx =
                Integer.msbFrom (x.normTo (max a b)) (max a b * kWord_Bits_Cnt - 1) := by
              show Integer.msbFrom (x.normTo (max a b)) _ = _
              rw [abc_of_sized hnumS]
            rw [h1]
            have h2 := msbFrom_le (x.normTo (max a b)) (max a b * kWord_Bits_Cnt - 1)
            rw [h8] at h2 ⊢
            omega
          have hNmsb : (⟨Get_Max_Width x.width y.width,
              x.normTo (max a b)⟩ : Integer).toNatU <
              2 ^ ((⟨Get_Max_Width x.width y.width,
                x.normTo (max a b)⟩ : Integer).Get_Msb_Idx + 1) := by
            have h1 : (⟨Get_Max_Width x.width y.width,
                x.normTo (max a b)⟩ : Integer).Get_Msb_Idx =
                Integer.msbFrom (x.normTo (max a b)) (max a b * kWord_Bits_Cnt - 1) := by
              show Integer.msbFrom (x.normTo (max a b)) _ = _
              rw [abc_of_sized hnumS]
            rw [h1]
            apply bitsToNat_lt_msbFrom
            rw [normTo_length hx (max a b) (le_max_left a b)]
            rw [h8]
            omega
          obtain ⟨q2, r2, hrun, hq2S, hr2S, hq2w, hr2w, hq2v, hr2v⟩ :=
            divLoop_run (⟨Get_Max_Width x.width y.width, x.normTo (max a b)⟩ : Integer)
              den (max a b) hA0 hd1 (by omega) hcomp hcompS (Or.inl hNlt)
              (⟨Get_Max_Width x.width y.width, x.normTo (max a b)⟩ : Integer).Get_Msb_Idx
              hmsb q0 q0 hq0S hq0S hq0w hq0w
              (by rw [hq0v, Nat.div_eq_of_lt hNmsb]
                  simp)
              (by rw [hq0v, Nat.div_eq_of_lt hNmsb]
                  simp)
              (fun j _ => hq0b j)
          rw [hrun] at hok
          simp only [exceptBind_ok] at hok
          -- signed values of the loop results
          have hN : (⟨Get_Max_Width x.width y.width,
              x.normTo (max a b)⟩ : Integer).toNatU = x.toNatU := hnumv
          have hq2lt : q2.toNatU < 2 ^ (kWord_Bits_Cnt * max a b - 1) := by
            rw [hq2v]
            have := Nat.div_le_self (⟨Get_Max_Width x.width y.width,
              x.normTo (max a b)⟩ : Integer).toNatU den.toNatU
            omega
          have hr2lt : r2.toNatU < 2 ^ (kWord_Bits_Cnt * max a b - 1) := by
            rw [hr2v]
            have := Nat.mod_lt (⟨Get_Max_Width x.width y.width,
              x.normTo (max a b)⟩ : Integer).toNatU (show 0 < den.toNatU by omega)
            omega
          have hq2Int : q2.toInt = (q2.toNatU : Int) := toInt_eq_toNatU hq2S hA0 hq2lt
          have hr2Int : r2.toInt = (r2.toNatU : Int) := toInt_eq_toNatU hr2S hA0 hr2lt
          have hxInt : (x.toNatU : Int) = x.toInt := by
            have := toInt_eq_toNatU hx ha0 hxult
            omega
          have hdm2 : x.toNatU / den.toNatU * den.toNatU +
              x.toNatU % den.toNatU = x.toNatU := by
            have hdm := Nat.div_add_mod x.toNatU den.toNatU
            rw [Nat.mul_comm] at hdm
            exact hdm
          have hr2ltden : r2.toNatU < den.toNatU := by
            rw [hr2v]
            exact Nat.mod_lt _ (by omega)
          -- final sign application
          rw [hxpos] at hok
          cases hyIP : y.Is_Positive with
          | true =>
            rw [hyIP] at hok
            simp only [Bool.xor_self, Bool.not_false, reduceIte, exceptPure_eq_ok,
              Except.ok.injEq, Prod.mk.injEq] at hok
            obtain ⟨hqe0, hre0⟩ := hok
            have hqe : q2 = q := hqe0
            have hre : r2 = r := hre0
            have hynn : 0 ≤ y.toInt := (Is_Positive_iff_nonneg hy hb0).mp hyIP
            have hyd : (den.toNatU : Int) = y.toInt := hdpos hynn
            refine ⟨?_, ?_, ?_⟩
            · rw [← hqe, ← hre, hq2Int, hr2Int, hq2v, hr2v, ← hyd, ← hxInt, hN]
              exact_mod_cast hdm2
            · rw [← hre, hr2Int]
              exact Int.natCast_nonneg _
            · rw [← hre, hr2Int]
              omega
          | false =>
            rw [hyIP] at hok
            simp only [Bool.xor_false, Bool.not_true, reduceIte, exceptPure_eq_ok,
              Bool.false_eq_true, Except.ok.injEq, Prod.mk.injEq] at hok
            obtain ⟨hqe0, hre0⟩ := hok
            have hqe : q2.Get_Complement = q := hqe0
            have hre : r2 = r := hre0
            have hyneg : y.toInt < 0 := (Is_Positive_false_iff_neg hy hb0).mp hyIP
            have hyd : (den.toNatU : Int) = -y.toInt := hdneg hyneg
            have hq2nn : 0 ≤ q2.toInt := by
              rw [hq2Int]
              exact Int.natCast_nonneg _
            have hqc : q2.Get_Complement.toInt = -q2.toInt :=
              Get_Complement_toInt_nonneg hq2S hA4 hq2nn
            have hyd' : y.toInt = -(den.toNatU : Int) := by omega
            refine ⟨?_, ?_, ?_⟩
            · rw [← hqe, ← hre, hqc, hq2Int, hr2Int, hq2v, hr2v, ← hxInt, hN, hyd']
              rw [neg_mul_neg]
              exact_mod_cast hdm2
            · rw [← hre, hr2Int]
              exact Int.natCast_nonneg _
            · rw [← hre, hr2Int]
              omega

end mparith

namespace mparith

theorem C1_division_identity_nonneg_dividend_witness :
    (Integer.kTen (t_Width.fixed 4)).Is_Positive = true ∧
    ((⟨t_Width.fixed 4, natBits 32 5⟩ : Integer).toInt *
       (Integer.kTwo (t_Width.fixed 4)).toInt +
       (⟨t_Width.fixed 4, natBits 32 0⟩ : Integer).toInt =
       (Integer.kTen (t_Width.fixed 4)).toInt ∧
     0 ≤ (⟨t_Width.fixed 4, natBits 32 0⟩ : Integer).toInt ∧
     (⟨t_Width.fixed 4, natBits 32 0⟩ : Integer).toInt.natAbs <
       (Integer.kTwo (t_Width.fixed 4)).toInt.natAbs) :=
  ⟨by decide, C1_division_identity_nonneg_dividend
    (Integer.kTen (t_Width.fixed 4)) (Integer.kTwo (t_Width.fixed 4))
    ⟨t_Width.fixed 4, natBits 32 5⟩ ⟨t_Width.fixed 4, natBits 32 0⟩ 4 4
    (by decide) (by decide) (by decide) (by decide) (by decide) (by decide) rfl⟩

end mparith

namespace mparith

theorem normTo_toNat_self {x : Integer} {A : Nat} (hx : Sized x A) (hA : 0 < A) :
    bitsToNat (x.normTo A) = x.toNatU := by
  rw [normTo_toNat hx hA A (le_refl A)]
  cases signBit x.bits <;> simp

/-- Unsigned exactness of `Add` at a common fixed width when the sum does not
wrap: the result holds the exact sum and the carry flag stays clear. -/
theorem Add_toNatU_exact {x y : Integer} {A : Nat}
    (hwx : x.width = .fixed A) (hwy : y.width = .fixed A)
    (hx : Sized x A) (hy : Sized y A) (hA : 0 < A)
    (hsum : x.toNatU + y.toNatU < 2 ^ (kWord_Bits_Cnt * A)) :
    (Integer.Add x y).1.toNatU = x.toNatU + y.toNatU ∧
    Sized (Integer.Add x y).1 A ∧
    (Integer.Add x y).1.width = .fixed A ∧
    (Integer.Add x y).2.2 = false := by
  have hrw : Get_Max_Width x.width y.width = .fixed A := by
    rw [hwx, hwy]
    show t_Width.fixed (max A A) = _
    rw [Nat.max_self]
  have hred := Add_eq_fixed x y A hrw
  have hraw : addRaw x y = A := by
    unfold addRaw
    rw [hx.1, hy.1, Nat.max_self]
  have hln : (x.normTo A).length = kWord_Bits_Cnt * A := normTo_length hx A (le_refl A)
  have hrn : (y.normTo A).length = kWord_Bits_Cnt * A := normTo_length hy A (le_refl A)
  have hsum_bits : bitsToNat (addSum x y) =
      (x.toNatU + y.toNatU) % 2 ^ (kWord_Bits_Cnt * A) := by
    unfold addSum
    rw [hraw]
    rw [addBits_toNat_fst _ _ false (by rw [hln, hrn])]
    rw [normTo_toNat_self hx hA, normTo_toNat_self hy hA, hln]
    simp
  have hmod := Nat.mod_eq_of_lt hsum
  refine ⟨?_, ?_, ?_, ?_⟩
  · show bitsToNat (Integer.Add x y).1.bits = _
    rw [hred]
    show bitsToNat (addSum x y) = _
    rw [hsum_bits, hmod]
  · rw [hred]
    apply Sized_mk_fixed
    show (addSum x y).length = _
    unfold addSum
    rw [hraw, addBits_length, hln]
  · rw [hred]
  · rw [hred]
    show addCarryOut x y = false
    unfold addCarryOut
    rw [hraw]
    rw [addBits_carry _ _ false (by rw [hln, hrn])]
    rw [normTo_toNat_self hx hA, normTo_toNat_self hy hA, hln]
    simp only [Bool.toNat_false, Nat.add_zero, decide_eq_false_iff_not, not_le]
    exact hsum

theorem shr_one_length (x : Integer) (h : 0 < x.bits.length) :
    (x.shr 1).bits.length = x.bits.length := by
  show (x.bits.drop 1 ++ List.replicate (min 1 x.bits.length) false).length = _
  rw [List.length_append, List.length_drop, List.length_replicate]
  omega

theorem shr_one_toNatU (x : Integer) :
    (x.shr 1).toNatU = x.toNatU / 2 := by
  show bitsToNat (x.bits.drop 1 ++ List.replicate (min 1 x.bits.length) false) = _
  rw [bitsToNat_append, bitsToNat_replicate_false, bitsToNat_drop]
  simp [Integer.toNatU]

end mparith

namespace mparith

theorem mulLoop_succ (k : Nat) (result left right : Integer) (c : Bool) :
    Integer.mulLoop (k + 1) result left right c =
      Integer.mulLoop k
        (if right.getBit 0 then (Integer.Add result left).1 else result)
        (left.shl 1) (right.shr 1)
        (if right.getBit 0 then c || (Integer.Add result left).2.2 else c) := by
  rw [Integer.mulLoop]
  cases hb : right.getBit 0 <;> rfl

/-- The shift-and-add loop computes the exact product of the unsigned values
of its operands when that product fits in the common fixed width, and never
latches the carry flag while doing so. -/
theorem mulLoop_invariant {A : Nat} (hA : 0 < A) (P : Nat)
    (hP : P < 2 ^ (kWord_Bits_Cnt * A)) :
    ∀ (k : Nat) (result left right : Integer) (c : Bool),
      Sized result A → Sized left A → Sized right A →
      result.width = .fixed A → left.width = .fixed A → right.width = .fixed A →
      right.toNatU < 2 ^ k →
      result.toNatU + left.toNatU * right.toNatU = P →
      (Integer.mulLoop k result left right c).2 = c ∧
      (Integer.mulLoop k result left right c).1.toNatU = P ∧
      Sized (Integer.mulLoop k result left right c).1 A ∧
      (Integer.mulLoop k result left right c).1.width = .fixed A := by
  intro k
  induction k with
  | zero =>
    intro result left right c hres hleft hright hwres hwleft hwright hrk hinv
    have hr0 : right.toNatU = 0 := by omega
    rw [hr0, Nat.mul_zero, Nat.add_zero] at hinv
    exact ⟨rfl, hinv, hres, hwres⟩
  | succ k ih =>
    intro result left right c hres hleft hright hwres hwleft hwright hrk hinv
    have hLpos : 0 < kWord_Bits_Cnt * A := by
      have h8 : kWord_Bits_Cnt = 8 := rfl
      rw [h8]
      omega
    have hpar : (right.getBit 0).toNat = right.toNatU % 2 := by
      rw [getBit_toNat]
      simp
    -- new left and right
    have hl'S : Sized (left.shl 1) A := by
      refine Sized_congr hleft rfl ?_
      exact shl_one_length left
    have hl'w : (left.shl 1).width = .fixed A := hwleft
    have hl'v : (left.shl 1).toNatU =
        2 * left.toNatU % 2 ^ (kWord_Bits_Cnt * A) := by
      rw [shl_one_toNatU, hleft.2]
    have hr'S : Sized (right.shr 1) A := by
      refine Sized_congr hright rfl ?_
      apply shr_one_length
      rw [hright.2]
      exact hLpos
    have hr'w : (right.shr 1).width = .fixed A := hwright
    have hr'v : (right.shr 1).toNatU = right.toNatU / 2 := shr_one_toNatU right
    have hr'k : (right.shr 1).toNatU < 2 ^ k := by
      rw [hr'v]
      rw [pow_succ] at hrk
      omega
    rw [mulLoop_succ]
    cases hb : right.getBit 0 with
    | false =>
      have hRe : right.toNatU % 2 = 0 := by
        rw [hb] at hpar
        simp at hpar
        omega
      -- result unchanged; invariant for the tail
      have hinv' : result.toNatU + (left.shl 1).toNatU * (right.shr 1).toNatU = P := by
        rcases Nat.eq_zero_or_pos (right.toNatU / 2) with hz | hpos
        · have hr0 : right.toNatU = 0 := by omega
          rw [hl'v, hr'v, hz, Nat.mul_zero, Nat.add_zero]
          rw [hr0, Nat.mul_zero, Nat.add_zero] at hinv
          exact hinv
        · have h2le : 2 ≤ right.toNatU := by omega
          have hmul2 : left.toNatU * 2 ≤ left.toNatU * right.toNatU :=
            Nat.mul_le_mul_left _ h2le
          have h2Lv : 2 * left.toNatU ≤ P := by
            have := hinv
            generalize hg : left.toNatU * right.toNatU = LR at this hmul2
            omega
          have hexact : (left.shl 1).toNatU = 2 * left.toNatU := by
            rw [hl'v]
            exact Nat.mod_eq_of_lt (by omega)
          have hRv : right.toNatU = 2 * (right.toNatU / 2) := by omega
          rw [hexact, hr'v]
          calc result.toNatU + 2 * left.toNatU * (right.toNatU / 2)
              = result.toNatU + left.toNatU * (2 * (right.toNatU / 2)) := by ring
            _ = result.toNatU + left.toNatU * right.toNatU := by rw [← hRv]
            _ = P := hinv
      exact ih result (left.shl 1) (right.shr 1) c hres hl'S hr'S hwres hl'w hr'w
        hr'k hinv'
    | true =>
      have hRo : right.toNatU % 2 = 1 := by
        rw [hb] at hpar
        simp at hpar
        omega
      have hRpos : 1 ≤ right.toNatU := by omega
      have hmul1 : left.toNatU * 1 ≤ left.toNatU * right.toNatU :=
        Nat.mul_le_mul_left _ hRpos
      have hsum : result.toNatU + left.toNatU < 2 ^ (kWord_Bits_Cnt * A) := by
        have := hinv
        generalize hg : left.toNatU * right.toNatU = LR at this hmul1
        omega
      obtain ⟨hAv, hAS, hAw, hAc⟩ :=
        Add_toNatU_exact hwres hwleft hres hleft hA hsum
      have hflag : (c || (Integer.Add result left).2.2) = c := by
        rw [hAc, Bool.or_false]
      rw [hflag]
      have hinv' : (Integer.Add result left).1.toNatU +
          (left.shl 1).toNatU * (right.shr 1).toNatU = P := by
        rcases Nat.eq_zero_or_pos (right.toNatU / 2) with hz | hpos
        · have hr1 : right.toNatU = 1 := by omega
          rw [hAv, hl'v, hr'v, hz, Nat.mul_zero, Nat.add_zero]
          rw [hr1, Nat.mul_one] at hinv
          exact hinv
        · have h3le : 3 ≤ right.toNatU := by omega
          have hmul2 : left.toNatU * 2 ≤ left.toNatU * right.toNatU :=
            Nat.mul_le_mul_left _ (by omega)
          have h2Lv : 2 * left.toNatU ≤ P := by
            have := hinv
            generalize hg : left.toNatU * right.toNatU = LR at this hmul2
            omega
          have hexact : (left.shl 1).toNatU = 2 * left.toNatU := by
            rw [hl'v]
            exact Nat.mod_eq_of_lt (by omega)
          have hRv : right.toNatU = 2 * (right.toNatU / 2) + 1 := by omega
          rw [hAv, hexact, hr'v]
          calc result.toNatU + left.toNatU +
                2 * left.toNatU * (right.toNatU / 2)
              = result.toNatU + left.toNatU * (2 * (right.toNatU / 2) + 1) := by
                ring
            _ = result.toNatU + left.toNatU * right.toNatU := by rw [← hRv]
            _ = P := hinv
      exact ih (Integer.Add result left).1 (left.shl 1) (right.shr 1) c hAS hl'S
        hr'S hAw hl'w hr'w hr'k hinv'

end mparith

namespace mparith

/-- Fixed-width multiplication of two non-negative values whose product fits
in the signed range returns normally with the exact product. -/
theorem Mul_exact_fixed_nonneg (x y : Integer) (A : Nat)
    (hwx : x.width = .fixed A) (hwy : y.width = .fixed A)
    (hx : Sized x A) (hy : Sized y A) (hA4 : kWidth_Min ≤ A)
    (hxp : x.Is_Positive = true) (hyp : y.Is_Positive = true)
    (hPfit : x.toNatU * y.toNatU < 2 ^ (kWord_Bits_Cnt * A - 1)) :
    ∃ r, Integer.Mul x y = .ok (r, false) ∧ Sized r A ∧ r.width = .fixed A ∧
      r.toNatU = x.toNatU * y.toNatU ∧ r.Is_Positive = true := by
  have hk4 : kWidth_Min = 4 := rfl
  have h8 : kWord_Bits_Cnt = 8 := rfl
  have hA0 : 0 < A := by omega
  have hLpos : 0 < kWord_Bits_Cnt * A := by
    rw [h8]
    omega
  have hpow_split : 2 ^ (kWord_Bits_Cnt * A) = 2 ^ (kWord_Bits_Cnt * A - 1) * 2 := by
    rw [← pow_succ]
    congr 1
    omega
  have hP2L : x.toNatU * y.toNatU < 2 ^ (kWord_Bits_Cnt * A) := by omega
  have hrw : Get_Max_Width x.width y.width = .fixed A := by
    rw [hwx, hwy]
    show t_Width.fixed (max A A) = _
    rw [Nat.max_self]
  unfold Integer.Mul
  rw [hrw, hx.1, hy.1, Nat.max_self]
  dsimp only []
  rw [Get_Positive_of_positive hxp, Get_Positive_of_positive hyp]
  have hGNx : x.Get_Normalized (t_Width.fixed A) A =
      .ok ⟨t_Width.fixed A, x.normTo A⟩ := by
    unfold Integer.Get_Normalized
    rw [hx.1]
    rw [if_pos (le_refl A)]
  have hGNy : y.Get_Normalized (t_Width.fixed A) A =
      .ok ⟨t_Width.fixed A, y.normTo A⟩ := by
    unfold Integer.Get_Normalized
    rw [hy.1]
    rw [if_pos (le_refl A)]
  rw [hGNx]
  simp only [exceptBind_ok]
  rw [hGNy]
  simp only [exceptBind_ok, exceptBind_pure]
  -- the operand values
  have hlS : Sized (⟨t_Width.fixed A, x.normTo A⟩ : Integer) A :=
    Sized_mk_fixed _ _ (normTo_length hx A (le_refl A))
  have hrS : Sized (⟨t_Width.fixed A, y.normTo A⟩ : Integer) A :=
    Sized_mk_fixed _ _ (normTo_length hy A (le_refl A))
  have hlv : (⟨t_Width.fixed A, x.normTo A⟩ : Integer).toNatU = x.toNatU := by
    show bitsToNat (x.normTo A) = _
    exact normTo_toNat_self hx hA0
  have hrv : (⟨t_Width.fixed A, y.normTo A⟩ : Integer).toNatU = y.toNatU := by
    show bitsToNat (y.normTo A) = _
    exact normTo_toNat_self hy hA0
  have hzS : Sized (Integer.kZero (t_Width.fixed A)) A := Sized_kZero _
  have hzv : (Integer.kZero (t_Width.fixed A)).toNatU = 0 := kZero_toNatU _
  -- the msb bound on the right operand
  have hmsbv : (⟨t_Width.fixed A, y.normTo A⟩ : Integer).Get_Msb_Idx =
      Integer.msbFrom (y.normTo A) (A * kWord_Bits_Cnt - 1) := by
    show Integer.msbFrom (y.normTo A) _ = _
    rw [abc_of_sized hrS]
  have hrbound : (⟨t_Width.fixed A, y.normTo A⟩ : Integer).toNatU <
      2 ^ ((⟨t_Width.fixed A, y.normTo A⟩ : Integer).Get_Msb_Idx + 1) := by
    rw [hmsbv]
    apply bitsToNat_lt_msbFrom
    rw [normTo_length hy A (le_refl A), h8]
    omega
  -- run the loop
  obtain ⟨hflag, hval, hS, hw⟩ := mulLoop_invariant hA0 (x.toNatU * y.toNatU) hP2L
    ((⟨t_Width.fixed A, y.normTo A⟩ : Integer).Get_Msb_Idx + 1)
    (Integer.kZero (t_Width.fixed A)) (⟨t_Width.fixed A, x.normTo A⟩ : Integer)
    (⟨t_Width.fixed A, y.normTo A⟩ : Integer) false
    hzS hlS hrS rfl rfl rfl (by rw [hrv] at hrbound; rw [hrv]; exact hrbound)
    (by rw [hzv, hlv, hrv]; omega)
  -- sign of the loop result
  have hressign : (Integer.mulLoop
      ((⟨t_Width.fixed A, y.normTo A⟩ : Integer).Get_Msb_Idx + 1)
      (Integer.kZero (t_Width.fixed A)) (⟨t_Width.fixed A, x.normTo A⟩ : Integer)
      (⟨t_Width.fixed A, y.normTo A⟩ : Integer) false).1.Is_Positive = true := by
    rw [Is_Positive_eq_not_signBit hS]
    have hsb : signBit (Integer.mulLoop
        ((⟨t_Width.fixed A, y.normTo A⟩ : Integer).Get_Msb_Idx + 1)
        (Integer.kZero (t_Width.fixed A)) (⟨t_Width.fixed A, x.normTo A⟩ : Integer)
        (⟨t_Width.fixed A, y.normTo A⟩ : Integer) false).1.bits = false := by
      rw [signBit_false_iff _ (hS.bits_ne_nil hA0), hS.2]
      show (Integer.mulLoop _ _ _ _ _).1.toNatU < _
      rw [hval]
      exact hPfit
    rw [hsb]
    rfl
  rw [hflag, hressign, hxp, hyp]
  simp only [Bool.xor_self, Bool.not_false, Bool.not_true, Bool.or_false,
    Bool.false_or, reduceIte]
  refine ⟨_, rfl, hS, hw, ?_, hressign⟩
  rw [hval]

end mparith

namespace mparith

theorem kTwo_width (w : t_Width) : (Integer.kTwo w).width = w := rfl

theorem kTwo_len (w : t_Width) :
    (Integer.kTwo w).bits.length = kWord_Bits_Cnt * Integer.initWords w := by
  show ((Integer.kZero w).bits.set 1 true).length = _
  rw [List.length_set]
  exact (Sized_kZero w).2

theorem Sized_kTwo (w : t_Width) : Sized (Integer.kTwo w) (Integer.initWords w) := by
  refine Sized_congr (Sized_kZero w) rfl ?_
  show ((Integer.kZero w).bits.set 1 true).length = _
  simp

theorem kTwo_toNatU (w : t_Width) (h : 0 < Integer.initWords w) :
    (Integer.kTwo w).toNatU = 2 := by
  have h8 : kWord_Bits_Cnt = 8 := rfl
  have hlen : (Integer.kZero w).bits.length = kWord_Bits_Cnt * Integer.initWords w :=
    (Sized_kZero w).2
  have hv := setBit_toNatU (x := Integer.kZero w) (p := 1) (b := true)
    (by rw [hlen, h8]; omega)
    (by show ((List.replicate (kWord_Bits_Cnt * Integer.initWords w) false).getD 1 false) = false
        exact getD_replicate_self false _ 1)
  show (Integer.kTwo w).toNatU = 2
  rw [show Integer.kTwo w = (Integer.kZero w).setBit 1 true from rfl, hv, kZero_toNatU]
  decide

theorem Is_Positive_of_toNatU_lt {z : Integer} {A : Nat} (hz : Sized z A) (hA : 0 < A)
    (h : z.toNatU < 2 ^ (kWord_Bits_Cnt * A - 1)) : z.Is_Positive = true := by
  rw [Is_Positive_eq_not_signBit hz]
  have hsb : signBit z.bits = false := by
    rw [signBit_false_iff _ (hz.bits_ne_nil hA), hz.2]
    exact h
  rw [hsb]
  rfl

theorem kTwo_toInt (w : t_Width) (h : 0 < Integer.initWords w) :
    (Integer.kTwo w).toInt = 2 := by
  have h8 : kWord_Bits_Cnt = 8 := rfl
  have hS : Sized (Integer.kTwo w) (Integer.initWords w) := Sized_kTwo w
  have hpow : 4 ≤ 2 ^ (kWord_Bits_Cnt * Integer.initWords w - 1) := by
    have := Nat.pow_le_pow_right (show 0 < 2 by omega)
      (show 2 ≤ kWord_Bits_Cnt * Integer.initWords w - 1 by rw [h8]; omega)
    omega
  rw [toInt_eq_toNatU hS h (by rw [kTwo_toNatU w h]; omega), kTwo_toNatU w h]
  rfl

theorem toNatU_eq_of_toInt {z : Integer} {A : Nat} (hz : Sized z A) (hA : 0 < A)
    (v : Nat) (h : z.toInt = (v : Int)) : z.toNatU = v := by
  have hnn : 0 ≤ z.toInt := by
    rw [h]
    exact Int.natCast_nonneg v
  have hsb : signBit z.bits = false :=
    (bitsToInt_nonneg_iff z.bits (hz.bits_ne_nil hA)).mp hnn
  have h2 : (z.toNatU : Int) = z.toInt := (bitsToInt_of_signBit_false _ hsb).symm
  rw [h] at h2
  exact_mod_cast h2

theorem opAdd_error_shape {x y : Integer} {e : MpError}
    (h : Integer.opAdd x y = .error e) : ∃ t, e = .overflow t := by
  rw [opAdd_eq] at h
  cases hb : (Integer.Add x y).2.1 with
  | false =>
    rw [hb] at h
    exact absurd h (by simp)
  | true =>
    rw [hb] at h
    simp only [reduceIte, Except.error.injEq] at h
    exact ⟨(Integer.Add x y).1, h.symm⟩

theorem Mul_error_shape {x y : Integer} {e : MpError}
    (h : Integer.Mul x y = .error e) : e = .outOfBounds := by
  cases hg : Get_Max_Width x.width y.width with
  | unlimited =>
    rcases Mul_unlimited_shape x y hg with h2 | ⟨r, h2⟩ <;> rw [h2] at h
    · cases h
      rfl
    · exact absurd h (by simp)
  | fixed n =>
    unfold Integer.Mul at h
    rw [hg] at h
    dsimp only [] at h
    rcases h1 : x.Get_Positive.Get_Normalized (t_Width.fixed n)
        (max x.Get_Actual_Width y.Get_Actual_Width) with e1 | left
    · rw [h1] at h
      simp only [exceptBind_error] at h
      injection h with h2
      rw [← h2]
      exact GN_error h1
    · rw [h1] at h
      simp only [exceptBind_ok] at h
      rcases h2 : y.Get_Positive.Get_Normalized (t_Width.fixed n)
          (max x.Get_Actual_Width y.Get_Actual_Width) with e2 | right
      · rw [h2] at h
        simp only [exceptBind_error] at h
        injection h with h3
        rw [← h3]
        exact GN_error h2
      · rw [h2] at h
        simp only [exceptBind_ok, exceptBind_pure] at h
        cases hip : (!(x.Is_Positive.xor y.Is_Positive)) <;> rw [hip] at h <;>
          simp only [reduceIte, exceptPure_eq_ok, reduceCtorEq] at h

theorem factLoop_error_shape (limit : Integer) :
    ∀ (fuel : Nat) (result multiplier : Integer) (flag : Bool) (e : MpError),
      Integer.factLoop limit fuel result multiplier flag = .error e →
      e = .outOfBounds ∨ (∃ t, e = .overflow t) ∨ e = .fuelExhausted := by
  intro fuel
  induction fuel with
  | zero =>
    intro result multiplier flag e h
    have h2 : MpError.fuelExhausted = e := by
      injection h
    right
    right
    exact h2.symm
  | succ fuel ih =>
    intro result multiplier flag e h
    rw [Integer.factLoop] at h
    cases hbne : Integer.bne multiplier limit with
    | false =>
      rw [hbne] at h
      simp only [reduceIte, exceptPure_eq_ok, reduceCtorEq] at h
    | true =>
      rw [hbne] at h
      simp only [reduceIte] at h
      rcases hM : Integer.Mul result multiplier with eM | p
      · rw [hM] at h
        simp only [exceptBind_error] at h
        injection h with h2
        left
        rw [← h2]
        exact Mul_error_shape hM
      · rw [hM] at h
        simp only [exceptBind_ok] at h
        rcases hAd : Integer.opAdd multiplier (Integer.kOne multiplier.width)
            with eA | mnew
        · rw [hAd] at h
          simp only [exceptBind_error] at h
          injection h with h2
          right
          left
          obtain ⟨t, ht⟩ := opAdd_error_shape hAd
          rw [← h2]
          exact ⟨t, ht⟩
        · rw [hAd] at h
          simp only [exceptBind_ok] at h
          exact ih _ _ _ _ h

end mparith

namespace mparith

/-- The factorial loop: starting from `result = n` (the receiver itself) and
`multiplier = m`, while the multiplier has not reached the receiver it
multiplies it in and increments; under representability of `n!` the run is
exact and never latches a flag. -/
theorem factLoop_correct (x : Integer) (A n : Nat)
    (hwx : x.width = .fixed A) (hx : Sized x A) (hA4 : kWidth_Min ≤ A)
    (hn : x.toNatU = n) (h2n : 2 ≤ n)
    (hfit : n.factorial < 2 ^ (kWord_Bits_Cnt * A - 1)) :
    ∀ (fuel : Nat) (m : Nat) (result multiplier : Integer),
      2 ≤ m → m ≤ n → n - m < fuel →
      Sized result A → result.width = .fixed A →
      result.toNatU = n * (m - 1).factorial →
      Sized multiplier A → multiplier.width = .fixed A →
      multiplier.toNatU = m →
      ∃ res, Integer.factLoop x fuel result multiplier false = .ok (res, false) ∧
        Sized res A ∧ res.width = .fixed A ∧ res.toNatU = n.factorial := by
  have hk4 : kWidth_Min = 4 := rfl
  have h8 : kWord_Bits_Cnt = 8 := rfl
  have hA0 : 0 < A := by omega
  have hnlt : n < 2 ^ (kWord_Bits_Cnt * A - 1) := by
    have h1 := Nat.self_le_factorial n
    omega
  have hxsign : x.toInt = (n : Int) := by
    rw [toInt_eq_toNatU hx hA0 (by omega), hn]
  intro fuel
  induction fuel with
  | zero =>
    intro m result multiplier h2m hmn hfuel
    omega
  | succ fuel ih =>
    intro m result multiplier h2m hmn hfuel hresS hresw hresv hmS hmw hmv
    have hmlt : m < 2 ^ (kWord_Bits_Cnt * A - 1) := by omega
    have hmInt : multiplier.toInt = (m : Int) := by
      rw [toInt_eq_toNatU hmS hA0 (by omega), hmv]
    have hfacle : (m - 1).factorial ≤ (n - 1).factorial :=
      Nat.factorial_le (by omega)
    have hresfit : n * (m - 1).factorial ≤ n.factorial := by
      calc n * (m - 1).factorial ≤ n * (n - 1).factorial :=
            Nat.mul_le_mul_left n hfacle
        _ = n.factorial := Nat.mul_factorial_pred (by omega)
    rw [Integer.factLoop]
    by_cases hmeq : m = n
    · -- the multiplier reached the receiver: return the accumulated result
      have hbeq : Integer.beq multiplier x = true := by
        rw [beq_iff_toInt hmS hx hA0 hA0, hmInt, hxsign, hmeq]
      have hbne : Integer.bne multiplier x = false := by
        unfold Integer.bne
        rw [hbeq]
        rfl
      rw [hbne]
      simp only [Bool.false_eq_true, if_false]
      refine ⟨result, rfl, hresS, hresw, ?_⟩
      rw [hresv, hmeq]
      exact Nat.mul_factorial_pred (by omega)
    · -- multiply in and increment
      have hmn' : m < n := by omega
      have hbeq : Integer.beq multiplier x = false := by
        cases hb : Integer.beq multiplier x with
        | false => rfl
        | true =>
          have heq := (beq_iff_toInt hmS hx hA0 hA0).mp hb
          rw [hmInt, hxsign] at heq
          have heq2 : m = n := by exact_mod_cast heq
          exact absurd heq2 hmeq
      have hbne : Integer.bne multiplier x = true := by
        unfold Integer.bne
        rw [hbeq]
        rfl
      rw [hbne]
      simp only [reduceIte]
      -- the multiplication
      have hresP : result.Is_Positive = true := by
        apply Is_Positive_of_toNatU_lt hresS hA0
        omega
      have hmP : multiplier.Is_Positive = true := by
        apply Is_Positive_of_toNatU_lt hmS hA0
        omega
      have hPfit : result.toNatU * multiplier.toNatU <
          2 ^ (kWord_Bits_Cnt * A - 1) := by
        rw [hresv, hmv]
        have hstep : n * (m - 1).factorial * m = n * m.factorial := by
          rw [show n * (m - 1).factorial * m = n * ((m - 1).factorial * m) by ring]
          congr 1
          rw [Nat.mul_comm]
          exact Nat.mul_factorial_pred (by omega)
        rw [hstep]
        have hmfle : m.factorial ≤ (n - 1).factorial :=
          Nat.factorial_le (by omega)
        calc n * m.factorial ≤ n * (n - 1).factorial := Nat.mul_le_mul_left n hmfle
          _ = n.factorial := Nat.mul_factorial_pred (by omega)
          _ < _ := hfit
      obtain ⟨r, hMul, hrS, hrw', hrv, hrP⟩ :=
        Mul_exact_fixed_nonneg result multiplier A hresw hmw hresS hmS hA4
          hresP hmP hPfit
      rw [hMul]
      simp only [exceptBind_ok]
      -- the increment
      have hone : Sized (Integer.kOne multiplier.width) A := by
        rw [hmw]
        exact Sized_kOne (t_Width.fixed A)
      have honeInt : (Integer.kOne multiplier.width).toInt = 1 := by
        rw [hmw]
        exact kOne_toInt (t_Width.fixed A) (by show 0 < A; omega)
      have hfitAdd : -((2 : Int) ^ (kWord_Bits_Cnt * max A A - 1)) ≤
          multiplier.toInt + (Integer.kOne multiplier.width).toInt ∧
          multiplier.toInt + (Integer.kOne multiplier.width).toInt <
            (2 : Int) ^ (kWord_Bits_Cnt * max A A - 1) := by
        rw [Nat.max_self, hmInt, honeInt]
        have hcast : ((2 ^ (kWord_Bits_Cnt * A - 1) : Nat) : Int) =
            (2 : Int) ^ (kWord_Bits_Cnt * A - 1) := by
          push_cast
          ring
        have h1 : ((m : Int) + 1) < (2 : Int) ^ (kWord_Bits_Cnt * A - 1) := by
          rw [← hcast]
          exact_mod_cast (by omega : m + 1 < 2 ^ (kWord_Bits_Cnt * A - 1))
        have h2 : (0 : Int) ≤ (m : Int) := Int.natCast_nonneg m
        have h3 : (0 : Int) < (2 : Int) ^ (kWord_Bits_Cnt * A - 1) := by positivity
        constructor <;> omega
      obtain ⟨m2, hAddOk, hm2S, hm2Int⟩ := opAdd_exact' hmS hone
        (by rw [kOne_width]) hA0 hA0 hfitAdd
      rw [Nat.max_self] at hm2S
      rw [hAddOk]
      simp only [exceptBind_ok]
      -- the recursive call
      have hm2w : m2.width = .fixed A := by
        have hw2 := opAdd_ok_width hAddOk
        rw [hmw, kOne_width, Get_Max_Width_self] at hw2
        exact hw2
      have hm2v : m2.toNatU = m + 1 := by
        apply toNatU_eq_of_toInt hm2S hA0
        rw [hm2Int, hmInt, honeInt]
        push_cast
        ring
      have hrv' : r.toNatU = n * ((m + 1) - 1).factorial := by
        rw [hrv, hresv, hmv]
        rw [show n * (m - 1).factorial * m = n * ((m - 1).factorial * m) by ring]
        congr 1
        show (m - 1).factorial * m = m.factorial
        rw [Nat.mul_comm]
        exact Nat.mul_factorial_pred (by omega)
      obtain ⟨res, hres, hresS2, hresw2, hresv2⟩ :=
        ih (m + 1) r m2 (by omega) (by omega) (by omega) hrS hrw' hrv' hm2S
          hm2w hm2v
      refine ⟨res, ?_, hresS2, hresw2, hresv2⟩
      show Integer.factLoop x fuel r m2 (false || false) = _
      rw [show (false || false) = false from rfl]
      exact hres

end mparith

namespace mparith

/-- C6: `Factorial` raises `ArithmeticError("Factorial Of Negative Number")`
exactly for negative receivers, returns one for the receivers 0 and 1,
returns the exact mathematical factorial whenever it is representable in the
fixed width, and in particular `Factorial` of 12 at `Fixed(4)` serializes to
`"479001600"`. -/
theorem C6_factorial_exactness :
    (∀ x : Integer, x.Is_Positive = false →
      Integer.Factorial x = .error (.arithmetic "Factorial Of Negative Number")) ∧
    (∀ (x : Integer) (s : String), Integer.Factorial x = .error (.arithmetic s) →
      x.Is_Positive = false ∧ s = "Factorial Of Negative Number") ∧
    (∀ (x : Integer) (a : Nat), Sized x a → kWidth_Min ≤ a →
      (x.toInt = 0 ∨ x.toInt = 1) →
      Integer.Factorial x = .ok (Integer.kOne x.width)) ∧
    (∀ (x : Integer) (A n : Nat), x.width = .fixed A → Sized x A →
      kWidth_Min ≤ A → x.toInt = (n : Int) → 2 ≤ n →
      n.factorial < 2 ^ (kWord_Bits_Cnt * A - 1) →
      ∃ res, Integer.Factorial x = .ok res ∧
        res.toInt = (n.factorial : Int)) ∧
    (Integer.Factorial (⟨t_Width.fixed 4, natBits 32 12⟩ : Integer) =
        .ok ⟨t_Width.fixed 4, natBits 32 479001600⟩ ∧
      Integer.Serialize (⟨t_Width.fixed 4, natBits 32 479001600⟩ : Integer) =
        .ok "479001600") := by
  have hk4 : kWidth_Min = 4 := rfl
  refine ⟨?_, ?_, ?_, ?_, rfl, rfl⟩
  · -- negative receivers
    intro x hneg
    unfold Integer.Factorial
    rw [hneg]
    rfl
  · -- an arithmetic error can only come from the negative check
    intro x s h
    cases hp : x.Is_Positive with
    | false =>
      refine ⟨rfl, ?_⟩
      unfold Integer.Factorial at h
      rw [hp] at h
      have h2 : (Except.error (MpError.arithmetic "Factorial Of Negative Number") :
          Except MpError Integer) = .error (.arithmetic s) := h
      simp only [Except.error.injEq, MpError.arithmetic.injEq] at h2
      exact h2.symm
    | true =>
      exfalso
      unfold Integer.Factorial at h
      rw [hp] at h
      simp only [Bool.not_true, Bool.false_eq_true, reduceIte, exceptBind_pure] at h
      cases hb : (Integer.beq x (Integer.kZero x.width) ||
          Integer.beq x (Integer.kOne x.width)) with
      | true =>
        rw [hb] at h
        simp only [reduceIte, exceptPure_eq_ok, reduceCtorEq] at h
      | false =>
        rw [hb] at h
        simp only [Bool.false_eq_true, reduceIte] at h
        rcases hFL : Integer.factLoop x (x.toNatU + 1) x (Integer.kTwo x.width) false
            with eF | pF
        · rw [hFL] at h
          simp only [exceptBind_error, Except.error.injEq] at h
          rcases factLoop_error_shape x (x.toNatU + 1) x (Integer.kTwo x.width)
              false eF hFL with h1 | ⟨t, h1⟩ | h1 <;> rw [h1] at h <;> cases h
        · rw [hFL] at h
          simp only [exceptBind_ok] at h
          cases hf : pF.2 with
          | true =>
            rw [hf] at h
            simp only [reduceIte, Except.error.injEq] at h
            cases h
          | false =>
            rw [hf] at h
            simp only [Bool.false_eq_true, reduceIte, exceptPure_eq_ok,
              reduceCtorEq] at h
  · -- the receivers 0 and 1
    intro x a hx ha4 h01
    have hA0 : 0 < a := by omega
    have hz0 : 0 < Integer.initWords x.width := initWords_pos_of_sized hx hA0
    have hp : x.Is_Positive = true := by
      apply (Is_Positive_iff_nonneg hx hA0).mpr
      rcases h01 with h | h <;> rw [h] <;> omega
    unfold Integer.Factorial
    rw [hp]
    simp only [Bool.not_true, Bool.false_eq_true, reduceIte, exceptBind_pure]
    rcases h01 with h0 | h1
    · have hbz : Integer.beq x (Integer.kZero x.width) = true :=
        (beq_kZero_iff hx hA0 x.width hz0).mpr h0
      rw [hbz]
      rfl
    · have hbz : Integer.beq x (Integer.kZero x.width) = false := by
        cases hb : Integer.beq x (Integer.kZero x.width) with
        | false => rfl
        | true =>
          have h2 := (beq_kZero_iff hx hA0 x.width hz0).mp hb
          rw [h1] at h2
          cases h2
      have hbone : Integer.beq x (Integer.kOne x.width) = true := by
        have hone : Sized (Integer.kOne x.width) (Integer.initWords x.width) :=
          Sized_kOne x.width
        rw [beq_iff_toInt hx hone hA0 hz0, h1, kOne_toInt x.width hz0]
      rw [hbz, hbone]
      rfl
  · -- exact representable factorials
    intro x A n hwx hx hA4 hInt h2n hfit
    have hA0 : 0 < A := by omega
    have hz0 : 0 < Integer.initWords x.width := initWords_pos_of_sized hx hA0
    have hn : x.toNatU = n := toNatU_eq_of_toInt hx hA0 n hInt
    have hp : x.Is_Positive = true := by
      apply (Is_Positive_iff_nonneg hx hA0).mpr
      rw [hInt]
      exact Int.natCast_nonneg n
    unfold Integer.Factorial
    rw [hp]
    simp only [Bool.not_true, Bool.false_eq_true, reduceIte, exceptBind_pure]
    have hbz : Integer.beq x (Integer.kZero x.width) = false := by
      cases hb : Integer.beq x (Integer.kZero x.width) with
      | false => rfl
      | true =>
        have h2 := (beq_kZero_iff hx hA0 x.width hz0).mp hb
        rw [hInt] at h2
        have : n = 0 := by exact_mod_cast h2
        omega
    have hbone : Integer.beq x (Integer.kOne x.width) = false := by
      cases hb : Integer.beq x (Integer.kOne x.width) with
      | false => rfl
      | true =>
        have hone : Sized (Integer.kOne x.width) (Integer.initWords x.width) :=
          Sized_kOne x.width
        have h2 := (beq_iff_toInt hx hone hA0 hz0).mp hb
        rw [hInt, kOne_toInt x.width hz0] at h2
        have : n = 1 := by exact_mod_cast h2
        omega
    rw [hbz, hbone]
    simp only [Bool.or_self, Bool.false_eq_true, reduceIte]
    have hkTwoS : Sized (Integer.kTwo x.width) A := by
      rw [hwx]
      exact Sized_kTwo (t_Width.fixed A)
    have hkTwoW : (Integer.kTwo x.width).width = .fixed A := by
      rw [kTwo_width]
      exact hwx
    have hkTwoV : (Integer.kTwo x.width).toNatU = 2 := by
      rw [hwx]
      apply kTwo_toNatU
      show 0 < A
      omega
    obtain ⟨res, hres, hresS, hresw, hresv⟩ :=
      factLoop_correct x A n hwx hx hA4 hn h2n hfit (n + 1) 2 x
        (Integer.kTwo x.width) (le_refl 2) h2n (by omega) hx hwx
        (by rw [hn]; simp [Nat.factorial]) hkTwoS hkTwoW hkTwoV
    rw [hn, hres]
    simp only [exceptBind_ok, Bool.false_eq_true, reduceIte]
    refine ⟨res, rfl, ?_⟩
    rw [toInt_eq_toNatU hresS hA0 (by omega), hresv]

end mparith

namespace mparith

theorem C6_factorial_exactness_witness :
    Integer.Factorial (minNegFixed 4) =
      .error (.arithmetic "Factorial Of Negative Number") ∧
    ∃ res, Integer.Factorial (⟨t_Width.fixed 4, natBits 32 12⟩ : Integer) =
        .ok res ∧ res.toInt = ((12 : Nat).factorial : Int) :=
  ⟨C6_factorial_exactness.1 (minNegFixed 4) (by decide),
    C6_factorial_exactness.2.2.2.1 (⟨t_Width.fixed 4, natBits 32 12⟩ : Integer)
      4 12 rfl (by decide) (by decide) (by decide) (by decide) (by decide)⟩

end mparith

namespace mparith

theorem kTen_width (w : t_Width) : (Integer.kTen w).width = w := rfl

theorem kTen_len (w : t_Width) :
    (Integer.kTen w).bits.length = kWord_Bits_Cnt * Integer.initWords w := by
  show (((Integer.kZero w).bits.set 1 true).set 3 true).length = _
  rw [List.length_set, List.length_set]
  exact (Sized_kZero w).2

theorem Sized_kTen (w : t_Width) : Sized (Integer.kTen w) (Integer.initWords w) := by
  refine Sized_congr (Sized_kZero w) rfl ?_
  show (((Integer.kZero w).bits.set 1 true).set 3 true).length = _
  simp

theorem kTen_toNatU (w : t_Width) (h : 0 < Integer.initWords w) :
    (Integer.kTen w).toNatU = 10 := by
  have h8 : kWord_Bits_Cnt = 8 := rfl
  have hlen2 : (Integer.kTwo w).bits.length = kWord_Bits_Cnt * Integer.initWords w :=
    kTwo_len w
  have hg3 : (Integer.kTwo w).bits.getD 3 false = false := by
    show ((Integer.kZero w).bits.set 1 true).getD 3 false = false
    rw [getD_set_ne _ 1 3 true (by omega)]
    exact getD_replicate_self false _ 3
  have hv := setBit_toNatU (x := Integer.kTwo w) (p := 3) (b := true)
    (by rw [hlen2, h8]; omega) hg3
  show ((Integer.kTwo w).setBit 3 true).toNatU = 10
  rw [hv, kTwo_toNatU w h]
  decide

theorem kTen_toInt (w : t_Width) (h : 0 < Integer.initWords w) :
    (Integer.kTen w).toInt = 10 := by
  have h8 : kWord_Bits_Cnt = 8 := rfl
  have hS : Sized (Integer.kTen w) (Integer.initWords w) := Sized_kTen w
  have hpow : 16 ≤ 2 ^ (kWord_Bits_Cnt * Integer.initWords w - 1) := by
    have := Nat.pow_le_pow_right (show 0 < 2 by omega)
      (show 4 ≤ kWord_Bits_Cnt * Integer.initWords w - 1 by rw [h8]; omega)
    omega
  rw [toInt_eq_toNatU hS h (by rw [kTen_toNatU w h]; omega), kTen_toNatU w h]
  rfl

theorem GN_ok {z : Integer} {w : t_Width} {a : Nat} (h : z.Get_Actual_Width ≤ a) :
    Integer.Get_Normalized z w a = .ok ⟨w, z.normTo a⟩ := by
  unfold Integer.Get_Normalized
  rw [if_pos h]

theorem GNN_ok {w : t_Width} {a : Nat} (h : Integer.initWords w ≤ a) :
    Integer.Get_Normalized_New w a = .ok ⟨w, (Integer.kZero w).normTo a⟩ := by
  unfold Integer.Get_Normalized_New
  apply GN_ok
  rw [aw_kZero]
  exact h

/-- The positive copy of an operand at its own word count: `Sized` there with
unsigned value the absolute value of the operand, covering the fixed-width
minimal-negative fixpoint (that pattern is excluded at unlimited width, where
the copy would grow by a word). -/
theorem GP_natAbs (x : Integer) (a : Nat)
    (hx : Sized x a) (ha4 : kWidth_Min ≤ a)
    (hxmin : x.width = .unlimited →
      x.toInt ≠ -((2 : Int) ^ (kWord_Bits_Cnt * a - 1))) :
    Sized x.Get_Positive a ∧ x.Get_Positive.toNatU = x.toInt.natAbs ∧
    x.toInt.natAbs ≤ 2 ^ (kWord_Bits_Cnt * a - 1) := by
  have hk4 : kWidth_Min = 4 := rfl
  have h8 : kWord_Bits_Cnt = 8 := rfl
  have ha0 : 0 < a := by omega
  have hlb := toInt_lb hx ha0
  have hub := toInt_ub hx ha0
  have hcast : ((2 ^ (kWord_Bits_Cnt * a - 1) : Nat) : Int) =
      (2 : Int) ^ (kWord_Bits_Cnt * a - 1) := by
    push_cast
    ring
  have habs : x.toInt.natAbs ≤ 2 ^ (kWord_Bits_Cnt * a - 1) := by omega
  have hmain : Sized x.Get_Positive a ∧
      (x.Get_Positive.toInt = (x.toInt.natAbs : Int) ∨
        (x.Get_Positive.toInt = x.toInt ∧
          x.toInt = -((2 : Int) ^ (kWord_Bits_Cnt * a - 1)))) := by
    cases hxw : x.width with
    | fixed n =>
      have hn : n = a := (Get_Actual_Width_of_fixed hxw).symm.trans hx.1
      have hxw' : x.width = .fixed a := by rw [hxw, hn]
      have hsp := Get_Positive_spec_fixed x a hxw' hx.2 ha0
      refine ⟨Sized_of_fixed hsp.1 hsp.2.1, ?_⟩
      rcases le_or_lt 0 x.toInt with hnn | hneg
      · left
        rw [hsp.2.2.1 hnn]
        omega
      · by_cases hmin : x.toInt = -((2 : Int) ^ (kWord_Bits_Cnt * a - 1))
        · right
          exact ⟨hsp.2.2.2.2 hmin, hmin⟩
        · left
          rw [hsp.2.2.2.1 hneg hmin]
          omega
    | unlimited =>
      have hxm := hxmin hxw
      have hsp := Get_Positive_spec_unlimited x a hxw hx ha4
      refine ⟨hsp.2.2.2.1 hxm, ?_⟩
      left
      rcases le_or_lt 0 x.toInt with hnn | hneg
      · rw [hsp.2.1 hnn]
        omega
      · rw [hsp.2.2.1 hneg]
        omega
  obtain ⟨hGS, hval⟩ := hmain
  refine ⟨hGS, ?_, habs⟩
  rcases hval with hv | ⟨hv, hmin⟩
  · exact toNatU_eq_of_toInt hGS ha0 _ hv
  · have hpow0 : (0 : Int) < 2 ^ (kWord_Bits_Cnt * a - 1) := by positivity
    have hneg' : bitsToInt x.Get_Positive.bits < 0 := by
      rw [show bitsToInt x.Get_Positive.bits = x.Get_Positive.toInt from rfl, hv, hmin]
      omega
    have hsb : signBit x.Get_Positive.bits = true :=
      (bitsToInt_neg_iff _ (hGS.bits_ne_nil ha0)).mp hneg'
    have h2 := bitsToInt_of_signBit_true _ hsb
    rw [hGS.2] at h2
    have ht1 : x.Get_Positive.toInt = bitsToInt x.Get_Positive.bits := rfl
    have ht2 : x.Get_Positive.toNatU = bitsToNat x.Get_Positive.bits := rfl
    have hps : (2 : Int) ^ (kWord_Bits_Cnt * a) = 2 * 2 ^ (kWord_Bits_Cnt * a - 1) := by
      conv_lhs => rw [show kWord_Bits_Cnt * a = (kWord_Bits_Cnt * a - 1) + 1 by
        rw [h8]; omega]
      rw [pow_succ]
      ring
    omega

/-- `Div_Mod` on a nonzero dividend and a positive divisor of no larger word
count: it succeeds, the remainder is the unsigned remainder of the absolute
values (never negated), and the quotient carries the sign of the dividend. -/
theorem Div_Mod_exact_posdiv (x y : Integer) (a b : Nat)
    (hx : Sized x a) (hy : Sized y b)
    (ha4 : kWidth_Min ≤ a) (hb4 : kWidth_Min ≤ b) (hba : b ≤ a)
    (hypos : 0 < y.toInt) (hxnz : x.toInt ≠ 0)
    (hxmin : x.width = .unlimited →
      x.toInt ≠ -((2 : Int) ^ (kWord_Bits_Cnt * a - 1)))
    (hsafe : 2 * y.toInt.natAbs ≤ 2 ^ (kWord_Bits_Cnt * a - 1))
    (hqlt : x.toInt.natAbs / y.toInt.natAbs < 2 ^ (kWord_Bits_Cnt * a - 1)) :
    ∃ q r, Integer.Div_Mod x y = .ok (q, r) ∧
      Sized q a ∧ Sized r a ∧
      q.width = Get_Max_Width x.width y.width ∧
      r.width = Get_Max_Width x.width y.width ∧
      r.toNatU = x.toInt.natAbs % y.toInt.natAbs ∧
      r.toInt = ((x.toInt.natAbs % y.toInt.natAbs : Nat) : Int) ∧
      q.toInt.natAbs = x.toInt.natAbs / y.toInt.natAbs ∧
      (0 ≤ x.toInt → q.toInt = ((x.toInt.natAbs / y.toInt.natAbs : Nat) : Int)) ∧
      (x.toInt < 0 → q.toInt = -((x.toInt.natAbs / y.toInt.natAbs : Nat) : Int)) := by
  have hk4 : kWidth_Min = 4 := rfl
  have h8 : kWord_Bits_Cnt = 8 := rfl
  have ha0 : 0 < a := by omega
  have hb0 : 0 < b := by omega
  have hz0 : 0 < Integer.initWords x.width := initWords_pos_of_sized hx ha0
  have hmaxab : max a b = a := Nat.max_eq_left hba
  have hRW : ∀ m, Get_Max_Width x.width y.width = .fixed m → m = a := by
    intro m hm
    cases hxw : x.width with
    | unlimited =>
      rw [hxw, Get_Max_Width_unlimited_left] at hm
      cases hm
    | fixed n =>
      cases hyw2 : y.width with
      | unlimited =>
        rw [hxw, hyw2] at hm
        simp [Get_Max_Width] at hm
      | fixed k =>
        rw [hxw, hyw2] at hm
        have hna : n = a := (Get_Actual_Width_of_fixed hxw).symm.trans hx.1
        have hkb : k = b := (Get_Actual_Width_of_fixed hyw2).symm.trans hy.1
        injection hm with h2
        omega
  have hynz : y.toInt ≠ 0 := by omega
  have hpowb : (0 : Int) < 2 ^ (kWord_Bits_Cnt * b - 1) := by positivity
  have hymin : y.toInt ≠ -((2 : Int) ^ (kWord_Bits_Cnt * b - 1)) := by omega
  have hyIP : y.Is_Positive = true := (Is_Positive_iff_nonneg hy hb0).mpr (by omega)
  have hb1 : Integer.beq y (Integer.kZero x.width) = false := by
    cases hc : Integer.beq y (Integer.kZero x.width) with
    | false => rfl
    | true => exact absurd ((beq_kZero_iff hy hb0 x.width hz0).mp hc) hynz
  have hb2 : Integer.beq x (Integer.kZero x.width) = false := by
    cases hc : Integer.beq x (Integer.kZero x.width) with
    | false => rfl
    | true => exact absurd ((beq_kZero_iff hx ha0 x.width hz0).mp hc) hxnz
  obtain ⟨hGPS, hGPv, habs⟩ := GP_natAbs x a hx ha4 hxmin
  have hnum_ok : x.Get_Positive.Get_Normalized (Get_Max_Width x.width y.width) a =
      .ok ⟨Get_Max_Width x.width y.width, x.Get_Positive.normTo a⟩ :=
    GN_ok (by rw [hGPS.1])
  have hnumS : Sized (⟨Get_Max_Width x.width y.width,
      x.Get_Positive.normTo a⟩ : Integer) a :=
    Sized_mk_RW hRW (normTo_length hGPS a (le_refl a))
  have hnumv : (⟨Get_Max_Width x.width y.width,
      x.Get_Positive.normTo a⟩ : Integer).toNatU = x.toInt.natAbs := by
    show bitsToNat (x.Get_Positive.normTo a) = _
    rw [normTo_toNat_self hGPS ha0]
    exact hGPv
  obtain ⟨hyGPS, hyGPv, hyabsle⟩ := GP_natAbs y b hy hb4 (fun _ => by omega)
  have hden_ok : y.Get_Positive.Get_Normalized (Get_Max_Width x.width y.width) a =
      .ok ⟨Get_Max_Width x.width y.width, y.Get_Positive.normTo a⟩ :=
    GN_ok (by rw [hyGPS.1]; exact hba)
  obtain ⟨hdenw, hdenS, hd1, hdlt, hdpos, hdneg, hcomp, hcompS, hcompw⟩ :=
    den_facts y (⟨Get_Max_Width x.width y.width, y.Get_Positive.normTo a⟩ : Integer)
      b a (Get_Max_Width x.width y.width) hy hb4 hba ha4 hRW hynz hymin hden_ok
  have hdnat : (⟨Get_Max_Width x.width y.width,
      y.Get_Positive.normTo a⟩ : Integer).toNatU = y.toInt.natAbs := by
    have := hdpos (by omega)
    omega
  have hiw : Integer.initWords (Get_Max_Width x.width y.width) ≤ a := by
    cases hRWc : Get_Max_Width x.width y.width with
    | fixed m =>
      have := hRW m hRWc
      show m ≤ a
      omega
    | unlimited =>
      show kWidth_Min ≤ a
      exact ha4
  have hGNN : Integer.Get_Normalized_New (Get_Max_Width x.width y.width) a =
      .ok ⟨Get_Max_Width x.width y.width,
        (Integer.kZero (Get_Max_Width x.width y.width)).normTo a⟩ := GNN_ok hiw
  have hq0bits : (Integer.kZero (Get_Max_Width x.width y.width)).normTo a =
      List.replicate (kWord_Bits_Cnt * a) false := kZero_normTo _ a hiw
  have hq0S : Sized (⟨Get_Max_Width x.width y.width,
      (Integer.kZero (Get_Max_Width x.width y.width)).normTo a⟩ : Integer) a := by
    apply Sized_mk_RW hRW
    show ((Integer.kZero (Get_Max_Width x.width y.width)).normTo a).length = _
    rw [hq0bits]
    simp
  have hq0w : (⟨Get_Max_Width x.width y.width,
      (Integer.kZero (Get_Max_Width x.width y.width)).normTo a⟩ : Integer).width =
      (⟨Get_Max_Width x.width y.width, y.Get_Positive.normTo a⟩ : Integer).width := rfl
  have hq0v : (⟨Get_Max_Width x.width y.width,
      (Integer.kZero (Get_Max_Width x.width y.width)).normTo a⟩ : Integer).toNatU = 0 := by
    show bitsToNat ((Integer.kZero (Get_Max_Width x.width y.width)).normTo a) = 0
    rw [hq0bits, bitsToNat_replicate_false]
  have hq0b : ∀ j, (⟨Get_Max_Width x.width y.width,
      (Integer.kZero (Get_Max_Width x.width y.width)).normTo a⟩ : Integer).bits.getD j
        false = false := by
    intro j
    show ((Integer.kZero (Get_Max_Width x.width y.width)).normTo a).getD j false = false
    rw [hq0bits]
    exact getD_replicate_self false _ j
  have hmsb : (⟨Get_Max_Width x.width y.width,
      x.Get_Positive.normTo a⟩ : Integer).Get_Msb_Idx < kWord_Bits_Cnt * a := by
    have h1 : (⟨Get_Max_Width x.width y.width,
        x.Get_Positive.normTo a⟩ : Integer).Get_Msb_Idx =
        Integer.msbFrom (x.Get_Positive.normTo a) (a * kWord_Bits_Cnt - 1) := by
      show Integer.msbFrom (x.Get_Positive.normTo a) _ = _
      rw [abc_of_sized hnumS]
    rw [h1]
    have h2 := msbFrom_le (x.Get_Positive.normTo a) (a * kWord_Bits_Cnt - 1)
    rw [h8] at h2 ⊢
    omega
  have hNmsb : (⟨Get_Max_Width x.width y.width,
      x.Get_Positive.normTo a⟩ : Integer).toNatU <
      2 ^ ((⟨Get_Max_Width x.width y.width,
        x.Get_Positive.normTo a⟩ : Integer).Get_Msb_Idx + 1) := by
    have h1 : (⟨Get_Max_Width x.width y.width,
        x.Get_Positive.normTo a⟩ : Integer).Get_Msb_Idx =
        Integer.msbFrom (x.Get_Positive.normTo a) (a * kWord_Bits_Cnt - 1) := by
      show Integer.msbFrom (x.Get_Positive.normTo a) _ = _
      rw [abc_of_sized hnumS]
    rw [h1]
    apply bitsToNat_lt_msbFrom
    rw [normTo_length hGPS a (le_refl a)]
    rw [h8]
    omega
  obtain ⟨q2, r2, hrun, hq2S, hr2S, hq2w, hr2w, hq2v, hr2v⟩ :=
    divLoop_run (⟨Get_Max_Width x.width y.width, x.Get_Positive.normTo a⟩ : Integer)
      (⟨Get_Max_Width x.width y.width, y.Get_Positive.normTo a⟩ : Integer)
      a ha0 hd1 (by omega) hcomp hcompS
      (Or.inr (by rw [hdnat]; exact hsafe))
      (⟨Get_Max_Width x.width y.width, x.Get_Positive.normTo a⟩ : Integer).Get_Msb_Idx
      hmsb _ _ hq0S hq0S hq0w hq0w
      (by rw [hq0v, Nat.div_eq_of_lt hNmsb]
          simp)
      (by rw [hq0v, Nat.div_eq_of_lt hNmsb]
          simp)
      (fun j _ => hq0b j)
  have hq2vv : q2.toNatU = x.toInt.natAbs / y.toInt.natAbs := by
    rw [hq2v, hnumv, hdnat]
  have hr2vv : r2.toNatU = x.toInt.natAbs % y.toInt.natAbs := by
    rw [hr2v, hnumv, hdnat]
  have hyabs0 : 0 < y.toInt.natAbs := by omega
  have hq2lt : q2.toNatU < 2 ^ (kWord_Bits_Cnt * a - 1) := by
    rw [hq2vv]
    exact hqlt
  have hr2lt : r2.toNatU < 2 ^ (kWord_Bits_Cnt * a - 1) := by
    rw [hr2vv]
    have := Nat.mod_lt x.toInt.natAbs hyabs0
    omega
  have hq2Int : q2.toInt = (q2.toNatU : Int) := toInt_eq_toNatU hq2S ha0 hq2lt
  have hr2Int : r2.toInt = (r2.toNatU : Int) := toInt_eq_toNatU hr2S ha0 hr2lt
  have hq2RW : q2.width = Get_Max_Width x.width y.width := by
    rw [hq2w]
  have hr2RW : r2.width = Get_Max_Width x.width y.width := by
    rw [hr2w]
  have hwalk : Integer.Div_Mod x y =
      (if (!(x.Is_Positive.xor y.Is_Positive)) then
        (pure (q2, r2) : Except MpError (Integer × Integer))
      else pure (q2.Get_Complement, r2)) := by
    unfold Integer.Div_Mod
    dsimp only []
    rw [hb1]
    simp only [Bool.false_eq_true, reduceIte, exceptBind_pure]
    rw [hb2]
    simp only [Bool.false_eq_true, reduceIte]
    rw [hx.1, hy.1, hmaxab]
    rw [hnum_ok]
    simp only [exceptBind_ok]
    rw [hden_ok]
    simp only [exceptBind_ok]
    rw [hGNN]
    simp only [exceptBind_ok]
    rw [hrun]
    simp only [exceptBind_ok]
  rcases le_or_lt 0 x.toInt with hxnn | hxneg
  · have hxIP : x.Is_Positive = true := (Is_Positive_iff_nonneg hx ha0).mpr hxnn
    rw [hxIP, hyIP] at hwalk
    simp only [Bool.xor_self, Bool.not_false, reduceIte, exceptPure_eq_ok] at hwalk
    refine ⟨q2, r2, hwalk, hq2S, hr2S, hq2RW, hr2RW, hr2vv, ?_, ?_, ?_, ?_⟩
    · rw [hr2Int, hr2vv]
    · omega
    · intro _
      rw [hq2Int, hq2vv]
    · intro hneg
      exact absurd hneg (not_lt.mpr hxnn)
  · have hxIP : x.Is_Positive = false := by
      cases hc : x.Is_Positive with
      | false => rfl
      | true => exact absurd ((Is_Positive_iff_nonneg hx ha0).mp hc) (by omega)
    rw [hxIP, hyIP] at hwalk
    simp only [Bool.false_xor, Bool.not_true, Bool.false_eq_true, reduceIte,
      exceptPure_eq_ok] at hwalk
    have hq2nn : 0 ≤ q2.toInt := by
      rw [hq2Int]
      exact Int.natCast_nonneg _
    have hqcInt : q2.Get_Complement.toInt = -q2.toInt :=
      Get_Complement_toInt_nonneg hq2S ha4 hq2nn
    have hqcS : Sized q2.Get_Complement a :=
      Get_Complement_Sized_nonneg hq2S ha4 hq2nn
    have hqcw : q2.Get_Complement.width = Get_Max_Width x.width y.width := by
      rw [Get_Complement_width, hq2RW]
    refine ⟨q2.Get_Complement, r2, hwalk, hqcS, hr2S, hqcw, hr2RW, hr2vv, ?_, ?_, ?_, ?_⟩
    · rw [hr2Int, hr2vv]
    · omega
    · intro hnn
      exact absurd hnn (not_le.mpr hxneg)
    · intro _
      rw [hqcInt, hq2Int, hq2vv]

end mparith

namespace mparith

theorem opDiv_of_Div_Mod {x y q r : Integer}
    (h : Integer.Div_Mod x y = .ok (q, r)) : Integer.opDiv x y = .ok q := by
  unfold Integer.opDiv
  rw [h]
  rfl

theorem opMod_of_Div_Mod {x y q r : Integer}
    (h : Integer.Div_Mod x y = .ok (q, r)) : Integer.opMod x y = .ok r := by
  unfold Integer.opMod
  rw [h]
  rfl

/-- Fuel-driven expansion of a number into decimal digit characters, most
significant first (the fuel argument only needs to dominate the value). -/
def decDigitsAux : Nat → Nat → List Char
  | 0, _ => []
  | fuel + 1, n =>
    if n = 0 then []
    else decDigitsAux fuel (n / 10) ++ [Char.ofNat (n % 10 + 48)]

/-- The decimal digit characters of `n`, most significant first (empty for
`n = 0`). -/
def decDigits (n : Nat) : List Char := decDigitsAux n n

theorem decDigitsAux_zero : ∀ (fuel : Nat), decDigitsAux fuel 0 = [] := by
  intro fuel
  cases fuel with
  | zero => rfl
  | succ f => simp [decDigitsAux]

theorem decDigitsAux_irrel : ∀ (f1 f2 n : Nat), n ≤ f1 → n ≤ f2 →
    decDigitsAux f1 n = decDigitsAux f2 n := by
  intro f1
  induction f1 with
  | zero =>
    intro f2 n h1 _
    have hn : n = 0 := by omega
    subst hn
    rw [decDigitsAux_zero, decDigitsAux_zero]
  | succ f1' ih =>
    intro f2 n h1 h2
    cases f2 with
    | zero =>
      have hn : n = 0 := by omega
      subst hn
      rw [decDigitsAux_zero, decDigitsAux_zero]
    | succ f2' =>
      simp only [decDigitsAux]
      by_cases hn : n = 0
      · rw [if_pos hn, if_pos hn]
      · rw [if_neg hn, if_neg hn, ih f2' (n / 10) (by omega) (by omega)]

theorem decDigits_succ (n : Nat) (hn : 0 < n) :
    decDigits n = decDigits (n / 10) ++ [Char.ofNat (n % 10 + 48)] := by
  show decDigitsAux n n = decDigitsAux (n / 10) (n / 10) ++ _
  cases n with
  | zero => omega
  | succ m =>
    simp only [decDigitsAux]
    rw [if_neg (by omega)]
    congr 1
    exact decDigitsAux_irrel m ((m + 1) / 10) ((m + 1) / 10) (by omega) (le_refl _)

theorem char_ofNat_digit_toNat (d : Nat) (hd : d < 10) :
    (Char.ofNat (d + 48)).toNat = d + 48 := by
  interval_cases d <;> decide

theorem decDigitsAux_val : ∀ (fuel n : Nat), n ≤ fuel →
    List.foldl (fun acc c => acc * 10 + (c.toNat - 48)) 0 (decDigitsAux fuel n) = n := by
  intro fuel
  induction fuel with
  | zero =>
    intro n h
    have hn : n = 0 := by omega
    subst hn
    rfl
  | succ f ih =>
    intro n h
    by_cases hn : n = 0
    · subst hn
      rw [decDigitsAux_zero]
      rfl
    · simp only [decDigitsAux]
      rw [if_neg hn, List.foldl_append, ih (n / 10) (by omega)]
      simp only [List.foldl_cons, List.foldl_nil]
      rw [char_ofNat_digit_toNat (n % 10) (Nat.mod_lt _ (by omega))]
      omega

theorem decDigits_val (n : Nat) :
    List.foldl (fun acc c => acc * 10 + (c.toNat - 48)) 0 (decDigits n) = n :=
  decDigitsAux_val n n (le_refl n)

theorem decDigitsAux_chars : ∀ (fuel n : Nat), ∀ c ∈ decDigitsAux fuel n,
    48 ≤ c.toNat ∧ c.toNat ≤ 57 := by
  intro fuel
  induction fuel with
  | zero =>
    intro n c hc
    rw [show decDigitsAux 0 n = [] from rfl] at hc
    simp at hc
  | succ f ih =>
    intro n c hc
    simp only [decDigitsAux] at hc
    by_cases hn : n = 0
    · rw [if_pos hn] at hc
      simp at hc
    · rw [if_neg hn] at hc
      rcases List.mem_append.mp hc with h1 | h2
      · exact ih (n / 10) c h1
      · have hce : c = Char.ofNat (n % 10 + 48) := by
          simpa using h2
        subst hce
        rw [char_ofNat_digit_toNat (n % 10) (Nat.mod_lt _ (by omega))]
        have hm : n % 10 < 10 := Nat.mod_lt _ (by omega)
        omega

theorem decDigits_chars (n : Nat) : ∀ c ∈ decDigits n, 48 ≤ c.toNat ∧ c.toNat ≤ 57 :=
  decDigitsAux_chars n n

theorem decDigits_ne_nil (n : Nat) (hn : 0 < n) : decDigits n ≠ [] := by
  rw [decDigits_succ n hn]
  simp

theorem decDigitsAux_head : ∀ (fuel n : Nat), 0 < n → n ≤ fuel →
    ∃ c t, decDigitsAux fuel n = c :: t ∧ c.toNat ≠ 48 := by
  intro fuel
  induction fuel with
  | zero =>
    intro n h1 h2
    omega
  | succ f ih =>
    intro n h1 h2
    simp only [decDigitsAux]
    rw [if_neg (by omega)]
    rcases Nat.eq_zero_or_pos (n / 10) with h0 | hp
    · rw [h0, decDigitsAux_zero]
      refine ⟨Char.ofNat (n % 10 + 48), [], rfl, ?_⟩
      rw [char_ofNat_digit_toNat (n % 10) (Nat.mod_lt _ (by omega))]
      omega
    · obtain ⟨c, t, hct, hc⟩ := ih (n / 10) hp (by omega)
      rw [hct]
      exact ⟨c, t ++ [Char.ofNat (n % 10 + 48)], rfl, hc⟩

/-- The leading digit of a nonzero value's decimal expansion is never `'0'`:
the expansion is the minimal decimal representation. -/
theorem decDigits_head_ne_zero (n : Nat) (hn : 0 < n) :
    ∃ c t, decDigits n = c :: t ∧ c.toNat ≠ 48 :=
  decDigitsAux_head n n hn (le_refl n)

/-- The digit-extraction loop of `Serialize` on a loop-invariant-sized copy
produces exactly the decimal digits of the absolute value. -/
theorem serLoop_correct (w : t_Width) (s : Nat)
    (hs4 : kWidth_Min ≤ s)
    (hws : ∀ m, w = .fixed m → m = s) :
    ∀ (fuel : Nat) (copy : Integer), Sized copy s → copy.width = w →
      copy.toInt.natAbs < fuel →
      (w = .unlimited → 0 ≤ copy.toInt) →
      Integer.serLoop w fuel copy = .ok (decDigits copy.toInt.natAbs) := by
  have hk4 : kWidth_Min = 4 := rfl
  have h8 : kWord_Bits_Cnt = 8 := rfl
  have hs0 : 0 < s := by omega
  have hb4 : kWidth_Min ≤ Integer.initWords w := by
    cases hw : w with
    | fixed m =>
      show kWidth_Min ≤ m
      have hm : m = s := hws m hw
      omega
    | unlimited =>
      show kWidth_Min ≤ kWidth_Min
      exact le_refl _
  have hba : Integer.initWords w ≤ s := by
    cases hw : w with
    | fixed m =>
      show m ≤ s
      have hm : m = s := hws m hw
      omega
    | unlimited =>
      show kWidth_Min ≤ s
      exact hs4
  have hiw0 : 0 < Integer.initWords w := by omega
  have hkTS : Sized (Integer.kTen w) (Integer.initWords w) := Sized_kTen w
  have hkTw : (Integer.kTen w).width = w := rfl
  have hkTint : (Integer.kTen w).toInt = 10 := kTen_toInt w hiw0
  have hkTabs : (Integer.kTen w).toInt.natAbs = 10 := by
    rw [hkTint]
    rfl
  have hpow32 : 32 ≤ 2 ^ (kWord_Bits_Cnt * s - 1) := by
    have := Nat.pow_le_pow_right (show 0 < 2 by omega)
      (show 5 ≤ kWord_Bits_Cnt * s - 1 by rw [h8]; omega)
    omega
  intro fuel
  induction fuel with
  | zero =>
    intro copy _ _ hf _
    omega
  | succ f ih =>
    intro copy hcS hcw hf hcu
    simp only [Integer.serLoop]
    rcases Nat.eq_zero_or_pos copy.toInt.natAbs with hM0 | hM1
    · have hc0 : copy.toInt = 0 := by omega
      have hbeq : Integer.beq copy (Integer.kZero w) = true :=
        (beq_kZero_iff hcS hs0 w hiw0).mpr hc0
      have hbne : Integer.bne copy (Integer.kZero w) = false := by
        unfold Integer.bne
        rw [hbeq]
        rfl
      rw [hbne]
      simp only [Bool.false_eq_true, reduceIte]
      rw [hM0]
      rfl
    · have hc0 : copy.toInt ≠ 0 := by omega
      have hbeq : Integer.beq copy (Integer.kZero w) = false := by
        cases hc : Integer.beq copy (Integer.kZero w) with
        | false => rfl
        | true => exact absurd ((beq_kZero_iff hcS hs0 w hiw0).mp hc) hc0
      have hbne : Integer.bne copy (Integer.kZero w) = true := by
        unfold Integer.bne
        rw [hbeq]
        rfl
      rw [hbne]
      simp only [reduceIte]
      have hxmin : copy.width = .unlimited →
          copy.toInt ≠ -((2 : Int) ^ (kWord_Bits_Cnt * s - 1)) := by
        intro hu
        have hnn := hcu (by rw [← hcw, hu])
        have hpw : (0 : Int) < 2 ^ (kWord_Bits_Cnt * s - 1) := by positivity
        omega
      have habs_le : copy.toInt.natAbs ≤ 2 ^ (kWord_Bits_Cnt * s - 1) := by
        have hlb := toInt_lb hcS hs0
        have hub := toInt_ub hcS hs0
        have hcast : ((2 ^ (kWord_Bits_Cnt * s - 1) : Nat) : Int) =
            (2 : Int) ^ (kWord_Bits_Cnt * s - 1) := by
          push_cast
          ring
        omega
      obtain ⟨q, r, hDM, hqS, hrS, hqw, hrw, hrv, hrInt, hqabs, hqpos, hqneg⟩ :=
        Div_Mod_exact_posdiv copy (Integer.kTen w) s (Integer.initWords w)
          hcS hkTS hs4 hb4 hba
          (by rw [hkTint]; omega) hc0 hxmin
          (by rw [hkTabs]; omega)
          (by rw [hkTabs]; omega)
      rw [hkTabs] at hrv hqabs hqpos hqneg
      rw [opMod_of_Div_Mod hDM]
      simp only [exceptBind_ok]
      rw [opDiv_of_Div_Mod hDM]
      simp only [exceptBind_ok]
      rw [hkTw, hcw, Get_Max_Width_self] at hqw
      have hqfuel : q.toInt.natAbs < f := by
        rw [hqabs]
        omega
      have hqu : w = .unlimited → 0 ≤ q.toInt := by
        intro hu
        have hcnn := hcu hu
        rw [hqpos hcnn]
        exact Int.natCast_nonneg _
      rw [ih q hqS hqw hqfuel hqu]
      simp only [exceptBind_ok]
      have hdigit : Integer.digitChar r = Char.ofNat (copy.toInt.natAbs % 10 + 48) := by
        unfold Integer.digitChar
        congr 1
        have hb : bitsToNat r.bits = copy.toInt.natAbs % 10 := hrv
        rw [bitsToNat_take, hb]
        have hm10 : copy.toInt.natAbs % 10 < 10 := Nat.mod_lt _ (by omega)
        rw [show ('0').toNat = 48 from rfl, h8]
        have : copy.toInt.natAbs % 10 % 2 ^ 8 = copy.toInt.natAbs % 10 :=
          Nat.mod_eq_of_lt (by omega)
        omega
      rw [hqabs, hdigit, ← decDigits_succ copy.toInt.natAbs hM1]
      rfl

/-- `Serialize` always succeeds on a sized value, producing a `-` sign for
negative values followed by the decimal digits of the absolute value (and
`"0"` for zero). -/
theorem Serialize_spec (x : Integer) (a : Nat)
    (hx : Sized x a) (ha4 : kWidth_Min ≤ a) :
    Integer.Serialize x = .ok (String.mk
      ((if x.toInt < 0 then ['-'] else []) ++
        (if x.toInt = 0 then ['0'] else decDigits x.toInt.natAbs))) := by
  have hk4 : kWidth_Min = 4 := rfl
  have h8 : kWord_Bits_Cnt = 8 := rfl
  have ha0 : 0 < a := by omega
  have hz0 : 0 < Integer.initWords x.width := initWords_pos_of_sized hx ha0
  have hws : ∀ m, x.width = .fixed m → m = a := by
    intro m hm
    exact (Get_Actual_Width_of_fixed hm).symm.trans hx.1
  unfold Integer.Serialize
  dsimp only []
  rcases eq_or_ne x.toInt 0 with hx0 | hxnz
  · have hbeq : Integer.beq x (Integer.kZero x.width) = true :=
      (beq_kZero_iff hx ha0 x.width hz0).mpr hx0
    cases hIP : x.Is_Positive with
    | true =>
      simp only [Bool.not_true, Bool.false_eq_true, reduceIte]
      rw [hbeq]
      simp only [reduceIte]
      rw [hx0, if_neg (lt_irrefl (0 : Int)), if_pos rfl]
      rfl
    | false =>
      simp only [Bool.not_false, reduceIte]
      rw [hbeq]
      simp only [reduceIte]
      rw [hx0, if_neg (lt_irrefl (0 : Int)), if_pos rfl]
      rfl
  · have hbeq : Integer.beq x (Integer.kZero x.width) = false := by
      cases hc : Integer.beq x (Integer.kZero x.width) with
      | false => rfl
      | true => exact absurd ((beq_kZero_iff hx ha0 x.width hz0).mp hc) hxnz
    rcases lt_or_le x.toInt 0 with hneg | hpos0
    · -- negative: the loop runs on the complement
      have hIP : x.Is_Positive = false := (Is_Positive_false_iff_neg hx ha0).mpr hneg
      rw [hIP]
      simp only [Bool.not_false, reduceIte]
      rw [hbeq]
      simp only [Bool.false_eq_true, reduceIte]
      obtain ⟨s₀, hcS, hcv, hcabs, hs04, hws₀⟩ : ∃ s₀, Sized x.Get_Complement s₀ ∧
          x.Get_Complement.toNatU = x.toInt.natAbs ∧
          x.Get_Complement.toInt.natAbs = x.toInt.natAbs ∧
          kWidth_Min ≤ s₀ ∧ (∀ m, x.width = .fixed m → m = s₀) := by
        have hGP : x.Get_Positive = x.Get_Complement := by
          unfold Integer.Get_Positive
          rw [hIP]
          simp
        cases hxw : x.width with
        | fixed n =>
          have hn : n = a := hws n hxw
          have hxw' : x.width = .fixed a := by rw [hxw, hn]
          obtain ⟨hGS, hGv, _⟩ := GP_natAbs x a hx ha4
            (by intro hu; rw [hxw] at hu; simp at hu)
          rw [hGP] at hGS hGv
          refine ⟨a, hGS, hGv, ?_, ha4, ?_⟩
          · have hsp := Get_Complement_spec_fixed x a hxw' hx.2 ha0
            by_cases hmin : x.toInt = -((2 : Int) ^ (kWord_Bits_Cnt * a - 1))
            · rw [hsp.2.2.2 hmin]
            · rw [hsp.2.2.1 hmin]
              omega
          · intro m hm
            injection hm with h2
            omega
        | unlimited =>
          have hsp := Get_Complement_spec_unlimited x a hxw hx ha4
          have hvInt : x.Get_Complement.toInt = -x.toInt := hsp.2.1
          have hcabs : x.Get_Complement.toInt.natAbs = x.toInt.natAbs := by
            rw [hvInt]
            omega
          have hwsu : ∀ (v m : Nat), t_Width.unlimited = t_Width.fixed m → m = v := by
            intro v m hm
            simp at hm
          by_cases hmin : x.toInt = -((2 : Int) ^ (kWord_Bits_Cnt * a - 1))
          · have hS : Sized x.Get_Complement (a + 1) := hsp.2.2.2 hmin
            refine ⟨a + 1, hS, ?_, hcabs, by omega, hwsu (a + 1)⟩
            exact toNatU_eq_of_toInt hS (by omega) _ (by rw [hvInt]; omega)
          · have hS : Sized x.Get_Complement a := hsp.2.2.1 hmin
            refine ⟨a, hS, ?_, hcabs, ha4, hwsu a⟩
            exact toNatU_eq_of_toInt hS ha0 _ (by rw [hvInt]; omega)
      have hcw : x.Get_Complement.width = x.width := Get_Complement_width x
      have hcu : x.width = .unlimited → 0 ≤ x.Get_Complement.toInt := by
        intro hu
        have hv := (Get_Complement_spec_unlimited x a hu hx ha4).2.1
        omega
      have hrun := serLoop_correct x.width s₀ hs04 hws₀
        (x.Get_Complement.toNatU + 1) x.Get_Complement hcS hcw
        (by rw [hcv, ← hcabs]; omega) hcu
      rw [hcabs] at hrun
      rw [hrun]
      simp only [exceptBind_ok]
      rw [if_pos hneg, if_neg hxnz]
      rfl
    · -- positive: the loop runs on the value itself
      have hpos : 0 < x.toInt := by omega
      have hIP : x.Is_Positive = true := (Is_Positive_iff_nonneg hx ha0).mpr (by omega)
      rw [hIP]
      simp only [Bool.not_true, Bool.false_eq_true, reduceIte]
      rw [hbeq]
      simp only [Bool.false_eq_true, reduceIte]
      have hnatu : x.toNatU = x.toInt.natAbs :=
        toNatU_eq_of_toInt hx ha0 _ (by omega)
      have hrun := serLoop_correct x.width a ha4 hws (x.toNatU + 1) x hx rfl
        (by omega) (fun _ => by omega)
      rw [hrun]
      simp only [exceptBind_ok]
      rw [if_neg (not_lt.mpr hpos0), if_neg hxnz]
      rfl

end mparith

namespace mparith

/-- Unsigned exactness of `Add` at unlimited widths when the sum stays below
the sign bit of the larger operand's size: the result holds the exact sum at
that size (no growth word), and the carry flag stays clear. -/
theorem Add_toNatU_exact_unlimited {x y : Integer} {A₁ A₂ : Nat}
    (hwx : x.width = .unlimited) (hwy : y.width = .unlimited)
    (hx : Sized x A₁) (hy : Sized y A₂) (h12 : A₁ ≤ A₂) (hA1 : 0 < A₁)
    (hxsign : x.toNatU < 2 ^ (kWord_Bits_Cnt * A₁ - 1))
    (hsum : x.toNatU + y.toNatU < 2 ^ (kWord_Bits_Cnt * A₂ - 1)) :
    (Integer.Add x y).1.toNatU = x.toNatU + y.toNatU ∧
    Sized (Integer.Add x y).1 A₂ ∧
    (Integer.Add x y).1.width = .unlimited ∧
    (Integer.Add x y).2.2 = false := by
  have h8 : kWord_Bits_Cnt = 8 := rfl
  have hA2 : 0 < A₂ := by omega
  have hLpos : 0 < kWord_Bits_Cnt * A₂ := by
    rw [h8]
    omega
  have hpow_split : 2 ^ (kWord_Bits_Cnt * A₂) = 2 ^ (kWord_Bits_Cnt * A₂ - 1) * 2 := by
    rw [← pow_succ]
    congr 1
    omega
  have hrw : Get_Max_Width x.width y.width = .unlimited := by
    rw [hwx, hwy]
    rfl
  have hred := Add_eq_unlimited x y hrw
  have hraw : addRaw x y = A₂ := by
    unfold addRaw
    rw [hx.1, hy.1]
    omega
  have hsx : signBit x.bits = false := by
    rw [signBit_false_iff _ (hx.bits_ne_nil hA1), hx.2]
    exact hxsign
  have hsy : signBit y.bits = false := by
    rw [signBit_false_iff _ (hy.bits_ne_nil hA2), hy.2]
    have hbr : bitsToNat y.bits = y.toNatU := rfl
    omega
  have hln : (x.normTo A₂).length = kWord_Bits_Cnt * A₂ := normTo_length hx A₂ h12
  have hrn : (y.normTo A₂).length = kWord_Bits_Cnt * A₂ := normTo_length hy A₂ (le_refl A₂)
  have hxnv : bitsToNat (x.normTo A₂) = x.toNatU := by
    rw [normTo_toNat hx hA1 A₂ h12, hsx]
    simp
  have hynv : bitsToNat (y.normTo A₂) = y.toNatU := normTo_toNat_self hy hA2
  have hsum_bits : bitsToNat (addSum x y) =
      (x.toNatU + y.toNatU) % 2 ^ (kWord_Bits_Cnt * A₂) := by
    unfold addSum
    rw [hraw]
    rw [addBits_toNat_fst _ _ false (by rw [hln, hrn])]
    rw [hxnv, hynv, hln]
    simp
  have hmod : (x.toNatU + y.toNatU) % 2 ^ (kWord_Bits_Cnt * A₂) =
      x.toNatU + y.toNatU := Nat.mod_eq_of_lt (by omega)
  have hsum_len : (addSum x y).length = kWord_Bits_Cnt * A₂ := by
    unfold addSum
    rw [hraw, addBits_length, hln]
  have hsum_ne : addSum x y ≠ [] := by
    intro hcon
    rw [hcon] at hsum_len
    simp only [List.length_nil] at hsum_len
    omega
  have hsum_sign : signBit (addSum x y) = false := by
    rw [signBit_false_iff _ hsum_ne, hsum_len, hsum_bits, hmod]
    exact hsum
  have hsum_pos : (⟨t_Width.unlimited, addSum x y⟩ : Integer).Is_Positive = true := by
    rw [Is_Positive_mk_unlimited A₂ _ hsum_len, hsum_sign]
    rfl
  have hxn_sign : signBit (x.normTo (addRaw x y)) = false := by
    rw [hraw, normTo_signBit hx hA1 A₂]
    exact hsx
  have hxn_pos : (⟨t_Width.unlimited, x.normTo (addRaw x y)⟩ : Integer).Is_Positive
      = true := by
    rw [hraw] at hxn_sign ⊢
    rw [Is_Positive_mk_unlimited A₂ _ hln, hxn_sign]
    rfl
  have hres : addResU x y = ⟨t_Width.unlimited, addSum x y⟩ := by
    unfold addResU
    rw [hraw] at hxn_pos
    rw [hraw, hsum_pos, hxn_pos]
    simp
  refine ⟨?_, ?_, ?_, ?_⟩
  · rw [hred]
    show (addResU x y).toNatU = _
    rw [hres]
    show bitsToNat (addSum x y) = _
    rw [hsum_bits, hmod]
  · rw [hred]
    show Sized (addResU x y) A₂
    rw [hres]
    exact Sized_mk_unlimited _ _ hsum_len
  · rw [hred]
    show (addResU x y).width = _
    rw [hres]
  · rw [hred]
    show addCarryOut x y = false
    unfold addCarryOut
    rw [hraw]
    rw [addBits_carry _ _ false (by rw [hln, hrn])]
    rw [hxnv, hynv, hln]
    simp only [Bool.toNat_false, Nat.add_zero, decide_eq_false_iff_not, not_le]
    omega

/-- The shift-and-add loop at unlimited width: with the running result's
value below its own sign bit and the product bound below the working sign
bit, it computes the exact product, never latches the carry flag, and never
grows past the working size. -/
theorem mulLoop_invariant_unlimited {A : Nat} (hA : 0 < A) (P : Nat)
    (hP : P < 2 ^ (kWord_Bits_Cnt * A - 1)) :
    ∀ (k : Nat) (result left right : Integer) (c : Bool) (Ar : Nat),
      0 < Ar → Ar ≤ A → Sized result Ar →
      result.toNatU < 2 ^ (kWord_Bits_Cnt * Ar - 1) →
      Sized left A → Sized right A →
      result.width = .unlimited → left.width = .unlimited →
      right.width = .unlimited →
      right.toNatU < 2 ^ k →
      result.toNatU + left.toNatU * right.toNatU = P →
      (Integer.mulLoop k result left right c).2 = c ∧
      (Integer.mulLoop k result left right c).1.toNatU = P ∧
      (∃ s, 0 < s ∧ s ≤ A ∧ Sized (Integer.mulLoop k result left right c).1 s ∧
        (Integer.mulLoop k result left right c).1.toNatU <
          2 ^ (kWord_Bits_Cnt * s - 1)) ∧
      (Integer.mulLoop k result left right c).1.width = .unlimited := by
  have h8 : kWord_Bits_Cnt = 8 := rfl
  have hLpos : 0 < kWord_Bits_Cnt * A := by
    rw [h8]
    omega
  have hpow_split : 2 ^ (kWord_Bits_Cnt * A) = 2 ^ (kWord_Bits_Cnt * A - 1) * 2 := by
    rw [← pow_succ]
    congr 1
    omega
  intro k
  induction k with
  | zero =>
    intro result left right c Ar hAr0 hArA hres hressign hleft hright hwres hwleft
      hwright hrk hinv
    have hr0 : right.toNatU = 0 := by omega
    rw [hr0, Nat.mul_zero, Nat.add_zero] at hinv
    exact ⟨rfl, hinv, ⟨Ar, hAr0, hArA, hres, hressign⟩, hwres⟩
  | succ k ih =>
    intro result left right c Ar hAr0 hArA hres hressign hleft hright hwres hwleft
      hwright hrk hinv
    have hpar : (right.getBit 0).toNat = right.toNatU % 2 := by
      rw [getBit_toNat]
      simp
    have hl'S : Sized (left.shl 1) A := by
      refine Sized_congr hleft rfl ?_
      exact shl_one_length left
    have hl'w : (left.shl 1).width = .unlimited := hwleft
    have hl'v : (left.shl 1).toNatU =
        2 * left.toNatU % 2 ^ (kWord_Bits_Cnt * A) := by
      rw [shl_one_toNatU, hleft.2]
    have hr'S : Sized (right.shr 1) A := by
      refine Sized_congr hright rfl ?_
      apply shr_one_length
      rw [hright.2]
      exact hLpos
    have hr'w : (right.shr 1).width = .unlimited := hwright
    have hr'v : (right.shr 1).toNatU = right.toNatU / 2 := shr_one_toNatU right
    have hr'k : (right.shr 1).toNatU < 2 ^ k := by
      rw [hr'v]
      rw [pow_succ] at hrk
      omega
    rw [mulLoop_succ]
    cases hb : right.getBit 0 with
    | false =>
      have hRe : right.toNatU % 2 = 0 := by
        rw [hb] at hpar
        simp at hpar
        omega
      have hinv' : result.toNatU + (left.shl 1).toNatU * (right.shr 1).toNatU = P := by
        rcases Nat.eq_zero_or_pos (right.toNatU / 2) with hz | hpos
        · have hr0 : right.toNatU = 0 := by omega
          rw [hl'v, hr'v, hz, Nat.mul_zero, Nat.add_zero]
          rw [hr0, Nat.mul_zero, Nat.add_zero] at hinv
          exact hinv
        · have h2le : 2 ≤ right.toNatU := by omega
          have hmul2 : left.toNatU * 2 ≤ left.toNatU * right.toNatU :=
            Nat.mul_le_mul_left _ h2le
          have h2Lv : 2 * left.toNatU ≤ P := by
            have := hinv
            generalize hg : left.toNatU * right.toNatU = LR at this hmul2
            omega
          have hexact : (left.shl 1).toNatU = 2 * left.toNatU := by
            rw [hl'v]
            exact Nat.mod_eq_of_lt (by omega)
          have hRv : right.toNatU = 2 * (right.toNatU / 2) := by omega
          rw [hexact, hr'v]
          calc result.toNatU + 2 * left.toNatU * (right.toNatU / 2)
              = result.toNatU + left.toNatU * (2 * (right.toNatU / 2)) := by ring
            _ = result.toNatU + left.toNatU * right.toNatU := by rw [← hRv]
            _ = P := hinv
      exact ih result (left.shl 1) (right.shr 1) c Ar hAr0 hArA hres hressign
        hl'S hr'S hwres hl'w hr'w hr'k hinv'
    | true =>
      have hRo : right.toNatU % 2 = 1 := by
        rw [hb] at hpar
        simp at hpar
        omega
      have hRpos : 1 ≤ right.toNatU := by omega
      have hmul1 : left.toNatU * 1 ≤ left.toNatU * right.toNatU :=
        Nat.mul_le_mul_left _ hRpos
      have hsum : result.toNatU + left.toNatU < 2 ^ (kWord_Bits_Cnt * A - 1) := by
        have := hinv
        generalize hg : left.toNatU * right.toNatU = LR at this hmul1
        omega
      obtain ⟨hAv, hAS, hAw, hAc⟩ :=
        Add_toNatU_exact_unlimited hwres hwleft hres hleft hArA hAr0 hressign hsum
      have hflag : (c || (Integer.Add result left).2.2) = c := by
        rw [hAc, Bool.or_false]
      rw [hflag]
      have hinv' : (Integer.Add result left).1.toNatU +
          (left.shl 1).toNatU * (right.shr 1).toNatU = P := by
        rcases Nat.eq_zero_or_pos (right.toNatU / 2) with hz | hpos
        · have hr1 : right.toNatU = 1 := by omega
          rw [hAv, hl'v, hr'v, hz, Nat.mul_zero, Nat.add_zero]
          rw [hr1, Nat.mul_one] at hinv
          exact hinv
        · have h3le : 3 ≤ right.toNatU := by omega
          have hmul2 : left.toNatU * 2 ≤ left.toNatU * right.toNatU :=
            Nat.mul_le_mul_left _ (by omega)
          have h2Lv : 2 * left.toNatU ≤ P := by
            have := hinv
            generalize hg : left.toNatU * right.toNatU = LR at this hmul2
            omega
          have hexact : (left.shl 1).toNatU = 2 * left.toNatU := by
            rw [hl'v]
            exact Nat.mod_eq_of_lt (by omega)
          have hRv : right.toNatU = 2 * (right.toNatU / 2) + 1 := by omega
          rw [hAv, hexact, hr'v]
          calc result.toNatU + left.toNatU +
                2 * left.toNatU * (right.toNatU / 2)
              = result.toNatU + left.toNatU * (2 * (right.toNatU / 2) + 1) := by
                ring
            _ = result.toNatU + left.toNatU * right.toNatU := by rw [← hRv]
            _ = P := hinv
      have hressign' : (Integer.Add result left).1.toNatU <
          2 ^ (kWord_Bits_Cnt * A - 1) := by
        rw [hAv]
        exact hsum
      exact ih (Integer.Add result left).1 (left.shl 1) (right.shr 1) c A
        (by omega) (le_refl A) hAS hressign' hl'S hr'S hAw hl'w hr'w hr'k hinv'

/-- `Shrink` on a sized unlimited value: it keeps the exact unsigned value,
lands on a word count of at least `kWidth_Min` whose sign bit is clear. -/
theorem Shrink_facts (z : Integer) (B : Nat)
    (hz : Sized z B) (hB : 0 < B) (hwz : z.width = .unlimited) :
    kWidth_Min ≤ max ((z.Get_Msb_Idx + 1) / kWord_Bits_Cnt + 1) kWidth_Min ∧
    Sized (Integer.Shrink z) (max ((z.Get_Msb_Idx + 1) / kWord_Bits_Cnt + 1) kWidth_Min) ∧
    (Integer.Shrink z).toNatU = z.toNatU ∧
    (Integer.Shrink z).width = .unlimited ∧
    signBit (Integer.Shrink z).bits = false ∧
    (Integer.Shrink z).toInt = (z.toNatU : Int) := by
  have h8 : kWord_Bits_Cnt = 8 := rfl
  have hk4 : kWidth_Min = 4 := rfl
  have hbits : (Integer.Shrink z).bits =
      z.bits.take (kWord_Bits_Cnt * max ((z.Get_Msb_Idx + 1) / kWord_Bits_Cnt + 1)
        kWidth_Min) ++
      List.replicate (kWord_Bits_Cnt * max ((z.Get_Msb_Idx + 1) / kWord_Bits_Cnt + 1)
        kWidth_Min - z.bits.length) false := rfl
  have hwidth : (Integer.Shrink z).width = z.width := rfl
  have hmdef : z.Get_Msb_Idx = Integer.msbFrom z.bits (B * kWord_Bits_Cnt - 1) := by
    show Integer.msbFrom z.bits _ = _
    rw [abc_of_sized hz]
  have hNm : z.toNatU < 2 ^ (z.Get_Msb_Idx + 1) := by
    rw [hmdef]
    apply bitsToNat_lt_msbFrom
    rw [hz.2, h8]
    omega
  have hm2 : z.Get_Msb_Idx + 2 ≤
      kWord_Bits_Cnt * max ((z.Get_Msb_Idx + 1) / kWord_Bits_Cnt + 1) kWidth_Min := by
    rw [h8, hk4]
    omega
  have hzlen : z.bits.length = kWord_Bits_Cnt * B := hz.2
  have hlen' : (Integer.Shrink z).bits.length =
      kWord_Bits_Cnt * max ((z.Get_Msb_Idx + 1) / kWord_Bits_Cnt + 1) kWidth_Min := by
    rw [hbits]
    simp only [List.length_append, List.length_take, List.length_replicate, hzlen]
    omega
  have hpowle : 2 ^ (z.Get_Msb_Idx + 1) ≤
      2 ^ (kWord_Bits_Cnt * max ((z.Get_Msb_Idx + 1) / kWord_Bits_Cnt + 1)
        kWidth_Min - 1) :=
    Nat.pow_le_pow_right (by omega) (by omega)
  have hval : (Integer.Shrink z).toNatU = z.toNatU := by
    show bitsToNat (Integer.Shrink z).bits = _
    rw [hbits, bitsToNat_append, bitsToNat_replicate_false, bitsToNat_take]
    rw [Nat.mul_zero, Nat.add_zero]
    apply Nat.mod_eq_of_lt
    have hp2 : 2 ^ (kWord_Bits_Cnt * max ((z.Get_Msb_Idx + 1) / kWord_Bits_Cnt + 1)
        kWidth_Min - 1) ≤
        2 ^ (kWord_Bits_Cnt * max ((z.Get_Msb_Idx + 1) / kWord_Bits_Cnt + 1)
          kWidth_Min) :=
      Nat.pow_le_pow_right (by omega) (by omega)
    have hbr : bitsToNat z.bits = z.toNatU := rfl
    omega
  have hne : (Integer.Shrink z).bits ≠ [] := by
    intro hcon
    rw [hcon] at hlen'
    simp only [List.length_nil] at hlen'
    rw [h8, hk4] at hlen'
    omega
  have hsign : signBit (Integer.Shrink z).bits = false := by
    rw [signBit_false_iff _ hne, hlen']
    show bitsToNat (Integer.Shrink z).bits < _
    rw [show bitsToNat (Integer.Shrink z).bits = (Integer.Shrink z).toNatU from rfl,
      hval]
    omega
  refine ⟨by omega, ?_, hval, by rw [hwidth, hwz], hsign, ?_⟩
  · apply Sized_of_unlimited (by rw [hwidth, hwz])
    exact hlen'
  · show bitsToInt (Integer.Shrink z).bits = _
    rw [bitsToInt_of_signBit_false _ hsign]
    rw [show bitsToNat (Integer.Shrink z).bits = (Integer.Shrink z).toNatU from rfl,
      hval]

/-- Unlimited multiplication of two non-negative values: always exact, never
flags, and lands on a sized non-negative result. -/
theorem Mul_exact_unlimited_nonneg (x y : Integer) (ax ay : Nat)
    (hwx : x.width = .unlimited) (hwy : y.width = .unlimited)
    (hx : Sized x ax) (hy : Sized y ay)
    (hax4 : kWidth_Min ≤ ax) (hay4 : kWidth_Min ≤ ay)
    (hxp : x.Is_Positive = true) (hyp : y.Is_Positive = true) :
    ∃ r s, Integer.Mul x y = .ok (r, false) ∧ Sized r s ∧ kWidth_Min ≤ s ∧
      r.width = .unlimited ∧ r.toNatU = x.toNatU * y.toNatU ∧
      r.Is_Positive = true ∧ r.toInt = ((x.toNatU * y.toNatU : Nat) : Int) := by
  have hk4 : kWidth_Min = 4 := rfl
  have h8 : kWord_Bits_Cnt = 8 := rfl
  have hax0 : 0 < ax := by omega
  have hay0 : 0 < ay := by omega
  have hM4 : kWidth_Min ≤ max ax ay := by omega
  have hM0 : 0 < max ax ay := by omega
  have hrw : Get_Max_Width x.width y.width = .unlimited := by
    rw [hwx, hwy]
    rfl
  have hsx : signBit x.bits = false := signBit_eq_false_of_pos hx hxp
  have hsy : signBit y.bits = false := signBit_eq_false_of_pos hy hyp
  have hxv : x.toNatU < 2 ^ (kWord_Bits_Cnt * ax - 1) := by
    have := (signBit_false_iff x.bits (hx.bits_ne_nil hax0)).mp hsx
    rwa [hx.2] at this
  have hyv : y.toNatU < 2 ^ (kWord_Bits_Cnt * ay - 1) := by
    have := (signBit_false_iff y.bits (hy.bits_ne_nil hay0)).mp hsy
    rwa [hy.2] at this
  have hxvM : x.toNatU < 2 ^ (kWord_Bits_Cnt * max ax ay - 1) := by
    have hle : 2 ^ (kWord_Bits_Cnt * ax - 1) ≤
        2 ^ (kWord_Bits_Cnt * max ax ay - 1) :=
      Nat.pow_le_pow_right (by omega) (by rw [h8]; omega)
    omega
  have hyvM : y.toNatU < 2 ^ (kWord_Bits_Cnt * max ax ay - 1) := by
    have hle : 2 ^ (kWord_Bits_Cnt * ay - 1) ≤
        2 ^ (kWord_Bits_Cnt * max ax ay - 1) :=
      Nat.pow_le_pow_right (by omega) (by rw [h8]; omega)
    omega
  have hP : x.toNatU * y.toNatU < 2 ^ (kWord_Bits_Cnt * (2 * max ax ay) - 1) := by
    have h1 : x.toNatU * y.toNatU <
        2 ^ (kWord_Bits_Cnt * max ax ay - 1) *
          2 ^ (kWord_Bits_Cnt * max ax ay - 1) :=
      Nat.mul_lt_mul'' hxvM hyvM
    have h2 : 2 ^ (kWord_Bits_Cnt * max ax ay - 1) *
        2 ^ (kWord_Bits_Cnt * max ax ay - 1) =
        2 ^ (kWord_Bits_Cnt * max ax ay - 1 + (kWord_Bits_Cnt * max ax ay - 1)) := by
      rw [pow_add]
    have h3 : 2 ^ (kWord_Bits_Cnt * max ax ay - 1 + (kWord_Bits_Cnt * max ax ay - 1)) ≤
        2 ^ (kWord_Bits_Cnt * (2 * max ax ay) - 1) :=
      Nat.pow_le_pow_right (by omega) (by rw [h8]; omega)
    omega
  -- sized normalized operands
  have hl1len : (x.normTo (max ax ay)).length = kWord_Bits_Cnt * max ax ay :=
    normTo_length hx (max ax ay) (le_max_left ax ay)
  have hr1len : (y.normTo (max ax ay)).length = kWord_Bits_Cnt * max ax ay :=
    normTo_length hy (max ax ay) (le_max_right ax ay)
  have hl1S : Sized (⟨t_Width.unlimited, x.normTo (max ax ay)⟩ : Integer)
      (max ax ay) := Sized_mk_unlimited _ _ hl1len
  have hr1S : Sized (⟨t_Width.unlimited, y.normTo (max ax ay)⟩ : Integer)
      (max ax ay) := Sized_mk_unlimited _ _ hr1len
  have hl1sign : signBit (x.normTo (max ax ay)) = false := by
    rw [normTo_signBit hx hax0]
    exact hsx
  have hr1sign : signBit (y.normTo (max ax ay)) = false := by
    rw [normTo_signBit hy hay0]
    exact hsy
  have hl1v : bitsToNat (x.normTo (max ax ay)) = x.toNatU := by
    rw [normTo_toNat hx hax0 _ (le_max_left ax ay), hsx]
    simp
  have hr1v : bitsToNat (y.normTo (max ax ay)) = y.toNatU := by
    rw [normTo_toNat hy hay0 _ (le_max_right ax ay), hsy]
    simp
  -- the doubled-width operands
  have hl2len : ((⟨t_Width.unlimited, x.normTo (max ax ay)⟩ : Integer).normTo
      (2 * max ax ay)).length = kWord_Bits_Cnt * (2 * max ax ay) :=
    normTo_length hl1S (2 * max ax ay) (by omega)
  have hr2len : ((⟨t_Width.unlimited, y.normTo (max ax ay)⟩ : Integer).normTo
      (2 * max ax ay)).length = kWord_Bits_Cnt * (2 * max ax ay) :=
    normTo_length hr1S (2 * max ax ay) (by omega)
  have hl2S : Sized (⟨t_Width.unlimited, (⟨t_Width.unlimited,
      x.normTo (max ax ay)⟩ : Integer).normTo (2 * max ax ay)⟩ : Integer)
      (2 * max ax ay) := Sized_mk_unlimited _ _ hl2len
  have hr2S : Sized (⟨t_Width.unlimited, (⟨t_Width.unlimited,
      y.normTo (max ax ay)⟩ : Integer).normTo (2 * max ax ay)⟩ : Integer)
      (2 * max ax ay) := Sized_mk_unlimited _ _ hr2len
  have hl2v : (⟨t_Width.unlimited, (⟨t_Width.unlimited,
      x.normTo (max ax ay)⟩ : Integer).normTo (2 * max ax ay)⟩ : Integer).toNatU =
      x.toNatU := by
    show bitsToNat ((⟨t_Width.unlimited, x.normTo (max ax ay)⟩ : Integer).normTo
      (2 * max ax ay)) = _
    rw [normTo_toNat hl1S hM0 _ (by omega)]
    rw [show signBit (⟨t_Width.unlimited, x.normTo (max ax ay)⟩ : Integer).bits =
      signBit (x.normTo (max ax ay)) from rfl, hl1sign]
    rw [show (⟨t_Width.unlimited, x.normTo (max ax ay)⟩ : Integer).toNatU =
      bitsToNat (x.normTo (max ax ay)) from rfl, hl1v]
    simp
  have hr2v : (⟨t_Width.unlimited, (⟨t_Width.unlimited,
      y.normTo (max ax ay)⟩ : Integer).normTo (2 * max ax ay)⟩ : Integer).toNatU =
      y.toNatU := by
    show bitsToNat ((⟨t_Width.unlimited, y.normTo (max ax ay)⟩ : Integer).normTo
      (2 * max ax ay)) = _
    rw [normTo_toNat hr1S hM0 _ (by omega)]
    rw [show signBit (⟨t_Width.unlimited, y.normTo (max ax ay)⟩ : Integer).bits =
      signBit (y.normTo (max ax ay)) from rfl, hr1sign]
    rw [show (⟨t_Width.unlimited, y.normTo (max ax ay)⟩ : Integer).toNatU =
      bitsToNat (y.normTo (max ax ay)) from rfl, hr1v]
    simp
  -- the zero seed
  have hzS : Sized (Integer.kZero t_Width.unlimited) kWidth_Min := Sized_kZero _
  have hzv : (Integer.kZero t_Width.unlimited).toNatU = 0 := kZero_toNatU _
  have hzsign : (Integer.kZero t_Width.unlimited).toNatU <
      2 ^ (kWord_Bits_Cnt * kWidth_Min - 1) := by
    rw [hzv]
    positivity
  -- the right operand's msb bound
  have hmsbv : (⟨t_Width.unlimited, (⟨t_Width.unlimited,
      y.normTo (max ax ay)⟩ : Integer).normTo (2 * max ax ay)⟩ : Integer).Get_Msb_Idx =
      Integer.msbFrom ((⟨t_Width.unlimited, y.normTo (max ax ay)⟩ : Integer).normTo
        (2 * max ax ay)) (2 * max ax ay * kWord_Bits_Cnt - 1) := by
    show Integer.msbFrom _ _ = _
    rw [abc_of_sized hr2S]
  have hrbound : (⟨t_Width.unlimited, (⟨t_Width.unlimited,
      y.normTo (max ax ay)⟩ : Integer).normTo (2 * max ax ay)⟩ : Integer).toNatU <
      2 ^ ((⟨t_Width.unlimited, (⟨t_Width.unlimited,
        y.normTo (max ax ay)⟩ : Integer).normTo (2 * max ax ay)⟩ : Integer).Get_Msb_Idx
        + 1) := by
    rw [hmsbv]
    apply bitsToNat_lt_msbFrom
    rw [hr2len, h8]
    omega
  -- run the loop
  obtain ⟨hflag, hval, ⟨s', hs'0, hs'le, hS', hsign'⟩, hw'⟩ :=
    mulLoop_invariant_unlimited (by omega : 0 < 2 * max ax ay)
      (x.toNatU * y.toNatU) hP
      ((⟨t_Width.unlimited, (⟨t_Width.unlimited,
        y.normTo (max ax ay)⟩ : Integer).normTo (2 * max ax ay)⟩ : Integer).Get_Msb_Idx
        + 1)
      (Integer.kZero t_Width.unlimited)
      (⟨t_Width.unlimited, (⟨t_Width.unlimited,
        x.normTo (max ax ay)⟩ : Integer).normTo (2 * max ax ay)⟩ : Integer)
      (⟨t_Width.unlimited, (⟨t_Width.unlimited,
        y.normTo (max ax ay)⟩ : Integer).normTo (2 * max ax ay)⟩ : Integer)
      false kWidth_Min (by omega) (by omega) hzS hzsign hl2S hr2S rfl rfl rfl
      hrbound
      (by rw [hzv, hl2v, hr2v]; omega)
  -- shrink facts on the loop result
  obtain ⟨hs4', hshrS, hshrv, hshrw, hshrsign, hshrInt⟩ :=
    Shrink_facts _ s' hS' hs'0 hw'
  -- walk the kernel
  unfold Integer.Mul
  rw [hrw, hx.1, hy.1]
  dsimp only []
  rw [Get_Positive_of_positive hxp, Get_Positive_of_positive hyp]
  rw [GN_ok (show x.Get_Actual_Width ≤ max ax ay by rw [hx.1]; omega)]
  simp only [exceptBind_ok]
  rw [GN_ok (show y.Get_Actual_Width ≤ max ax ay by rw [hy.1]; omega)]
  simp only [exceptBind_ok]
  rw [GN_ok (show (⟨t_Width.unlimited, x.normTo (max ax ay)⟩ : Integer).Get_Actual_Width
      ≤ 2 * max ax ay by rw [hl1S.1]; omega)]
  simp only [exceptBind_ok]
  rw [GN_ok (show (⟨t_Width.unlimited, y.normTo (max ax ay)⟩ : Integer).Get_Actual_Width
      ≤ 2 * max ax ay by rw [hr1S.1]; omega)]
  simp only [exceptBind_ok, exceptBind_pure]
  rw [hxp, hyp]
  simp only [Bool.xor_self, Bool.not_false, reduceIte]
  refine ⟨_, _, rfl, hshrS, hs4', ?_, ?_, ?_, ?_⟩
  · rw [hshrw]
  · rw [hshrv, hval]
  · rw [Is_Positive_eq_not_signBit hshrS, hshrsign]
    rfl
  · rw [hshrInt, hval]

end mparith

namespace mparith

/-- `Get_Positive` on a negative value is the two's complement. -/
theorem Get_Positive_of_negative {x : Integer} (h : x.Is_Positive = false) :
    x.Get_Positive = x.Get_Complement := by
  unfold Integer.Get_Positive
  rw [h]
  simp

/-- The unsigned value of a sized bit string agrees with its signed value
modulo the width's range. -/
theorem toNatU_emod {z : Integer} {A : Nat} (hz : Sized z A) :
    (z.toNatU : Int) % (2 : Int) ^ (kWord_Bits_Cnt * A) =
      z.toInt % (2 : Int) ^ (kWord_Bits_Cnt * A) := by
  have h := bitsToInt_emod z.bits
  rw [hz.2] at h
  exact h.symm

/-- Two's-complement negation at a fixed width is exact modulo the width's
range, minimal-negative pattern included. -/
theorem Get_Complement_toInt_mod {z : Integer} {A : Nat}
    (hw : z.width = .fixed A) (hl : z.bits.length = kWord_Bits_Cnt * A)
    (hA : 0 < A) :
    z.Get_Complement.toInt % (2 : Int) ^ (kWord_Bits_Cnt * A) =
      (-z.toInt) % (2 : Int) ^ (kWord_Bits_Cnt * A) := by
  have hc := Get_Complement_spec_fixed z A hw hl hA
  by_cases hm : z.toInt = -((2 : Int) ^ (kWord_Bits_Cnt * A - 1))
  · rw [hc.2.2.2 hm, hm, neg_neg]
    have h2L : (2 : Int) ^ (kWord_Bits_Cnt * A) =
        (2 : Int) ^ (kWord_Bits_Cnt * A - 1) * 2 := by
      rw [← pow_succ]
      congr 1
      have h8 : kWord_Bits_Cnt = 8 := rfl
      rw [h8]
      omega
    rw [show -((2 : Int) ^ (kWord_Bits_Cnt * A - 1)) =
      (2 : Int) ^ (kWord_Bits_Cnt * A - 1) +
        (2 : Int) ^ (kWord_Bits_Cnt * A) * (-1) by rw [h2L]; ring]
    rw [Int.add_mul_emod_self_left]
  · rw [hc.2.2.1 hm]

/-- Unsigned truncation of `Add` at a common fixed width: the result always
holds the sum reduced modulo the width's range. -/
theorem Add_toNatU_mod {x y : Integer} {A : Nat}
    (hwx : x.width = .fixed A) (hwy : y.width = .fixed A)
    (hx : Sized x A) (hy : Sized y A) (hA : 0 < A) :
    (Integer.Add x y).1.toNatU =
      (x.toNatU + y.toNatU) % 2 ^ (kWord_Bits_Cnt * A) ∧
    Sized (Integer.Add x y).1 A ∧
    (Integer.Add x y).1.width = .fixed A := by
  have hrw : Get_Max_Width x.width y.width = .fixed A := by
    rw [hwx, hwy]
    show t_Width.fixed (max A A) = _
    rw [Nat.max_self]
  have hred := Add_eq_fixed x y A hrw
  have hraw : addRaw x y = A := by
    unfold addRaw
    rw [hx.1, hy.1, Nat.max_self]
  have hln : (x.normTo A).length = kWord_Bits_Cnt * A := normTo_length hx A (le_refl A)
  have hrn : (y.normTo A).length = kWord_Bits_Cnt * A := normTo_length hy A (le_refl A)
  have hsum_bits : bitsToNat (addSum x y) =
      (x.toNatU + y.toNatU) % 2 ^ (kWord_Bits_Cnt * A) := by
    unfold addSum
    rw [hraw]
    rw [addBits_toNat_fst _ _ false (by rw [hln, hrn])]
    rw [normTo_toNat_self hx hA, normTo_toNat_self hy hA, hln]
    simp
  refine ⟨?_, ?_, ?_⟩
  · show bitsToNat (Integer.Add x y).1.bits = _
    rw [hred]
    show bitsToNat (addSum x y) = _
    rw [hsum_bits]
  · rw [hred]
    apply Sized_mk_fixed
    show (addSum x y).length = _
    unfold addSum
    rw [hraw, addBits_length, hln]
  · rw [hred]

/-- The shift-and-add loop with no fit assumption: the unsigned value of the
result is always congruent to `result + left * right` modulo the common fixed
width's range (the carry flag is unconstrained). -/
theorem mulLoop_mod {A : Nat} (hA : 0 < A) :
    ∀ (k : Nat) (result left right : Integer) (c : Bool),
      Sized result A → Sized left A → Sized right A →
      result.width = .fixed A → left.width = .fixed A → right.width = .fixed A →
      right.toNatU < 2 ^ k →
      (Integer.mulLoop k result left right c).1.toNatU % 2 ^ (kWord_Bits_Cnt * A) =
        (result.toNatU + left.toNatU * right.toNatU) % 2 ^ (kWord_Bits_Cnt * A) ∧
      Sized (Integer.mulLoop k result left right c).1 A ∧
      (Integer.mulLoop k result left right c).1.width = .fixed A := by
  intro k
  induction k with
  | zero =>
    intro result left right c hres hleft hright hwres hwleft hwright hrk
    have hr0 : right.toNatU = 0 := by omega
    rw [hr0, Nat.mul_zero, Nat.add_zero]
    exact ⟨rfl, hres, hwres⟩
  | succ k ih =>
    intro result left right c hres hleft hright hwres hwleft hwright hrk
    have h8 : kWord_Bits_Cnt = 8 := rfl
    have hLpos : 0 < kWord_Bits_Cnt * A := by
      rw [h8]
      omega
    have hpar : (right.getBit 0).toNat = right.toNatU % 2 := by
      rw [getBit_toNat]
      simp
    have hl'S : Sized (left.shl 1) A := by
      refine Sized_congr hleft rfl ?_
      exact shl_one_length left
    have hl'w : (left.shl 1).width = .fixed A := hwleft
    have hl'v : (left.shl 1).toNatU = 2 * left.toNatU % 2 ^ (kWord_Bits_Cnt * A) := by
      rw [shl_one_toNatU, hleft.2]
    have hr'S : Sized (right.shr 1) A := by
      refine Sized_congr hright rfl ?_
      apply shr_one_length
      rw [hright.2]
      exact hLpos
    have hr'w : (right.shr 1).width = .fixed A := hwright
    have hr'v : (right.shr 1).toNatU = right.toNatU / 2 := shr_one_toNatU right
    have hr'k : (right.shr 1).toNatU < 2 ^ k := by
      rw [hr'v]
      rw [pow_succ] at hrk
      omega
    rw [mulLoop_succ]
    cases hb : right.getBit 0 with
    | false =>
      have hRe : right.toNatU % 2 = 0 := by
        rw [hb] at hpar
        simp at hpar
        omega
      simp only [Bool.false_eq_true, reduceIte]
      obtain ⟨hv, hS, hw⟩ := ih result (left.shl 1) (right.shr 1) c hres hl'S hr'S
        hwres hl'w hr'w hr'k
      refine ⟨?_, hS, hw⟩
      rw [hv, hl'v, hr'v]
      have h3 : 2 * left.toNatU * (right.toNatU / 2) =
          left.toNatU * right.toNatU := by
        have h2d : right.toNatU = 2 * (right.toNatU / 2) := by omega
        calc 2 * left.toNatU * (right.toNatU / 2)
            = left.toNatU * (2 * (right.toNatU / 2)) := by ring
          _ = left.toNatU * right.toNatU := by rw [← h2d]
      have h2m : (result.toNatU + 2 * left.toNatU % 2 ^ (kWord_Bits_Cnt * A) *
            (right.toNatU / 2)) % 2 ^ (kWord_Bits_Cnt * A) =
          (result.toNatU + 2 * left.toNatU * (right.toNatU / 2)) %
            2 ^ (kWord_Bits_Cnt * A) :=
        Nat.ModEq.add_left _ (Nat.ModEq.mul_right _ (Nat.mod_modEq _ _))
      rw [h2m, h3]
    | true =>
      have hRo : right.toNatU % 2 = 1 := by
        rw [hb] at hpar
        simp at hpar
        omega
      simp only [reduceIte]
      obtain ⟨hAv, hAS, hAw⟩ := Add_toNatU_mod hwres hwleft hres hleft hA
      obtain ⟨hv, hS, hw⟩ := ih (Integer.Add result left).1 (left.shl 1)
        (right.shr 1) (c || (Integer.Add result left).2.2) hAS hl'S hr'S hAw
        hl'w hr'w hr'k
      refine ⟨?_, hS, hw⟩
      rw [hv, hAv, hl'v, hr'v]
      have h3 : left.toNatU + 2 * left.toNatU * (right.toNatU / 2) =
          left.toNatU * right.toNatU := by
        have h2d : 2 * (right.toNatU / 2) + 1 = right.toNatU := by omega
        calc left.toNatU + 2 * left.toNatU * (right.toNatU / 2)
            = left.toNatU * (2 * (right.toNatU / 2) + 1) := by ring
          _ = left.toNatU * right.toNatU := by rw [h2d]
      have h2m : ((result.toNatU + left.toNatU) % 2 ^ (kWord_Bits_Cnt * A) +
            2 * left.toNatU % 2 ^ (kWord_Bits_Cnt * A) * (right.toNatU / 2)) %
              2 ^ (kWord_Bits_Cnt * A) =
          (result.toNatU + left.toNatU + 2 * left.toNatU * (right.toNatU / 2)) %
            2 ^ (kWord_Bits_Cnt * A) :=
        Nat.ModEq.add (Nat.mod_modEq _ _)
          (Nat.ModEq.mul_right _ (Nat.mod_modEq _ _))
      rw [h2m, Nat.add_assoc, h3]

end mparith

namespace mparith

/-- Fixed-width multiplication at a common word count never throws: it
returns a result pair whose value part keeps the word count and is congruent
to the mathematical product modulo `2 ^ (8A)`, whatever the overflow flag. -/
theorem Mul_fixed_mod (x y : Integer) (A : Nat)
    (hwx : x.width = .fixed A) (hwy : y.width = .fixed A)
    (hx : Sized x A) (hy : Sized y A) (hA : 0 < A) :
    ∃ res flag, Integer.Mul x y = .ok (res, flag) ∧ Sized res A ∧
      res.toInt % (2 : Int) ^ (kWord_Bits_Cnt * A) =
        (x.toInt * y.toInt) % (2 : Int) ^ (kWord_Bits_Cnt * A) := by
  have h8 : kWord_Bits_Cnt = 8 := rfl
  have hrw : Get_Max_Width x.width y.width = .fixed A := by
    rw [hwx, hwy]
    show t_Width.fixed (max A A) = _
    rw [Nat.max_self]
  have hcx := Get_Complement_spec_fixed x A hwx hx.2 hA
  have hcy := Get_Complement_spec_fixed y A hwy hy.2 hA
  have hpxS : Sized x.Get_Positive A := by
    cases hIP : x.Is_Positive with
    | false =>
      rw [Get_Positive_of_negative hIP]
      exact Sized_of_fixed hcx.1 hcx.2.1
    | true =>
      rw [Get_Positive_of_positive hIP]
      exact hx
  have hpyS : Sized y.Get_Positive A := by
    cases hIP : y.Is_Positive with
    | false =>
      rw [Get_Positive_of_negative hIP]
      exact Sized_of_fixed hcy.1 hcy.2.1
    | true =>
      rw [Get_Positive_of_positive hIP]
      exact hy
  have hpxv : (x.Get_Positive.toNatU : Int) % (2 : Int) ^ (kWord_Bits_Cnt * A) =
      (if x.Is_Positive = true then x.toInt else -x.toInt) %
        (2 : Int) ^ (kWord_Bits_Cnt * A) := by
    cases hIP : x.Is_Positive with
    | false =>
      simp only [Bool.false_eq_true, reduceIte]
      rw [Get_Positive_of_negative hIP,
        toNatU_emod (Sized_of_fixed hcx.1 hcx.2.1)]
      exact Get_Complement_toInt_mod hwx hx.2 hA
    | true =>
      simp only [reduceIte]
      rw [Get_Positive_of_positive hIP]
      exact toNatU_emod hx
  have hpyv : (y.Get_Positive.toNatU : Int) % (2 : Int) ^ (kWord_Bits_Cnt * A) =
      (if y.Is_Positive = true then y.toInt else -y.toInt) %
        (2 : Int) ^ (kWord_Bits_Cnt * A) := by
    cases hIP : y.Is_Positive with
    | false =>
      simp only [Bool.false_eq_true, reduceIte]
      rw [Get_Positive_of_negative hIP,
        toNatU_emod (Sized_of_fixed hcy.1 hcy.2.1)]
      exact Get_Complement_toInt_mod hwy hy.2 hA
    | true =>
      simp only [reduceIte]
      rw [Get_Positive_of_positive hIP]
      exact toNatU_emod hy
  have hGNx : x.Get_Positive.Get_Normalized (t_Width.fixed A) A =
      .ok ⟨t_Width.fixed A, x.Get_Positive.normTo A⟩ := by
    unfold Integer.Get_Normalized
    rw [hpxS.1]
    rw [if_pos (le_refl A)]
  have hGNy : y.Get_Positive.Get_Normalized (t_Width.fixed A) A =
      .ok ⟨t_Width.fixed A, y.Get_Positive.normTo A⟩ := by
    unfold Integer.Get_Normalized
    rw [hpyS.1]
    rw [if_pos (le_refl A)]
  have hlS : Sized (⟨t_Width.fixed A, x.Get_Positive.normTo A⟩ : Integer) A :=
    Sized_mk_fixed _ _ (normTo_length hpxS A (le_refl A))
  have hrS : Sized (⟨t_Width.fixed A, y.Get_Positive.normTo A⟩ : Integer) A :=
    Sized_mk_fixed _ _ (normTo_length hpyS A (le_refl A))
  have hlv : (⟨t_Width.fixed A, x.Get_Positive.normTo A⟩ : Integer).toNatU =
      x.Get_Positive.toNatU := by
    show bitsToNat (x.Get_Positive.normTo A) = _
    exact normTo_toNat_self hpxS hA
  have hrv : (⟨t_Width.fixed A, y.Get_Positive.normTo A⟩ : Integer).toNatU =
      y.Get_Positive.toNatU := by
    show bitsToNat (y.Get_Positive.normTo A) = _
    exact normTo_toNat_self hpyS hA
  have hzS : Sized (Integer.kZero (t_Width.fixed A)) A := Sized_kZero _
  have hzv : (Integer.kZero (t_Width.fixed A)).toNatU = 0 := kZero_toNatU _
  have hmsbv : (⟨t_Width.fixed A, y.Get_Positive.normTo A⟩ : Integer).Get_Msb_Idx =
      Integer.msbFrom (y.Get_Positive.normTo A) (A * kWord_Bits_Cnt - 1) := by
    show Integer.msbFrom (y.Get_Positive.normTo A) _ = _
    rw [abc_of_sized hrS]
  have hrbound : (⟨t_Width.fixed A, y.Get_Positive.normTo A⟩ : Integer).toNatU <
      2 ^ ((⟨t_Width.fixed A, y.Get_Positive.normTo A⟩ : Integer).Get_Msb_Idx + 1) := by
    rw [hmsbv]
    apply bitsToNat_lt_msbFrom
    rw [normTo_length hpyS A (le_refl A), h8]
    omega
  obtain ⟨hval, hS, hw⟩ := mulLoop_mod hA
    ((⟨t_Width.fixed A, y.Get_Positive.normTo A⟩ : Integer).Get_Msb_Idx + 1)
    (Integer.kZero (t_Width.fixed A))
    (⟨t_Width.fixed A, x.Get_Positive.normTo A⟩ : Integer)
    (⟨t_Width.fixed A, y.Get_Positive.normTo A⟩ : Integer) false
    hzS hlS hrS rfl rfl rfl hrbound
  rw [hzv, hlv, hrv, Nat.zero_add] at hval
  have hvalI : ((Integer.mulLoop
      ((⟨t_Width.fixed A, y.Get_Positive.normTo A⟩ : Integer).Get_Msb_Idx + 1)
      (Integer.kZero (t_Width.fixed A))
      (⟨t_Width.fixed A, x.Get_Positive.normTo A⟩ : Integer)
      (⟨t_Width.fixed A, y.Get_Positive.normTo A⟩ : Integer) false).1.toNatU : Int) %
        (2 : Int) ^ (kWord_Bits_Cnt * A) =
      ((x.Get_Positive.toNatU : Int) * (y.Get_Positive.toNatU : Int)) %
        (2 : Int) ^ (kWord_Bits_Cnt * A) := by
    exact_mod_cast hval
  have hloopInt : (Integer.mulLoop
      ((⟨t_Width.fixed A, y.Get_Positive.normTo A⟩ : Integer).Get_Msb_Idx + 1)
      (Integer.kZero (t_Width.fixed A))
      (⟨t_Width.fixed A, x.Get_Positive.normTo A⟩ : Integer)
      (⟨t_Width.fixed A, y.Get_Positive.normTo A⟩ : Integer) false).1.toInt %
        (2 : Int) ^ (kWord_Bits_Cnt * A) =
      ((x.Get_Positive.toNatU : Int) * (y.Get_Positive.toNatU : Int)) %
        (2 : Int) ^ (kWord_Bits_Cnt * A) := by
    rw [← toNatU_emod hS]
    exact hvalI
  have hGCl := Get_Complement_spec_fixed (Integer.mulLoop
      ((⟨t_Width.fixed A, y.Get_Positive.normTo A⟩ : Integer).Get_Msb_Idx + 1)
      (Integer.kZero (t_Width.fixed A))
      (⟨t_Width.fixed A, x.Get_Positive.normTo A⟩ : Integer)
      (⟨t_Width.fixed A, y.Get_Positive.normTo A⟩ : Integer) false).1 A hw hS.2 hA
  have hGClS : Sized (Integer.mulLoop
      ((⟨t_Width.fixed A, y.Get_Positive.normTo A⟩ : Integer).Get_Msb_Idx + 1)
      (Integer.kZero (t_Width.fixed A))
      (⟨t_Width.fixed A, x.Get_Positive.normTo A⟩ : Integer)
      (⟨t_Width.fixed A, y.Get_Positive.normTo A⟩ : Integer) false).1.Get_Complement
      A := Sized_of_fixed hGCl.1 hGCl.2.1
  have hGClI : (Integer.mulLoop
      ((⟨t_Width.fixed A, y.Get_Positive.normTo A⟩ : Integer).Get_Msb_Idx + 1)
      (Integer.kZero (t_Width.fixed A))
      (⟨t_Width.fixed A, x.Get_Positive.normTo A⟩ : Integer)
      (⟨t_Width.fixed A, y.Get_Positive.normTo A⟩ : Integer) false).1.Get_Complement.toInt %
        (2 : Int) ^ (kWord_Bits_Cnt * A) =
      (-((x.Get_Positive.toNatU : Int) * (y.Get_Positive.toNatU : Int))) %
        (2 : Int) ^ (kWord_Bits_Cnt * A) := by
    rw [Get_Complement_toInt_mod hw hS.2 hA]
    have h1 : Int.ModEq ((2 : Int) ^ (kWord_Bits_Cnt * A))
        ((Integer.mulLoop
          ((⟨t_Width.fixed A, y.Get_Positive.normTo A⟩ : Integer).Get_Msb_Idx + 1)
          (Integer.kZero (t_Width.fixed A))
          (⟨t_Width.fixed A, x.Get_Positive.normTo A⟩ : Integer)
          (⟨t_Width.fixed A, y.Get_Positive.normTo A⟩ : Integer) false).1.toInt)
        ((x.Get_Positive.toNatU : Int) * (y.Get_Positive.toNatU : Int)) := hloopInt
    exact Int.ModEq.neg h1
  unfold Integer.Mul
  rw [hrw, hx.1, hy.1, Nat.max_self]
  dsimp only []
  rw [hGNx]
  simp only [exceptBind_ok]
  rw [hGNy]
  simp only [exceptBind_ok, exceptBind_pure]
  cases hxIP : x.Is_Positive with
  | true =>
    rw [hxIP] at hpxv
    simp only [reduceIte] at hpxv
    cases hyIP : y.Is_Positive with
    | true =>
      rw [hyIP] at hpyv
      simp only [reduceIte] at hpyv
      simp only [Bool.xor_self, Bool.not_false, reduceIte]
      refine ⟨_, _, rfl, hS, ?_⟩
      rw [hloopInt, Int.mul_emod, hpxv, hpyv, ← Int.mul_emod]
    | false =>
      rw [hyIP] at hpyv
      simp only [Bool.false_eq_true, reduceIte] at hpyv
      simp only [Bool.xor_false, Bool.not_true, Bool.false_eq_true, reduceIte]
      refine ⟨_, _, rfl, hGClS, ?_⟩
      rw [hGClI]
      have h2 : ((x.Get_Positive.toNatU : Int) * (y.Get_Positive.toNatU : Int)) %
            (2 : Int) ^ (kWord_Bits_Cnt * A) =
          (x.toInt * -y.toInt) % (2 : Int) ^ (kWord_Bits_Cnt * A) := by
        rw [Int.mul_emod, hpxv, hpyv, ← Int.mul_emod]
      have h1 : Int.ModEq ((2 : Int) ^ (kWord_Bits_Cnt * A))
          ((x.Get_Positive.toNatU : Int) * (y.Get_Positive.toNatU : Int))
          (x.toInt * -y.toInt) := h2
      have h3 : (-((x.Get_Positive.toNatU : Int) * (y.Get_Positive.toNatU : Int))) %
            (2 : Int) ^ (kWord_Bits_Cnt * A) =
          (-(x.toInt * -y.toInt)) % (2 : Int) ^ (kWord_Bits_Cnt * A) :=
        Int.ModEq.neg h1
      rw [h3, show -(x.toInt * -y.toInt) = x.toInt * y.toInt by ring]
  | false =>
    rw [hxIP] at hpxv
    simp only [Bool.false_eq_true, reduceIte] at hpxv
    cases hyIP : y.Is_Positive with
    | true =>
      rw [hyIP] at hpyv
      simp only [reduceIte] at hpyv
      simp only [Bool.false_xor, Bool.not_true, Bool.false_eq_true, reduceIte]
      refine ⟨_, _, rfl, hGClS, ?_⟩
      rw [hGClI]
      have h2 : ((x.Get_Positive.toNatU : Int) * (y.Get_Positive.toNatU : Int)) %
            (2 : Int) ^ (kWord_Bits_Cnt * A) =
          (-x.toInt * y.toInt) % (2 : Int) ^ (kWord_Bits_Cnt * A) := by
        rw [Int.mul_emod, hpxv, hpyv, ← Int.mul_emod]
      have h1 : Int.ModEq ((2 : Int) ^ (kWord_Bits_Cnt * A))
          ((x.Get_Positive.toNatU : Int) * (y.Get_Positive.toNatU : Int))
          (-x.toInt * y.toInt) := h2
      have h3 : (-((x.Get_Positive.toNatU : Int) * (y.Get_Positive.toNatU : Int))) %
            (2 : Int) ^ (kWord_Bits_Cnt * A) =
          (-(-x.toInt * y.toInt)) % (2 : Int) ^ (kWord_Bits_Cnt * A) :=
        Int.ModEq.neg h1
      rw [h3, show -(-x.toInt * y.toInt) = x.toInt * y.toInt by ring]
    | false =>
      rw [hyIP] at hpyv
      simp only [Bool.false_eq_true, reduceIte] at hpyv
      simp only [Bool.xor_false, Bool.not_false, reduceIte]
      refine ⟨_, _, rfl, hS, ?_⟩
      rw [hloopInt, Int.mul_emod, hpxv, hpyv, ← Int.mul_emod, neg_mul_neg]

/-- When a same-width fixed multiplication overflows, the attached truncated
result is congruent to the mathematical product modulo `2 ^ (8n)`. -/
theorem opMul_overflow_trunc {x y : Integer} {n : Nat} {t : Integer}
    (hwx : x.width = .fixed n) (hwy : y.width = .fixed n)
    (hlx : x.bits.length = kWord_Bits_Cnt * n)
    (hly : y.bits.length = kWord_Bits_Cnt * n) (hn : 0 < n)
    (h : Integer.opMul x y = .error (.overflow t)) :
    t.toInt % (2 : Int) ^ (kWord_Bits_Cnt * n) =
      (x.toInt * y.toInt) % (2 : Int) ^ (kWord_Bits_Cnt * n) := by
  obtain ⟨res, flag, hMul, hS, hmod⟩ :=
    Mul_fixed_mod x y n hwx hwy (Sized_of_fixed hwx hlx) (Sized_of_fixed hwy hly) hn
  cases flag with
  | false =>
    have hred : Integer.opMul x y = .ok res := by
      unfold Integer.opMul
      rw [hMul]
      rfl
    rw [hred] at h
    simp at h
  | true =>
    have hred : Integer.opMul x y = .error (.overflow res) := by
      unfold Integer.opMul
      rw [hMul]
      rfl
    rw [hred] at h
    simp only [Except.error.injEq, MpError.overflow.injEq] at h
    rw [← h]
    exact hmod

end mparith

namespace mparith

/-- C2 (corrected): overflow errors come only from fixed result widths — with
an unlimited result width none of the five arithmetic operators ever raises
`OverflowError` — and for same-width fixed addition, subtraction and
multiplication the attached truncated result is congruent to the mathematical
result modulo `2 ^ (8n)`.  (The claim's "only when the mathematical result is
not representable" part is false for multiplication, where a representable
product can raise; see the claim's counterexample theorem.) -/
theorem C2_overflow_scope_and_truncation (x y : Integer) :
    (Get_Max_Width x.width y.width = .unlimited →
      ∀ t, Integer.opAdd x y ≠ .error (.overflow t) ∧
        Integer.opSub x y ≠ .error (.overflow t) ∧
        Integer.opMul x y ≠ .error (.overflow t) ∧
        Integer.opDiv x y ≠ .error (.overflow t) ∧
        Integer.opMod x y ≠ .error (.overflow t)) ∧
    (∀ n t, x.width = .fixed n → y.width = .fixed n →
      x.bits.length = kWord_Bits_Cnt * n →
      y.bits.length = kWord_Bits_Cnt * n → 0 < n →
      (Integer.opAdd x y = .error (.overflow t) →
        t.toInt % (2 : Int) ^ (kWord_Bits_Cnt * n) =
          (x.toInt + y.toInt) % (2 : Int) ^ (kWord_Bits_Cnt * n)) ∧
      (Integer.opSub x y = .error (.overflow t) →
        t.toInt % (2 : Int) ^ (kWord_Bits_Cnt * n) =
          (x.toInt - y.toInt) % (2 : Int) ^ (kWord_Bits_Cnt * n)) ∧
      (Integer.opMul x y = .error (.overflow t) →
        t.toInt % (2 : Int) ^ (kWord_Bits_Cnt * n) =
          (x.toInt * y.toInt) % (2 : Int) ^ (kWord_Bits_Cnt * n))) := by
  constructor
  · intro hrw t
    exact ⟨opAdd_no_overflow_of_unlimited hrw t,
      opSub_no_overflow_of_unlimited hrw t,
      opMul_no_overflow_of_unlimited hrw t,
      opDiv_no_overflow_of_unlimited hrw t,
      opMod_no_overflow_of_unlimited hrw t⟩
  · intro n t hwx hwy hlx hly hn
    exact ⟨opAdd_overflow_trunc hwx hwy hlx hly hn,
      opSub_overflow_trunc hwx hwy hlx hly hn,
      opMul_overflow_trunc hwx hwy hlx hly hn⟩

theorem C2_overflow_scope_and_truncation_witness :
    (Integer.opAdd (Integer.kOne t_Width.unlimited)
        (Integer.kOne t_Width.unlimited) ≠
        .error (.overflow (Integer.kZero t_Width.unlimited)) ∧
      Integer.opSub (Integer.kOne t_Width.unlimited)
        (Integer.kOne t_Width.unlimited) ≠
        .error (.overflow (Integer.kZero t_Width.unlimited)) ∧
      Integer.opMul (Integer.kOne t_Width.unlimited)
        (Integer.kOne t_Width.unlimited) ≠
        .error (.overflow (Integer.kZero t_Width.unlimited)) ∧
      Integer.opDiv (Integer.kOne t_Width.unlimited)
        (Integer.kOne t_Width.unlimited) ≠
        .error (.overflow (Integer.kZero t_Width.unlimited)) ∧
      Integer.opMod (Integer.kOne t_Width.unlimited)
        (Integer.kOne t_Width.unlimited) ≠
        .error (.overflow (Integer.kZero t_Width.unlimited))) ∧
    (Integer.kZero (t_Width.fixed 4)).toInt % (2 : Int) ^ (kWord_Bits_Cnt * 4) =
      ((minNegFixed 4).toInt + (minNegFixed 4).toInt) %
        (2 : Int) ^ (kWord_Bits_Cnt * 4) :=
  ⟨(C2_overflow_scope_and_truncation (Integer.kOne t_Width.unlimited)
      (Integer.kOne t_Width.unlimited)).1 rfl (Integer.kZero t_Width.unlimited),
    ((C2_overflow_scope_and_truncation (minNegFixed 4) (minNegFixed 4)).2 4
      (Integer.kZero (t_Width.fixed 4)) rfl rfl (by decide) (by decide)
      (by decide)).1 rfl⟩

end mparith
